import Mathlib

/-!
# Digital synth: envelope, instruments, mixer and step sequencer

A shallow embedding of `Main.cpp` (namespace `synthesizer`, `SafeRemove`,
`GenerateNoise`) and the properties proved about it.

## Numeric model

`I_FREQ_TYPE` is `double`.  A value of that type is modelled by `Dbl`: a
rational, or one of the three non-finite values (`+inf`, `-inf`, `NaN`).  The
program is embedded at two levels of arithmetic.

The operators `+`, `-`, `*`, `/` of `Dbl` are exact on finite values, and a
decimal literal denotes the rational it spells.  The definitions written with
them give the values that the formulas of the source denote; the properties of
the envelope, the instruments, the mixer and the sequencer that do not depend
on rounding are stated on them.

The operations of `binary64` round every finite result to the nearest `double`,
ties to even, and overflow to the infinities, as IEEE 754 binary64 does.  The
attack ramp, the oscillator, the pitch mapping and the step sequencer are
embedded a second time with these operations (namespace
`synthesizer.binary64`), the stream engine is embedded with them only, and the
properties that depend on rounding are stated there.

Zero carries no sign and divides like `+0.0`, the zero the literals of the
source denote.  Comparisons follow IEEE 754: every comparison with `NaN` is
false.  `int` is modelled by `Int` (the pitch ids and step counters of the
program stay far from the range limits).
-/

namespace synthesizer

/-- Value of a `double`: an exact rational or a non-finite IEEE value. -/
inductive Dbl where
  | fin (q : ℚ)
  | pinf
  | ninf
  | nan
  deriving DecidableEq

namespace Dbl

/-- Literal of the source: the rational the decimal spells. -/
abbrev lit (q : ℚ) : Dbl := fin q

/-- Unary minus. -/
def neg : Dbl → Dbl
  | fin q => fin (-q)
  | pinf => ninf
  | ninf => pinf
  | nan => nan

/-- Addition; `inf + (-inf)` is `NaN`. -/
def add : Dbl → Dbl → Dbl
  | fin a, fin b => fin (a + b)
  | nan, _ => nan
  | _, nan => nan
  | pinf, ninf => nan
  | ninf, pinf => nan
  | pinf, _ => pinf
  | _, pinf => pinf
  | ninf, _ => ninf
  | _, ninf => ninf

/-- Subtraction, `a + (-b)`. -/
def sub (a b : Dbl) : Dbl := add a (neg b)

/-- Infinity with the sign of `q * s`, where `s` is `+1` for `pos = true`;
`NaN` when `q = 0`. -/
def infTimes (pos : Bool) (q : ℚ) : Dbl :=
  if q = 0 then nan else if decide (0 < q) == pos then pinf else ninf

/-- Multiplication; `0 * inf` is `NaN`. -/
def mul : Dbl → Dbl → Dbl
  | fin a, fin b => fin (a * b)
  | nan, _ => nan
  | _, nan => nan
  | fin a, pinf => infTimes true a
  | fin a, ninf => infTimes false a
  | pinf, fin b => infTimes true b
  | ninf, fin b => infTimes false b
  | pinf, pinf => pinf
  | pinf, ninf => ninf
  | ninf, pinf => ninf
  | ninf, ninf => pinf

/-- Division; `x / 0` is an infinity with the sign of `x`, `0 / 0` and
`inf / inf` are `NaN`, a finite value over an infinity is `0`. -/
def div : Dbl → Dbl → Dbl
  | fin a, fin b => if b = 0 then infTimes true a else fin (a / b)
  | nan, _ => nan
  | _, nan => nan
  | fin _, pinf => fin 0
  | fin _, ninf => fin 0
  | pinf, fin b => if 0 ≤ b then pinf else ninf
  | ninf, fin b => if 0 ≤ b then ninf else pinf
  | pinf, pinf => nan
  | pinf, ninf => nan
  | ninf, pinf => nan
  | ninf, ninf => nan

/-- Comparison `a <= b` of the source. -/
def le : Dbl → Dbl → Bool
  | fin a, fin b => decide (a ≤ b)
  | nan, _ => false
  | _, nan => false
  | ninf, _ => true
  | _, pinf => true
  | pinf, _ => false
  | fin _, ninf => false

/-- Comparison `a < b` of the source. -/
def lt : Dbl → Dbl → Bool
  | fin a, fin b => decide (a < b)
  | nan, _ => false
  | _, nan => false
  | pinf, _ => false
  | _, ninf => false
  | ninf, _ => true
  | fin _, pinf => true

/-- Comparison `a > b` of the source. -/
def gt (a b : Dbl) : Bool := lt b a

/-- Comparison `a >= b` of the source. -/
def ge (a b : Dbl) : Bool := le b a

/-- Conversion `(double) i` of an `int`. -/
def ofInt (i : Int) : Dbl := fin i

instance : Add Dbl := ⟨add⟩
instance : Sub Dbl := ⟨sub⟩
instance : Mul Dbl := ⟨mul⟩
instance : Div Dbl := ⟨div⟩
instance : Neg Dbl := ⟨neg⟩

end Dbl

/-! ## Arithmetic of `double` -/

namespace binary64

/-- Exponent of the binade of `q` in `double`: `⌊log₂ |q|⌋`, and the exponent
`-1022` of the subnormal numbers below it. -/
def exponent (q : ℚ) : Int := max (Int.log 2 |q|) (-1022)

/-- Nearest integer, the even one of two that are equally near. -/
def roundEven (x : ℚ) : Int :=
  if x - ⌊x⌋ < 1 / 2 then ⌊x⌋
  else if 1 / 2 < x - ⌊x⌋ then ⌊x⌋ + 1
  else if ⌊x⌋ % 2 = 0 then ⌊x⌋ else ⌊x⌋ + 1

/-- Nearest multiple of the spacing `2 ^ (exponent q - 52)` of the `double`
values around `q` (53 bits of precision), ties to even. -/
def nearest (q : ℚ) : ℚ := roundEven (q / 2 ^ (exponent q - 52)) * 2 ^ (exponent q - 52)

/-- Rounding of an exact result to `double` (IEEE 754 binary64, round to
nearest, ties to even): overflow gives an infinity. -/
def round (q : ℚ) : Dbl :=
  if 2 ^ (1024 : ℤ) ≤ nearest q then .pinf
  else if nearest q ≤ -2 ^ (1024 : ℤ) then .ninf
  else .fin (nearest q)

/-- Result of an arithmetic operation as the `double` it is stored in: a finite
exact result is rounded, the infinities and `NaN` stay. -/
def rnd : Dbl → Dbl
  | .fin q => round q
  | x => x

/-- Operator `+` of `double`. -/
def add (a b : Dbl) : Dbl := rnd (a + b)

/-- Operator `-` of `double`. -/
def sub (a b : Dbl) : Dbl := rnd (a - b)

/-- Operator `*` of `double`. -/
def mul (a b : Dbl) : Dbl := rnd (a * b)

/-- Operator `/` of `double`. -/
def div (a b : Dbl) : Dbl := rnd (a / b)

/-- A decimal literal of the source as the `double` the compiler stores. -/
def lit (q : ℚ) : Dbl := round q

end binary64

open Dbl (lit)

/-! ## Envelope -/

/-- Fields of `struct EnvelopeADSR`. -/
structure EnvelopeADSR where
  attackTime : Dbl
  decayTime : Dbl
  sustainTime : Dbl
  releaseTime : Dbl
  startAmplitude : Dbl

/-- Constructor `EnvelopeADSR()`. -/
def EnvelopeADSR.new : EnvelopeADSR :=
  { attackTime := lit 0.1
    decayTime := lit 0.1
    sustainTime := lit 1.0
    releaseTime := lit 0.2
    startAmplitude := lit 1.0 }

/-- The three consecutive `if` statements that both branches of
`EnvelopeADSR::amplitude` run on their `lifeTime`; `init` is the value the
assigned variable holds before them (`0.0` in both branches). -/
def EnvelopeADSR.phases (e : EnvelopeADSR) (lifeTime init : Dbl) : Dbl :=
  let a := init
  let a :=
    if Dbl.le lifeTime e.attackTime then
      (lifeTime / e.attackTime) * e.startAmplitude
    else a
  let a :=
    if Dbl.gt lifeTime e.attackTime && Dbl.le lifeTime (e.attackTime + e.decayTime) then
      ((lifeTime - e.attackTime) / e.decayTime) * (e.sustainTime - e.startAmplitude)
        + e.startAmplitude
    else a
  let a :=
    if Dbl.gt lifeTime (e.attackTime + e.decayTime) then e.sustainTime else a
  a

/-- Value of the local `amplitude` of `EnvelopeADSR::amplitude` just before
the final silence-floor test. -/
def EnvelopeADSR.unclamped (e : EnvelopeADSR) (time timeOn timeOff : Dbl) : Dbl :=
  let amplitude : Dbl := lit 0.0
  let releaseAmplitude : Dbl := lit 0.0
  if Dbl.gt timeOn timeOff then
    let lifeTime := time - timeOn
    e.phases lifeTime amplitude
  else
    let lifeTime := timeOff - timeOn
    let releaseAmplitude := e.phases lifeTime releaseAmplitude
    ((time - timeOff) / e.releaseTime) * (lit 0.0 - releaseAmplitude) + releaseAmplitude

/-- Method `EnvelopeADSR::amplitude`. -/
def EnvelopeADSR.amplitude (e : EnvelopeADSR) (time timeOn timeOff : Dbl) : Dbl :=
  let amplitude := e.unclamped time timeOn timeOff
  if Dbl.le amplitude (lit 0.01) then lit 0.0 else amplitude

/-- Function `envelopeOutput(time, envelope, timeOn, timeOff)`. -/
def envelopeOutput (time : Dbl) (envelope : EnvelopeADSR) (timeOn timeOff : Dbl) : Dbl :=
  envelope.amplitude time timeOn timeOff

/-! ## Notes, oscillators and pitch -/

/-- Dynamic class of an instrument object: selects the `sound` override that a
virtual call through a `BaseInstrument*` runs. -/
inductive InstrumentKind where
  | bell
  | bell8
  | harmonica
  | supersaw
  | kickDrum
  | snareDrum
  | hiHat
  deriving DecidableEq

/-- Fields of `struct BaseInstrument`, with the dynamic class of the object. -/
structure BaseInstrument where
  kind : InstrumentKind
  volume : Dbl
  envelopeOutput : EnvelopeADSR
  maxLifeTme : Dbl
  name : String

/-- Fields of `struct Note`; `channel` is the `BaseInstrument*`, `none` for
`nullptr`; `on_` and `off_` are the fields `on` and `off` (`on` is reserved
in Lean). -/
structure Note where
  id : Int
  on_ : Dbl
  off_ : Dbl
  active : Bool
  channel : Option BaseInstrument

/-- Constructor `Note()`. -/
def Note.new : Note :=
  { id := 0, on_ := lit 0.0, off_ := lit 0.0, active := false, channel := none }

/-- The C library the source calls into: the transcendental functions and the
stream of values that successive calls of `rand()` return. -/
structure LibM where
  sin : Dbl → Dbl
  asin : Dbl → Dbl
  acos : Dbl → Dbl
  RAND_MAX : Int
  rand : Nat → Int

/-- Reason for which a run yields no result. -/
inductive Fault where
  | outOfFuel
  | outOfRange
  deriving DecidableEq, Repr

/-- Constant `PI = 2.0 * acos(0.0)`. -/
def PI (m : LibM) : Dbl := lit 2.0 * m.acos (lit 0.0)

/-- Function `ConvertToHz`. -/
def ConvertToHz (m : LibM) (hertz : Dbl) : Dbl := hertz * lit 2.0 * PI m

def SINE_WAVE : Int := 0
def SQUARE_WAVE : Int := 1
def TRIANGLE_WAVE : Int := 2
def SAW_WAVE : Int := 3
def NOISE : Int := 4

/-- Loop `for (n = 1.0; n < custom; n++) output += sin(n * frequency) / n` of
the `SAW_WAVE` case, started at counter `n` with `output`; one unit of fuel per
iteration. -/
def Oscillate.sawLoop (m : LibM) (frequency custom : Dbl) :
    Nat → Dbl → Dbl → Except Fault Dbl
  | fuel, n, output =>
    if Dbl.lt n custom then
      match fuel with
      | 0 => .error .outOfFuel
      | fuel + 1 =>
        Oscillate.sawLoop m frequency custom fuel (n + lit 1)
          (output + m.sin (n * frequency) / n)
    else .ok output

/-- Function `Oscillate`.  `rng` counts the calls of `rand()` made so far; the
result carries the updated count. -/
def Oscillate (m : LibM) (fuel rng : Nat) (time hertz : Dbl) (type : Int)
    (lfoHertz lfoAmplitude custom : Dbl) : Except Fault (Dbl × Nat) :=
  let frequency :=
    ConvertToHz m hertz * time + lfoAmplitude * hertz * m.sin (ConvertToHz m lfoHertz * time)
  if type = SINE_WAVE then
    .ok (m.sin frequency, rng)
  else if type = SQUARE_WAVE then
    .ok (if Dbl.gt (m.sin frequency) (lit 0) then lit 1.0 else lit (-1.0), rng)
  else if type = TRIANGLE_WAVE then
    .ok (m.asin (m.sin frequency) * (lit 2.0 / PI m), rng)
  else if type = SAW_WAVE then
    match Oscillate.sawLoop m frequency custom fuel (lit 1.0) (lit 0.0) with
    | .error f => .error f
    | .ok output => .ok (output * (lit 2.0 / PI m), rng)
  else if type = NOISE then
    .ok (lit 2.0 * (Dbl.ofInt (m.rand rng) / Dbl.ofInt m.RAND_MAX) - lit 1.0, rng + 1)
  else
    .ok (lit 0.0, rng)

/-- Function `Scale`: `8 * pow(1.0594630943592952645618252949463, noteId)`,
the integer power taken exactly. -/
def Scale (noteId : Int) : Dbl :=
  lit 8 * Dbl.fin ((1.0594630943592952645618252949463 : ℚ) ^ noteId)

/-! ## Instruments -/

/-- Constructor `Bell()`. -/
def Bell.new : BaseInstrument :=
  { kind := .bell
    envelopeOutput :=
      { EnvelopeADSR.new with
        attackTime := lit 0.01
        decayTime := lit 1.0
        sustainTime := lit 0.0
        releaseTime := lit 1.0 }
    maxLifeTme := lit 3.0
    volume := lit 1.0
    name := "Bell" }

/-- Method `Bell::sound`; `noteFinished` is the `bool&` argument, passed in and
returned. -/
def Bell.sound (m : LibM) (fuel rng : Nat) (self : BaseInstrument) (time : Dbl) (n : Note)
    (noteFinished : Bool) : Except Fault (Dbl × Bool × Nat) := do
  let amplitude := envelopeOutput time self.envelopeOutput n.on_ n.off_
  let noteFinished := if Dbl.le amplitude (lit 0.0) then true else noteFinished
  let o1 ← Oscillate m fuel rng (time - n.on_) (Scale (n.id + 12))
      SINE_WAVE (lit 5.0) (lit 0.001) (lit 50.0)
  let o2 ← Oscillate m fuel o1.2 (time - n.on_) (Scale (n.id + 24))
      SINE_WAVE (lit 0.0) (lit 0.0) (lit 50.0)
  let o3 ← Oscillate m fuel o2.2 (time - n.on_) (Scale (n.id + 36))
      SINE_WAVE (lit 0.0) (lit 0.0) (lit 50.0)
  let sound := lit 1.00 * o1.1 + lit 0.50 * o2.1 + lit 0.25 * o3.1
  pure (amplitude * sound * self.volume, noteFinished, o3.2)

/-- Constructor `Bell8()`. -/
def Bell8.new : BaseInstrument :=
  { kind := .bell8
    envelopeOutput :=
      { EnvelopeADSR.new with
        attackTime := lit 0.01
        decayTime := lit 0.5
        sustainTime := lit 0.8
        releaseTime := lit 1.0 }
    maxLifeTme := lit 3.0
    volume := lit 1.0
    name := "8-Bit Bell" }

/-- Method `Bell8::sound`; `noteFinished` is the `bool&` argument, passed in and
returned. -/
def Bell8.sound (m : LibM) (fuel rng : Nat) (self : BaseInstrument) (time : Dbl) (n : Note)
    (noteFinished : Bool) : Except Fault (Dbl × Bool × Nat) := do
  let amplitude := envelopeOutput time self.envelopeOutput n.on_ n.off_
  let noteFinished := if Dbl.le amplitude (lit 0.0) then true else noteFinished
  let o1 ← Oscillate m fuel rng (time - n.on_) (Scale n.id)
      SQUARE_WAVE (lit 5.0) (lit 0.001) (lit 50.0)
  let o2 ← Oscillate m fuel o1.2 (time - n.on_) (Scale (n.id + 12))
      SINE_WAVE (lit 0.0) (lit 0.0) (lit 50.0)
  let o3 ← Oscillate m fuel o2.2 (time - n.on_) (Scale (n.id + 24))
      SINE_WAVE (lit 0.0) (lit 0.0) (lit 50.0)
  let sound := lit 1.00 * o1.1 + lit 0.50 * o2.1 + lit 0.25 * o3.1
  pure (amplitude * sound * self.volume, noteFinished, o3.2)

/-- Constructor `Harmonica()`. -/
def Harmonica.new : BaseInstrument :=
  { kind := .harmonica
    envelopeOutput :=
      { EnvelopeADSR.new with
        attackTime := lit 0.1
        decayTime := lit 1.0
        sustainTime := lit 0.95
        releaseTime := lit 0.1 }
    maxLifeTme := lit (-1.0)
    volume := lit 0.3
    name := "Harmonica" }

/-- Method `Harmonica::sound`; `noteFinished` is the `bool&` argument, passed in and
returned. -/
def Harmonica.sound (m : LibM) (fuel rng : Nat) (self : BaseInstrument) (time : Dbl) (n : Note)
    (noteFinished : Bool) : Except Fault (Dbl × Bool × Nat) := do
  let amplitude := envelopeOutput time self.envelopeOutput n.on_ n.off_
  let noteFinished := if Dbl.le amplitude (lit 0.0) then true else noteFinished
  let o1 ← Oscillate m fuel rng (n.on_ - time) (Scale (n.id - 12))
      SAW_WAVE (lit 5.0) (lit 0.001) (lit 100)
  let o2 ← Oscillate m fuel o1.2 (time - n.on_) (Scale n.id)
      SQUARE_WAVE (lit 5.0) (lit 0.001) (lit 50.0)
  let o3 ← Oscillate m fuel o2.2 (time - n.on_) (Scale (n.id + 12))
      SQUARE_WAVE (lit 0.0) (lit 0.0) (lit 50.0)
  let o4 ← Oscillate m fuel o3.2 (time - n.on_) (Scale (n.id + 24))
      NOISE (lit 0.0) (lit 0.0) (lit 50.0)
  let sound := lit 1.0 * o1.1 + lit 1.00 * o2.1 + lit 0.50 * o3.1 + lit 0.05 * o4.1
  pure (amplitude * sound * self.volume, noteFinished, o4.2)

/-- Constructor `Supersaw()`. -/
def Supersaw.new : BaseInstrument :=
  { kind := .supersaw
    envelopeOutput :=
      { EnvelopeADSR.new with
        attackTime := lit 0.05
        decayTime := lit 1.0
        sustainTime := lit 0.95
        releaseTime := lit 0.1 }
    maxLifeTme := lit (-1.0)
    volume := lit 0.3
    name := "Supersaw" }

/-- Method `Supersaw::sound`; `noteFinished` is the `bool&` argument, passed in and
returned. -/
def Supersaw.sound (m : LibM) (fuel rng : Nat) (self : BaseInstrument) (time : Dbl) (n : Note)
    (noteFinished : Bool) : Except Fault (Dbl × Bool × Nat) := do
  let amplitude := envelopeOutput time self.envelopeOutput n.on_ n.off_
  let noteFinished := if Dbl.le amplitude (lit 0.0) then true else noteFinished
  let o1 ← Oscillate m fuel rng (n.on_ - time) (Scale (n.id - 12))
      SAW_WAVE (lit 5.0) (lit 0.001) (lit 100)
  let o2 ← Oscillate m fuel o1.2 (time - n.on_) (Scale n.id)
      SAW_WAVE (lit 5.0) (lit 0.001) (lit 50.0)
  let o3 ← Oscillate m fuel o2.2 (time - n.on_) (Scale (n.id + 12))
      SAW_WAVE (lit 0.0) (lit 0.0) (lit 50.0)
  let o4 ← Oscillate m fuel o3.2 (time - n.on_) (Scale (n.id + 24))
      NOISE (lit 0.0) (lit 0.0) (lit 50.0)
  let sound := lit 1.0 * o1.1 + lit 1.0 * o2.1 + lit 0.50 * o3.1 + lit 0.05 * o4.1
  pure (amplitude * sound * self.volume, noteFinished, o4.2)

/-- Constructor `KickDrum()`. -/
def KickDrum.new : BaseInstrument :=
  { kind := .kickDrum
    envelopeOutput :=
      { EnvelopeADSR.new with
        attackTime := lit 0.01
        decayTime := lit 0.075
        sustainTime := lit 0.0
        releaseTime := lit 0.0 }
    maxLifeTme := lit 1.5
    volume := lit 2.0
    name := "Drum Kick" }

/-- Method `KickDrum::sound`; `noteFinished` is the `bool&` argument, passed in and
returned. -/
def KickDrum.sound (m : LibM) (fuel rng : Nat) (self : BaseInstrument) (time : Dbl) (n : Note)
    (noteFinished : Bool) : Except Fault (Dbl × Bool × Nat) := do
  let amplitude := envelopeOutput time self.envelopeOutput n.on_ n.off_
  let noteFinished :=
    if Dbl.gt self.maxLifeTme (lit 0.0) && Dbl.ge (time - n.on_) self.maxLifeTme then true
    else noteFinished
  let o1 ← Oscillate m fuel rng (time - n.on_) (Scale (n.id - 36))
      SINE_WAVE (lit 1.0) (lit 1.0) (lit 50.0)
  let o2 ← Oscillate m fuel o1.2 (time - n.on_) (Scale (n.id - 48))
      SINE_WAVE (lit 2) (lit 2.0) (lit 50.0)
  let o3 ← Oscillate m fuel o2.2 (time - n.on_) (lit 880.0)
      NOISE (lit 0.0) (lit 0.0) (lit 50.0)
  let sound := lit 1.0 * o1.1 + lit 1.0 * o2.1 + lit 0.001 * o3.1
  pure (amplitude * sound * self.volume, noteFinished, o3.2)

/-- Constructor `SnareDrum()`. -/
def SnareDrum.new : BaseInstrument :=
  { kind := .snareDrum
    envelopeOutput :=
      { EnvelopeADSR.new with
        attackTime := lit 0.0
        decayTime := lit 0.125
        sustainTime := lit 0.0
        releaseTime := lit 0.0 }
    maxLifeTme := lit 0.25
    volume := lit 1.0
    name := "Drum Snare" }

/-- Method `SnareDrum::sound`; `noteFinished` is the `bool&` argument, passed in and
returned. -/
def SnareDrum.sound (m : LibM) (fuel rng : Nat) (self : BaseInstrument) (time : Dbl) (n : Note)
    (noteFinished : Bool) : Except Fault (Dbl × Bool × Nat) := do
  let amplitude := envelopeOutput time self.envelopeOutput n.on_ n.off_
  let noteFinished :=
    if Dbl.gt self.maxLifeTme (lit 0.0) && Dbl.ge (time - n.on_) self.maxLifeTme then true
    else noteFinished
  let o1 ← Oscillate m fuel rng (time - n.on_) (Scale n.id)
      SINE_WAVE (lit 0.5) (lit 1.0) (lit 50.0)
  let o2 ← Oscillate m fuel o1.2 (time - n.on_) (lit 880.0)
      NOISE (lit 0.0) (lit 0.0) (lit 50.0)
  let sound := lit 0.5 * o1.1 + lit 0.1 * o2.1
  pure (amplitude * sound * self.volume, noteFinished, o2.2)

/-- Constructor `HiHat()`. -/
def HiHat.new : BaseInstrument :=
  { kind := .hiHat
    envelopeOutput :=
      { EnvelopeADSR.new with
        attackTime := lit 0.01
        decayTime := lit 0.025
        sustainTime := lit 0.0
        releaseTime := lit 0.0 }
    maxLifeTme := lit 1.0
    volume := lit 0.25
    name := "Drum HiHat" }

/-- Method `HiHat::sound`; `noteFinished` is the `bool&` argument, passed in and
returned. -/
def HiHat.sound (m : LibM) (fuel rng : Nat) (self : BaseInstrument) (time : Dbl) (n : Note)
    (noteFinished : Bool) : Except Fault (Dbl × Bool × Nat) := do
  let amplitude := envelopeOutput time self.envelopeOutput n.on_ n.off_
  let noteFinished :=
    if Dbl.gt self.maxLifeTme (lit 0.0) && Dbl.ge (time - n.on_) self.maxLifeTme then true
    else noteFinished
  let o1 ← Oscillate m fuel rng (time - n.on_) (Scale (n.id - 12))
      SQUARE_WAVE (lit 1.5) (lit 1) (lit 50.0)
  let o2 ← Oscillate m fuel o1.2 (time - n.on_) (lit 0)
      NOISE (lit 0.0) (lit 0.0) (lit 50.0)
  let sound := lit 0.1 * o1.1 + lit 0.9 * o2.1
  pure (amplitude * sound * self.volume, noteFinished, o2.2)

/-- Virtual call `self->sound(time, n, noteFinished)`: the override of the
dynamic class of `self`. -/
def BaseInstrument.sound (m : LibM) (fuel rng : Nat) (self : BaseInstrument) (time : Dbl)
    (n : Note) (noteFinished : Bool) : Except Fault (Dbl × Bool × Nat) :=
  match self.kind with
  | .bell => Bell.sound m fuel rng self time n noteFinished
  | .bell8 => Bell8.sound m fuel rng self time n noteFinished
  | .harmonica => Harmonica.sound m fuel rng self time n noteFinished
  | .supersaw => Supersaw.sound m fuel rng self time n noteFinished
  | .kickDrum => KickDrum.sound m fuel rng self time n noteFinished
  | .snareDrum => SnareDrum.sound m fuel rng self time n noteFinished
  | .hiHat => HiHat.sound m fuel rng self time n noteFinished

/-! ## Step sequencer -/

/-- Read `s[i]` of a `wstring`: the character at position `i`, the terminating
null character at `i = s.size()`, no defined value anywhere else. -/
def wstringAt (s : String) (i : Int) : Except Fault Char :=
  if i < 0 then .error .outOfRange
  else
    match s.data.get? i.toNat with
    | some c => .ok c
    | none => if i.toNat = s.data.length then .ok (Char.ofNat 0) else .error .outOfRange

/-- Fields of `struct DrumSequencer::Channel`. -/
structure Channel where
  instrument : Option BaseInstrument
  beat : String

/-- Fields of `struct DrumSequencer`. -/
structure DrumSequencer where
  drumBeats : Int
  drumSubBeats : Int
  drumTemp : Dbl
  drumBeatTime : Dbl
  drumAccumulate : Dbl
  drumCurrentBeat : Int
  drumTotalBeats : Int
  vecChannel : List Channel
  vecNotes : List Note

/-- Constructor `DrumSequencer(tempo, beats, subbeats)`. -/
def DrumSequencer.new (tempo : Dbl) (beats subbeats : Int) : DrumSequencer :=
  { drumBeats := beats
    drumSubBeats := subbeats
    drumTemp := tempo
    drumBeatTime := (lit 60.0 / tempo) / Dbl.ofInt subbeats
    drumCurrentBeat := 0
    drumTotalBeats := subbeats * beats
    drumAccumulate := lit 0
    vecChannel := []
    vecNotes := [] }

/-- Method `DrumSequencer::AddInstrument`: appends a channel with an empty
pattern. -/
def DrumSequencer.AddInstrument (s : DrumSequencer) (inst : Option BaseInstrument) :
    DrumSequencer :=
  let c : Channel := { instrument := inst, beat := "" }
  { s with vecChannel := s.vecChannel ++ [c] }

/-- Assignment `seq.vecChannel.at(i).beat = pattern` of `main`. -/
def DrumSequencer.setBeat (s : DrumSequencer) (i : Nat) (pattern : String) :
    Except Fault DrumSequencer :=
  match s.vecChannel.get? i with
  | none => .error .outOfRange
  | some c => .ok { s with vecChannel := s.vecChannel.set i { c with beat := pattern } }

/-- Loop `for (auto v : vecChannel)` of `Update`, over the channels still
to visit; `c` is the running channel counter and `vecNotes` the notes pushed
so far. -/
def DrumSequencer.Update.forLoop (vecChannel : List Channel) (drumCurrentBeat : Int) :
    List Channel → Nat → List Note → Except Fault (List Note)
  | [], _, vecNotes => .ok vecNotes
  | v :: rest, c, vecNotes => do
    let ch ← wstringAt v.beat drumCurrentBeat
    if ch = 'X' || ch = 'x' then
      match vecChannel.get? c with
      | none => .error .outOfRange
      | some vc =>
        let n := Note.new
        let n := { n with channel := vc.instrument }
        let n := { n with active := true }
        let n := { n with id := 64 }
        DrumSequencer.Update.forLoop vecChannel drumCurrentBeat rest (c + 1) (vecNotes ++ [n])
    else
      DrumSequencer.Update.forLoop vecChannel drumCurrentBeat rest (c + 1) vecNotes

/-- Loop `while (drumAccumulate >= drumBeatTime)` of `Update`; one unit of
fuel per iteration. -/
def DrumSequencer.Update.whileLoop : Nat → DrumSequencer → Except Fault DrumSequencer
  | fuel, s =>
    if Dbl.ge s.drumAccumulate s.drumBeatTime then
      match fuel with
      | 0 => .error .outOfFuel
      | fuel + 1 => do
        let s := { s with drumAccumulate := s.drumAccumulate - s.drumBeatTime }
        let s := { s with drumCurrentBeat := s.drumCurrentBeat + 1 }
        let s := if s.drumCurrentBeat ≥ s.drumTotalBeats then { s with drumCurrentBeat := 0 } else s
        let notes ← DrumSequencer.Update.forLoop s.vecChannel s.drumCurrentBeat s.vecChannel 0
          s.vecNotes
        DrumSequencer.Update.whileLoop fuel { s with vecNotes := notes }
    else .ok s

/-- Method `DrumSequencer::Update`: the returned count and the state after the
call. -/
def DrumSequencer.Update (fuel : Nat) (s : DrumSequencer) (elapsedTime : Dbl) :
    Except Fault (Int × DrumSequencer) := do
  let s := { s with vecNotes := [] }
  let s := { s with drumAccumulate := s.drumAccumulate + elapsedTime }
  let s ← DrumSequencer.Update.whileLoop fuel s
  pure ((s.vecNotes.length : Int), s)

/-- The calls `seq.Update(elapsedTime)` of the driver loop of `main`, one per
iteration, for the elapsed times of the iterations: the result of every call,
in order. -/
def DrumSequencer.Updates (fuel : Nat) :
    DrumSequencer → List Dbl → Except Fault (List (Int × DrumSequencer))
  | _, [] => .ok []
  | s, elapsedTime :: rest => do
    let r ← DrumSequencer.Update fuel s elapsedTime
    let rs ← DrumSequencer.Updates fuel r.2 rest
    pure (r :: rs)

end synthesizer

/-! ## Mixer -/

open synthesizer

/-- Template `SafeRemove(v, f)`: walks `v` and erases every element on which
`f` is false. -/
def SafeRemove (f : Note → Bool) : List Note → List Note
  | [] => []
  | n :: rest => if !f n then SafeRemove f rest else n :: SafeRemove f rest

/-- Loop `for (auto& n : vecNotes)` of `GenerateNoise`: the notes after the
pass, the count of `rand()` calls and `mixedOutput`. -/
def GenerateNoise.forLoop (m : LibM) (fuel : Nat) (time : Dbl) :
    List Note → Nat → Dbl → Except Fault (List Note × Nat × Dbl)
  | [], rng, mixedOutput => .ok ([], rng, mixedOutput)
  | n :: rest, rng, mixedOutput => do
    let noteFinished := false
    let sound : Dbl := Dbl.lit 0
    let r ←
      match n.channel with
      | some channel => channel.sound m fuel rng time n noteFinished
      | none => pure (sound, noteFinished, rng)
    let mixedOutput := mixedOutput + r.1
    let n := if r.2.1 then { n with active := false } else n
    let t ← GenerateNoise.forLoop m fuel time rest r.2.2 mixedOutput
    pure (n :: t.1, t.2)

/-- Function `GenerateNoise(channel, time)` on the global `vecNotes`: the
returned sample, `vecNotes` after the call and the count of `rand()` calls. -/
def GenerateNoise (m : LibM) (fuel rng : Nat) (vecNotes : List Note) (channel : Int)
    (time : Dbl) : Except Fault (Dbl × List Note × Nat) := do
  let _ := channel
  let mixedOutput : Dbl := Dbl.lit 0.0
  let r ← GenerateNoise.forLoop m fuel time vecNotes rng mixedOutput
  let vecNotes := SafeRemove (fun item => item.active) r.1
  pure (r.2.2 * Dbl.lit 0.2, vecNotes, r.2.1)

/-! ## Stream engine (`OscilatorThread.h`)

`unsigned int` is modelled by `Nat` with the arithmetic of the source reduced
modulo `2^32`.  The sample type `T` is a signed integer type of `bits` bits
(`short`, 16 bits, in `main`).  The conversion of a `double` to `T` truncates
toward zero; it has a result only when the truncated value lies in the range of
`T`, and is undefined otherwise.  The arithmetic on `double` values is that of
`binary64`.  `new` always succeeds. -/

/-- Number of values of `unsigned int`. -/
def UINT_SIZE : Nat := 2 ^ 32

/-- Function `fmin(a, b)`: the smaller argument, the other argument when one is
`NaN`. -/
def synthesizer.Dbl.fmin (a b : Dbl) : Dbl :=
  match a, b with
  | .nan, _ => b
  | _, .nan => a
  | _, _ => if Dbl.le a b then a else b

/-- Function `fmax(a, b)`: the larger argument, the other argument when one is
`NaN`. -/
def synthesizer.Dbl.fmax (a b : Dbl) : Dbl :=
  match a, b with
  | .nan, _ => b
  | _, .nan => a
  | _, _ => if Dbl.ge a b then a else b

/-- Truncation of a rational toward zero. -/
def truncQ (q : ℚ) : Int := if 0 ≤ q then ⌊q⌋ else ⌈q⌉

/-- Value of type `T` that the low `bits` bits of `i` denote. -/
def wrapT (bits : Nat) (i : Int) : Int :=
  (i + 2 ^ (bits - 1)) % 2 ^ bits - 2 ^ (bits - 1)

/-- Conversion `(T) x` of a `double`: the value truncated toward zero when that
lies in the range of `T`; a value outside the range and a non-finite value have
no defined result. -/
def toT (bits : Nat) : Dbl → Except Fault Int
  | .fin q =>
    if -(2 : Int) ^ (bits - 1) ≤ truncQ q ∧ truncQ q < 2 ^ (bits - 1) then .ok (truncQ q)
    else .error .outOfRange
  | _ => .error .outOfRange

/-- Fields of `WAVEHDR` that the source sets; `lpData` is the offset of the
buffer in the block memory, in samples. -/
structure WAVEHDR where
  dwBufferLength : Nat
  lpData : Nat
  dwFlags : Nat

/-- Fields of `class NoiseGenerator<T>`, for a callback that works on a state
of type `σ`; `bits` is `sizeof(T) * 8`, `m_thread` tells whether the producer
thread has been started, `m_hwDevice` is the id of the opened device. -/
structure NoiseGenerator (σ : Type) where
  bits : Nat
  m_userFunction : Option (σ → Int → Dbl → Dbl × σ)
  m_sampleRate : Nat
  m_channels : Nat
  m_blockCount : Nat
  m_blockSamples : Nat
  m_blockCurrent : Nat
  m_blockMemoryPointer : Option (List Int)
  m_waveHeadersPointer : Option (List WAVEHDR)
  m_hwDevice : Option Nat
  m_thread : Bool
  m_ready : Bool
  m_atomicFreeBlock : Nat
  m_globalTime : Dbl

/-- The `winmm` collaborators of `Generate`: the names that `EnumerateDevices()`
returns and, for each device id, whether `waveOutOpen` returns `S_OK`. -/
structure AudioDevices where
  devices : List String
  waveOutOpen : Nat → Bool

/-- Method `Destroy`. -/
def NoiseGenerator.Destroy : Bool := false

/-- Method `Generate`: the returned value and the object after the call. -/
def NoiseGenerator.Generate {σ : Type} (env : AudioDevices) (self : NoiseGenerator σ)
    (outputDevice : String) (sampleRate channels blocks blockSamples : Nat) :
    Bool × NoiseGenerator σ :=
  let self := { self with m_ready := false }
  let self := { self with m_sampleRate := sampleRate }
  let self := { self with m_channels := channels }
  let self := { self with m_blockCount := blocks }
  let self := { self with m_blockSamples := blockSamples }
  let self := { self with m_atomicFreeBlock := self.m_blockCount }
  let self := { self with m_blockCurrent := 0 }
  let self := { self with m_blockMemoryPointer := none }
  let self := { self with m_waveHeadersPointer := none }
  let self := { self with m_userFunction := none }
  let devices := env.devices
  let d := devices.indexOf outputDevice
  let opened : Option (NoiseGenerator σ) :=
    if d ≠ devices.length then
      let deviceId := d
      if !env.waveOutOpen deviceId then none
      else some { self with m_hwDevice := some deviceId }
    else some self
  match opened with
  | none => (NoiseGenerator.Destroy, self)
  | some self =>
    let self := { self with
      m_blockMemoryPointer :=
        some (List.replicate ((self.m_blockCount * self.m_blockSamples) % UINT_SIZE) 0) }
    if self.m_blockMemoryPointer.isNone then (NoiseGenerator.Destroy, self)
    else
      let self := { self with
        m_waveHeadersPointer :=
          some ((List.range self.m_blockCount).map fun n =>
            { dwBufferLength := self.m_blockSamples * (self.bits / 8)
              lpData := (n * self.m_blockSamples) % UINT_SIZE
              dwFlags := 0 }) }
      if self.m_waveHeadersPointer.isNone then (NoiseGenerator.Destroy, self)
      else
        let self := { self with m_ready := true }
        let self := { self with m_thread := true }
        (true, self)

/-- Method `UserProcess`, the callback used when no user function is set. -/
def NoiseGenerator.UserProcess (_channel : Int) (_time : Dbl) : Dbl := Dbl.lit 0.0

/-- Method `clip`. -/
def NoiseGenerator.clip (sample max : Dbl) : Dbl :=
  if Dbl.ge sample (Dbl.lit 0.0) then Dbl.fmin sample max else Dbl.fmax sample (-max)

/-- Local `maxSample` of `MainThread`:
`(double) ((T) pow(2, sizeof(T) * 8 - 1) - 1)`: the power is converted to `T`
first, `1` is subtracted from the converted value, and the difference is stored
in the `T` variable `genericMaxSample`. -/
def NoiseGenerator.MainThread.maxSample (bits : Nat) : Except Fault Dbl := do
  let p ← toT bits (binary64.round (2 ^ (bits - 1)))
  let genericMaxSample := wrapT bits (p - 1)
  pure (binary64.round genericMaxSample)

/-- Local `timeStep` of `MainThread`. -/
def NoiseGenerator.MainThread.timeStep {σ : Type} (g : NoiseGenerator σ) : Dbl :=
  binary64.div (Dbl.lit 1.0) (Dbl.ofInt g.m_sampleRate)

/-- What the fill loops of `MainThread` work on: the state of the callback,
`m_globalTime`, and the stores to `m_blockMemoryPointer` made so far, each with
its index and value. -/
structure FillState (σ : Type) where
  user : σ
  m_globalTime : Dbl
  stores : List (Nat × Int)

/-- Loop `for (unsigned int c = 0; c < m_channels; c++)` of `MainThread`, from
channel `c`. -/
def NoiseGenerator.MainThread.channelLoop {σ : Type} (g : NoiseGenerator σ) (maxSample : Dbl)
    (currentBlock n : Nat) (c : Nat) (st : FillState σ) : Except Fault (FillState σ) :=
  if c < g.m_channels then do
    let r :=
      match g.m_userFunction with
      | none => (NoiseGenerator.UserProcess c st.m_globalTime, st.user)
      | some f => f st.user c st.m_globalTime
    let genericNewSample ←
      toT g.bits (binary64.mul (NoiseGenerator.clip r.1 (Dbl.lit 1.0)) maxSample)
    let st := { st with
      user := r.2
      stores := st.stores ++ [((currentBlock + n + c) % UINT_SIZE, genericNewSample)] }
    NoiseGenerator.MainThread.channelLoop g maxSample currentBlock n (c + 1) st
  else .ok st
termination_by g.m_channels - c

/-- Body of the loop over the frames of a block: the channels of the frame at
slot `n`, then the advance of `m_globalTime`. -/
def NoiseGenerator.MainThread.frame {σ : Type} (g : NoiseGenerator σ) (maxSample : Dbl)
    (currentBlock n : Nat) (st : FillState σ) : Except Fault (FillState σ) := do
  let st ← NoiseGenerator.MainThread.channelLoop g maxSample currentBlock n 0 st
  pure { st with
    m_globalTime := binary64.add st.m_globalTime (NoiseGenerator.MainThread.timeStep g) }

/-- Loop `for (unsigned int n = 0; n < m_blockSamples; n += m_channels)` of
`MainThread`, from slot `n`; one unit of fuel per frame. -/
def NoiseGenerator.MainThread.fillLoop {σ : Type} (g : NoiseGenerator σ) (maxSample : Dbl)
    (currentBlock : Nat) : Nat → Nat → FillState σ → Except Fault (FillState σ)
  | fuel, n, st =>
    if n < g.m_blockSamples then
      match fuel with
      | 0 => .error .outOfFuel
      | fuel + 1 => do
        let st ← NoiseGenerator.MainThread.frame g maxSample currentBlock n st
        NoiseGenerator.MainThread.fillLoop g maxSample currentBlock fuel
          ((n + g.m_channels) % UINT_SIZE) st
    else .ok st

/-- Start of `MainThread`: `m_globalTime = 0.0`. -/
def NoiseGenerator.MainThread.start {σ : Type} (g : NoiseGenerator σ) : NoiseGenerator σ :=
  { g with m_globalTime := Dbl.lit 0.0 }

/-- One pass of the body of `while (m_ready)` after the wait and the decrement
of the free-block counter, with the value `maxSample` of the local of that name:
the block is filled, handed to the device, and the ring index advances.  Returns
the object, the state of the callback and the stores made. -/
def NoiseGenerator.MainThread.fillBlock {σ : Type} (fuel : Nat) (g : NoiseGenerator σ)
    (maxSample : Dbl) (user : σ) : Except Fault (NoiseGenerator σ × σ × List (Nat × Int)) := do
  let currentBlock := (g.m_blockCurrent * g.m_blockSamples) % UINT_SIZE
  let st ← NoiseGenerator.MainThread.fillLoop g maxSample currentBlock fuel 0
    { user := user, m_globalTime := g.m_globalTime, stores := [] }
  let g := { g with m_globalTime := st.m_globalTime }
  let g := { g with m_blockCurrent := (g.m_blockCurrent + 1) % UINT_SIZE }
  if g.m_blockCount = 0 then .error .outOfRange
  else
    let g := { g with m_blockCurrent := g.m_blockCurrent % g.m_blockCount }
    pure (g, st.user, st.stores)

/-- Position of the producer thread in the body of `while (m_ready)`: before
the test of the free-block counter, between the wait and the decrement, or
after the decrement (filling the block it took). -/
inductive ProducerAt where
  | loopTop
  | afterWait
  | filling
  deriving DecidableEq

/-- Steps of the engine: the three steps of the producer and the completion
callback of the device. -/
inductive EngineStep where
  | wait
  | take
  | submit
  | done
  deriving DecidableEq

/-- State of the engine between steps: the counters of the object, the position
of the producer and the number of blocks handed to the device by `waveOutWrite`
that the device has not yet reported done. -/
structure Engine where
  m_blockCount : Nat
  m_blockCurrent : Nat
  m_atomicFreeBlock : Nat
  producer : ProducerAt
  pending : Nat

/-- State of the engine when `Generate` has returned `true` with `blocks`
blocks. -/
def Engine.start (blocks : Nat) : Engine :=
  { m_blockCount := blocks
    m_blockCurrent := 0
    m_atomicFreeBlock := blocks
    producer := .loopTop
    pending := 0 }

/-- One step of the engine; `none` when the step is not enabled.
`wait` is the test and wait loop on `m_atomicFreeBlock == 0`: the producer
stays where it is while the counter is `0`.  `take` is `m_atomicFreeBlock--`.
`submit` is the fill of the block, `waveOutWrite` and the advance of the ring
index.  `done` is `waveOutProc` on `WOM_DONE`, which the device sends once for
each block it was handed. -/
def Engine.step : EngineStep → Engine → Option Engine
  | .wait, e =>
    if e.producer = .loopTop then
      if e.m_atomicFreeBlock = 0 then some e else some { e with producer := .afterWait }
    else none
  | .take, e =>
    if e.producer = .afterWait then
      some { e with
        m_atomicFreeBlock := (e.m_atomicFreeBlock + UINT_SIZE - 1) % UINT_SIZE
        producer := .filling }
    else none
  | .submit, e =>
    if e.producer = .filling ∧ e.m_blockCount ≠ 0 then
      some { e with
        m_blockCurrent := (e.m_blockCurrent + 1) % UINT_SIZE % e.m_blockCount
        producer := .loopTop
        pending := e.pending + 1 }
    else none
  | .done, e =>
    if 0 < e.pending then
      some { e with
        m_atomicFreeBlock := (e.m_atomicFreeBlock + 1) % UINT_SIZE
        pending := e.pending - 1 }
    else none

/-- Run of the engine over a list of steps; `none` when a step is not
enabled. -/
def Engine.run : List EngineStep → Engine → Option Engine
  | [], e => some e
  | a :: rest, e =>
    match Engine.step a e with
    | some e => Engine.run rest e
    | none => none

/-- Number of blocks that the producer holds: `1` while it fills the block it
took, `0` otherwise. -/
def Engine.held (e : Engine) : Nat := if e.producer = .filling then 1 else 0

/-- An object on which `Generate` has not run yet: no thread, not ready,
16-bit samples. -/
def NoiseGenerator.blank : NoiseGenerator Unit :=
  { bits := 16
    m_userFunction := none
    m_sampleRate := 0
    m_channels := 0
    m_blockCount := 0
    m_blockSamples := 0
    m_blockCurrent := 0
    m_blockMemoryPointer := none
    m_waveHeadersPointer := none
    m_hwDevice := none
    m_thread := false
    m_ready := false
    m_atomicFreeBlock := 0
    m_globalTime := Dbl.lit 0 }

/-- A C library to run the embedding on concrete inputs: every oscillator
phase maps to `0`, `acos(0.0)` is `11/7`, and `rand()` returns `0, 1, 2, ...`
below `RAND_MAX = 32767`. -/
def synthesizer.LibM.silent : LibM :=
  { sin := fun _ => Dbl.fin 0
    asin := fun _ => Dbl.fin 0
    acos := fun _ => Dbl.fin (11 / 7)
    RAND_MAX := 32767
    rand := fun k => (k % 32768 : Nat) }

namespace Reference

/-- Phase amplitude `E(life)` of the specification: linear ramp to the start
amplitude over the attack, linear ramp to the sustain level over the decay,
the sustain level afterwards. -/
def E (attack decay sustain startAmplitude life : ℚ) : ℚ :=
  if life ≤ attack then (life / attack) * startAmplitude
  else if attack < life ∧ life ≤ attack + decay then
    startAmplitude + ((life - attack) / decay) * (sustain - startAmplitude)
  else sustain

/-- Silence floor of the specification: an amplitude `<= 0.01` becomes `0`. -/
def clamp (a : ℚ) : ℚ := if a ≤ 0.01 then 0 else a

/-- ADSR amplitude of the specification, as a function of `(time, on, off)`
(`tOn`, `tOff` here). -/
def amplitude (attack decay sustain release startAmplitude time tOn tOff : ℚ) : ℚ :=
  if tOn > tOff then
    clamp (E attack decay sustain startAmplitude (time - tOn))
  else
    let R := E attack decay sustain startAmplitude (tOff - tOn)
    clamp (R + ((time - tOff) / release) * (0 - R))

/-- Render of one note in a mixer pass: the virtual `sound` call on the note's
instrument with the finished flag initially clear; a note without instrument
is silent and not finished. -/
def renderNote (m : LibM) (fuel rng : Nat) (time : Dbl) (n : Note) :
    Except Fault (Dbl × Bool × Nat) :=
  match n.channel with
  | some instrument => instrument.sound m fuel rng time n false
  | none => .ok (Dbl.lit 0, false, rng)

/-- Renders of one pass over `notes`, in list order: for each note the sample
and the finished flag its instrument reported; `rng` is the count of `rand()`
calls before the pass, and each note is rendered after the calls of the notes
before it. -/
def renders (m : LibM) (fuel : Nat) (time : Dbl) : List Note → Nat → List (Dbl × Bool)
  | [], _ => []
  | n :: rest, rng =>
    match renderNote m fuel rng time n with
    | .ok r => (r.1, r.2.1) :: renders m fuel time rest r.2.2
    | .error _ => []

/-- Sum of samples, accumulated from `0.0` in list order. -/
def sum (samples : List Dbl) : Dbl := samples.foldl (fun acc x => acc + x) (Dbl.lit 0.0)

/-- Notes of a pass whose instrument did not report finished, in list
order. -/
def survivors (notes : List Note) (rs : List (Dbl × Bool)) : List Note :=
  ((notes.zip rs).filter (fun p => !p.2.2)).map (fun p => p.1)

/-- Number of renders of a pass that reported finished. -/
def finishedCount (rs : List (Dbl × Bool)) : Nat := (rs.filter (fun r => r.2)).length

/-- Trigger event of a channel: a fresh note carrying the channel's
instrument, pitch id 64 and `active = true`. -/
def trigger (c : Channel) : Note :=
  { id := 64, on_ := Dbl.lit 0.0, off_ := Dbl.lit 0.0, active := true, channel := c.instrument }

/-- Whether the pattern of a channel marks a hit at `index`: the character is
`'X'` or `'x'`. -/
def isHit (index : Nat) (c : Channel) : Bool :=
  c.beat.data.get? index == some 'X' || c.beat.data.get? index == some 'x'

/-- Event batch of one step: one trigger per channel with a hit at `index`, in
channel order. -/
def batch (channels : List Channel) (index : Nat) : List Note :=
  (channels.filter (isHit index)).map trigger

/-- Step index after `j` step boundaries. -/
def stepIndex (old total : Int) (j : Nat) : Int := (old + j) % total

/-- Events of `k` consecutive step boundaries: the batches of the indices
visited, in step order. -/
def events (channels : List Channel) (old total : Int) (k : Nat) : List Note :=
  (List.range k).flatMap (fun j => batch channels (stepIndex old total (j + 1)).toNat)

/-- Global time `f` frames after the time `t`: `timeStep` added `f` times, one
addition of `double` values per frame. -/
def clock (timeStep : Dbl) : Dbl → Nat → Dbl
  | t, 0 => t
  | t, f + 1 => clock timeStep (binary64.add t timeStep) f

end Reference

/-! ## The program in `double` arithmetic

The functions of `Main.cpp` below are translated a second time, with every
operation on `double` values rounded as `binary64` does. -/

namespace synthesizer

/-- Bhaskara's rational approximation of the sine for the half period `p`, the
argument reduced to `[0, 2p)`. -/
def bhaskara (p x : ℚ) : ℚ :=
  let y := x - 2 * p * ⌊x / (2 * p)⌋
  if y ≤ p then 16 * y * (p - y) / (5 * p ^ 2 - 4 * y * (p - y))
  else -(16 * (y - p) * (2 * p - y) / (5 * p ^ 2 - 4 * (y - p) * (2 * p - y)))

/-- A C library to run the embedding in `double` arithmetic on concrete
inputs.  `sin` is Bhaskara's approximation, rounded, and NaN at the infinities
and at NaN; `acos` and `asin` interpolate between their values at `-1`, `0` and
`1`, so that `acos(0.0)` is the `double` nearest to `π/2`; `rand()` returns
`0, 1, 2, ...` below `RAND_MAX = 32767`. -/
def LibM.coarse : LibM :=
  { sin := fun x =>
      match x with
      | .fin q => binary64.round (bhaskara (884279719003555 * 2 ^ (-48 : ℤ)) q)
      | _ => .nan
    asin := fun x =>
      match x with
      | .fin q =>
        if |q| ≤ 1 then binary64.round (q * (884279719003555 * 2 ^ (-49 : ℤ))) else .nan
      | _ => .nan
    acos := fun x =>
      match x with
      | .fin q =>
        if |q| ≤ 1 then binary64.round ((1 - q) * (884279719003555 * 2 ^ (-49 : ℤ))) else .nan
      | _ => .nan
    RAND_MAX := 32767
    rand := fun k => (k % 32768 : Nat) }

/-- A `pow` to run the embedding in `double` arithmetic on concrete inputs: the
correctly rounded power of a finite base for an integer exponent, NaN
otherwise. -/
def powRounded : Dbl → Dbl → Dbl
  | .fin x, .fin y => if y = ⌊y⌋ then binary64.round (x ^ ⌊y⌋) else .nan
  | _, _ => .nan

namespace binary64

/-- The three consecutive `if` statements that both branches of
`EnvelopeADSR::amplitude` run on their `lifeTime`; `init` is the value the
assigned variable holds before them (`0.0` in both branches). -/
def EnvelopeADSR.phases (e : EnvelopeADSR) (lifeTime init : Dbl) : Dbl :=
  let a := init
  let a :=
    if Dbl.le lifeTime e.attackTime then
      mul (div lifeTime e.attackTime) e.startAmplitude
    else a
  let a :=
    if Dbl.gt lifeTime e.attackTime && Dbl.le lifeTime (add e.attackTime e.decayTime) then
      add
        (mul (div (sub lifeTime e.attackTime) e.decayTime)
          (sub e.sustainTime e.startAmplitude))
        e.startAmplitude
    else a
  let a :=
    if Dbl.gt lifeTime (add e.attackTime e.decayTime) then e.sustainTime else a
  a

/-- Value of the local `amplitude` of `EnvelopeADSR::amplitude` just before
the final silence-floor test. -/
def EnvelopeADSR.unclamped (e : EnvelopeADSR) (time timeOn timeOff : Dbl) : Dbl :=
  let amplitude : Dbl := lit 0.0
  let releaseAmplitude : Dbl := lit 0.0
  if Dbl.gt timeOn timeOff then
    let lifeTime := sub time timeOn
    EnvelopeADSR.phases e lifeTime amplitude
  else
    let lifeTime := sub timeOff timeOn
    let releaseAmplitude := EnvelopeADSR.phases e lifeTime releaseAmplitude
    add (mul (div (sub time timeOff) e.releaseTime) (sub (lit 0.0) releaseAmplitude))
      releaseAmplitude

/-- Method `EnvelopeADSR::amplitude`. -/
def EnvelopeADSR.amplitude (e : EnvelopeADSR) (time timeOn timeOff : Dbl) : Dbl :=
  let amplitude := EnvelopeADSR.unclamped e time timeOn timeOff
  if Dbl.le amplitude (lit 0.01) then lit 0.0 else amplitude

/-- Constant `PI = 2.0 * acos(0.0)`. -/
def PI (m : LibM) : Dbl := mul (lit 2.0) (m.acos (lit 0.0))

/-- Function `ConvertToHz`. -/
def ConvertToHz (m : LibM) (hertz : Dbl) : Dbl := mul (mul hertz (lit 2.0)) (PI m)

/-- Local `frequency` of `Oscillate`. -/
def Oscillate.frequency (m : LibM) (time hertz lfoHertz lfoAmplitude : Dbl) : Dbl :=
  add (mul (ConvertToHz m hertz) time)
    (mul (mul lfoAmplitude hertz) (m.sin (mul (ConvertToHz m lfoHertz) time)))

/-- Loop `for (n = 1.0; n < custom; n++) output += sin(n * frequency) / n` of
the `SAW_WAVE` case, started at counter `n` with `output`; one unit of fuel per
iteration. -/
def Oscillate.sawLoop (m : LibM) (frequency custom : Dbl) :
    Nat → Dbl → Dbl → Except Fault Dbl
  | fuel, n, output =>
    if Dbl.lt n custom then
      match fuel with
      | 0 => .error .outOfFuel
      | fuel + 1 =>
        Oscillate.sawLoop m frequency custom fuel (add n (lit 1.0))
          (add output (div (m.sin (mul n frequency)) n))
    else .ok output

/-- Function `Oscillate`.  `rng` counts the calls of `rand()` made so far; the
result carries the updated count. -/
def Oscillate (m : LibM) (fuel rng : Nat) (time hertz : Dbl) (type : Int)
    (lfoHertz lfoAmplitude custom : Dbl) : Except Fault (Dbl × Nat) :=
  let frequency := Oscillate.frequency m time hertz lfoHertz lfoAmplitude
  if type = SINE_WAVE then
    .ok (m.sin frequency, rng)
  else if type = SQUARE_WAVE then
    .ok (if Dbl.gt (m.sin frequency) (Dbl.ofInt 0) then lit 1.0 else lit (-1.0), rng)
  else if type = TRIANGLE_WAVE then
    .ok (mul (m.asin (m.sin frequency)) (div (lit 2.0) (PI m)), rng)
  else if type = SAW_WAVE then
    match Oscillate.sawLoop m frequency custom fuel (lit 1.0) (lit 0.0) with
    | .error f => .error f
    | .ok output => .ok (mul output (div (lit 2.0) (PI m)), rng)
  else if type = NOISE then
    .ok (sub (mul (lit 2.0) (div (Dbl.ofInt (m.rand rng)) (Dbl.ofInt m.RAND_MAX))) (lit 1.0),
      rng + 1)
  else
    .ok (lit 0.0, rng)

/-- Function `Scale`: `8 * pow(1.0594630943592952645618252949463, noteId)`, for
the `pow` of the C library. -/
def Scale (pow : Dbl → Dbl → Dbl) (noteId : Int) : Dbl :=
  mul (Dbl.ofInt 8) (pow (lit 1.0594630943592952645618252949463) (Dbl.ofInt noteId))

/-- Loop `while (drumAccumulate >= drumBeatTime)` of `DrumSequencer::Update`
with the subtraction of `double`; one unit of fuel per iteration. -/
def DrumSequencer.Update.whileLoop : Nat → DrumSequencer → Except Fault DrumSequencer
  | fuel, s =>
    if Dbl.ge s.drumAccumulate s.drumBeatTime then
      match fuel with
      | 0 => .error .outOfFuel
      | fuel + 1 => do
        let s := { s with drumAccumulate := sub s.drumAccumulate s.drumBeatTime }
        let s := { s with drumCurrentBeat := s.drumCurrentBeat + 1 }
        let s := if s.drumCurrentBeat ≥ s.drumTotalBeats then { s with drumCurrentBeat := 0 } else s
        let notes ← synthesizer.DrumSequencer.Update.forLoop s.vecChannel s.drumCurrentBeat
          s.vecChannel 0 s.vecNotes
        DrumSequencer.Update.whileLoop fuel { s with vecNotes := notes }
    else .ok s

/-- Method `DrumSequencer::Update` with the arithmetic of `double`: the
returned count and the state after the call. -/
def DrumSequencer.Update (fuel : Nat) (s : DrumSequencer) (elapsedTime : Dbl) :
    Except Fault (Int × DrumSequencer) := do
  let s := { s with vecNotes := [] }
  let s := { s with drumAccumulate := add s.drumAccumulate elapsedTime }
  let s ← DrumSequencer.Update.whileLoop fuel s
  pure ((s.vecNotes.length : Int), s)

/-- The calls `seq.Update(elapsedTime)` of the driver loop of `main` with the
arithmetic of `double`, one per iteration: the result of every call, in
order. -/
def DrumSequencer.Updates (fuel : Nat) :
    DrumSequencer → List Dbl → Except Fault (List (Int × DrumSequencer))
  | _, [] => .ok []
  | s, elapsedTime :: rest => do
    let r ← DrumSequencer.Update fuel s elapsedTime
    let rs ← DrumSequencer.Updates fuel r.2 rest
    pure (r :: rs)

end binary64

end synthesizer

namespace Reference

/-- What is left of the accumulated time `a` after `k` subtractions of the step
duration, each rounded to `double`. -/
def drained (step : Dbl) : Dbl → Nat → Dbl
  | a, 0 => a
  | a, k + 1 => drained step (binary64.sub a step) k

/-- Output of the loop of the `SAW_WAVE` case after the terms `1, ..., k`: the
terms `sin(n * frequency) / n` added one after the other in `double`
arithmetic. -/
def sawSum (m : LibM) (frequency : Dbl) : Nat → Dbl
  | 0 => binary64.lit 0.0
  | k + 1 =>
    binary64.add (sawSum m frequency k)
      (binary64.div (m.sin (binary64.mul (Dbl.fin (k + 1 : Nat)) frequency))
        (Dbl.fin (k + 1 : Nat)))

end Reference

/-! ## Arithmetic of finite values -/

namespace synthesizer

namespace Dbl

@[simp] theorem fin_add_fin (a b : ℚ) : fin a + fin b = fin (a + b) := rfl

@[simp] theorem fin_sub_fin (a b : ℚ) : fin a - fin b = fin (a - b) := by
  show add (fin a) (neg (fin b)) = fin (a - b)
  simp [add, neg, sub_eq_add_neg]

@[simp] theorem fin_mul_fin (a b : ℚ) : fin a * fin b = fin (a * b) := rfl

theorem fin_div_fin (a b : ℚ) (hb : b ≠ 0) : fin a / fin b = fin (a / b) := by
  show div (fin a) (fin b) = fin (a / b)
  simp [div, hb]

@[simp] theorem le_fin_fin (a b : ℚ) : le (fin a) (fin b) = decide (a ≤ b) := rfl

@[simp] theorem lt_fin_fin (a b : ℚ) : lt (fin a) (fin b) = decide (a < b) := rfl

@[simp] theorem gt_fin_fin (a b : ℚ) : gt (fin a) (fin b) = decide (b < a) := rfl

@[simp] theorem ge_fin_fin (a b : ℚ) : ge (fin a) (fin b) = decide (b ≤ a) := rfl

theorem add_def (a b : Dbl) : a + b = add a b := rfl

theorem sub_def (a b : Dbl) : a - b = add a (neg b) := rfl

theorem mul_def (a b : Dbl) : a * b = mul a b := rfl

theorem div_def (a b : Dbl) : a / b = div a b := rfl

end Dbl

/-! ## Envelope -/

/-- On finite values with non-zero attack and positive decay, the three `if`
statements compute the reference phase amplitude. -/
theorem EnvelopeADSR.phases_fin (a d s r sa life : ℚ) (init : Dbl) (ha : a ≠ 0)
    (hd : 0 < d) :
    EnvelopeADSR.phases ⟨.fin a, .fin d, .fin s, .fin r, .fin sa⟩ (.fin life) init
      = .fin (Reference.E a d s sa life) := by
  have hd0 : d ≠ 0 := ne_of_gt hd
  simp only [EnvelopeADSR.phases, Reference.E, Dbl.fin_add_fin, Dbl.fin_sub_fin,
    Dbl.fin_div_fin _ _ ha, Dbl.fin_div_fin _ _ hd0, Dbl.fin_mul_fin, Dbl.le_fin_fin,
    Dbl.gt_fin_fin, Bool.and_eq_true, decide_eq_true_eq]
  by_cases h1 : life ≤ a
  · have h2 : ¬ a < life := not_lt.mpr h1
    have h3 : ¬ a + d < life := by linarith
    simp [h1, h2, h3]
  · have h2 : a < life := not_le.mp h1
    by_cases h4 : life ≤ a + d
    · have h3 : ¬ a + d < life := not_lt.mpr h4
      simp [h1, h2, h3, h4, add_comm]
    · have h3 : a + d < life := not_le.mp h4
      simp [h1, h2, h3, h4]

/-- On finite values with non-zero attack and release and positive decay, the
embedded `amplitude` computes the reference amplitude. -/
theorem EnvelopeADSR.amplitude_fin (a d s r sa t tOn tOff : ℚ) (ha : a ≠ 0) (hd : 0 < d)
    (hr : r ≠ 0) :
    EnvelopeADSR.amplitude ⟨.fin a, .fin d, .fin s, .fin r, .fin sa⟩ (.fin t) (.fin tOn)
        (.fin tOff)
      = .fin (Reference.amplitude a d s r sa t tOn tOff) := by
  have z : (0.0 : ℚ) = 0 := by norm_num
  unfold EnvelopeADSR.amplitude EnvelopeADSR.unclamped Reference.amplitude
  by_cases h : tOff < tOn
  · simp only [Dbl.gt_fin_fin, h, decide_True, if_true, Dbl.fin_sub_fin, gt_iff_lt,
      EnvelopeADSR.phases_fin a d s r sa _ _ ha hd, Dbl.le_fin_fin, Reference.clamp]
    simp only [decide_eq_true_eq, z]
    split_ifs <;> rfl
  · simp only [Dbl.gt_fin_fin, h, decide_False, if_false, Dbl.fin_sub_fin, gt_iff_lt,
      EnvelopeADSR.phases_fin a d s r sa _ _ ha hd, Dbl.le_fin_fin, Reference.clamp,
      Dbl.fin_div_fin _ _ hr, Dbl.fin_mul_fin, Dbl.fin_add_fin, Bool.false_eq_true, z]
    have e : (t - tOff) / r * (0 - Reference.E a d s sa (tOff - tOn))
          + Reference.E a d s sa (tOff - tOn)
        = Reference.E a d s sa (tOff - tOn)
          + (t - tOff) / r * (0 - Reference.E a d s sa (tOff - tOn)) := by ring
    rw [e]
    simp only [decide_eq_true_eq]
    split_ifs <;> rfl

/-- The silence floor does its work on every value but `NaN`: whenever the
unclamped amplitude is not `NaN`, `amplitude` returns exactly `0` or a value
greater than `0.01`, and it returns `0` whenever the unclamped amplitude is
`<= 0.01`. -/
theorem EnvelopeADSR.amplitude_floor_of_not_nan (e : EnvelopeADSR) (time timeOn timeOff : Dbl)
    (h : e.unclamped time timeOn timeOff ≠ .nan) :
    (e.amplitude time timeOn timeOff = .fin 0
      ∨ Dbl.gt (e.amplitude time timeOn timeOff) (Dbl.lit 0.01) = true)
    ∧ (Dbl.le (e.unclamped time timeOn timeOff) (Dbl.lit 0.01) = true →
        e.amplitude time timeOn timeOff = .fin 0) := by
  have z : (0.0 : ℚ) = 0 := by norm_num
  unfold EnvelopeADSR.amplitude
  generalize e.unclamped time timeOn timeOff = u at h ⊢
  cases u with
  | fin v =>
    by_cases hv : v ≤ 0.01
    · simp [Dbl.le, hv, z]
    · simp [Dbl.le, Dbl.gt, Dbl.lt, hv, not_le.mp hv]
  | pinf => simp [Dbl.le, Dbl.gt, Dbl.lt]
  | ninf => simp [Dbl.le, z]
  | nan => exact absurd rfl h

/-- C10, the code at the failing input. `SnareDrum` sets `attackTime = 0.0`;
for a held note at `time = on` the attack ramp is `(0.0 / 0.0) * 1.0`, which is
`NaN`, and the silence-floor test `NaN <= 0.01` is false: `amplitude` returns
`NaN`, which is neither `0` nor greater than `0.01`. -/
theorem EnvelopeADSR.amplitude_snare_onset_nan :
    EnvelopeADSR.unclamped SnareDrum.new.envelopeOutput (.fin 1) (.fin 1) (.fin 0) = .nan
    ∧ EnvelopeADSR.amplitude SnareDrum.new.envelopeOutput (.fin 1) (.fin 1) (.fin 0) = .nan
    ∧ EnvelopeADSR.amplitude SnareDrum.new.envelopeOutput (.fin 1) (.fin 1) (.fin 0) ≠ .fin 0
    ∧ Dbl.gt (EnvelopeADSR.amplitude SnareDrum.new.envelopeOutput (.fin 1) (.fin 1) (.fin 0))
        (Dbl.lit 0.01) = false := by
  have hu : EnvelopeADSR.unclamped SnareDrum.new.envelopeOutput (.fin 1) (.fin 1) (.fin 0)
      = .nan := by
    norm_num [EnvelopeADSR.unclamped, EnvelopeADSR.phases, SnareDrum.new, EnvelopeADSR.new,
      Dbl.gt, Dbl.lt, Dbl.le, Dbl.add_def, Dbl.sub_def, Dbl.mul_def, Dbl.div_def, Dbl.add,
      Dbl.neg, Dbl.mul, Dbl.div, Dbl.infTimes]
  have ha : EnvelopeADSR.amplitude SnareDrum.new.envelopeOutput (.fin 1) (.fin 1) (.fin 0)
      = .nan := by
    simp only [EnvelopeADSR.amplitude, hu]
    rfl
  refine ⟨hu, ha, ?_, ?_⟩
  · rw [ha]
    exact fun h => Dbl.noConfusion h
  · rw [ha]
    rfl

/-! ## Oscillators and instruments -/

/-- The sawtooth loop exits once the fuel covers the distance from the counter
to a finite bound. -/
theorem Oscillate.sawLoop_ok (m : LibM) (frequency : Dbl) (c : ℚ) :
    ∀ (fuel : Nat) (x : ℚ) (output : Dbl), c - x ≤ fuel →
      ∃ v, Oscillate.sawLoop m frequency (.fin c) fuel (.fin x) output = .ok v := by
  intro fuel
  induction fuel with
  | zero =>
    intro x output h
    have hx : ¬ x < c := by
      simp only [Nat.cast_zero] at h
      linarith
    exact ⟨output, by simp [Oscillate.sawLoop, hx]⟩
  | succ k ih =>
    intro x output h
    by_cases hx : x < c
    · have hk : c - (x + 1) ≤ k := by
        push_cast at h
        linarith
      obtain ⟨v, hv⟩ := ih (x + 1) (output + m.sin (.fin x * frequency) / .fin x) hk
      exact ⟨v, by simpa [Oscillate.sawLoop, hx] using hv⟩
    · exact ⟨output, by simp [Oscillate.sawLoop, hx]⟩

/-- With a finite harmonics bound of at most `100` and at least `99` units of
fuel, `Oscillate` returns, having called `rand()` at most once. -/
theorem Oscillate_ok (m : LibM) (fuel rng : Nat) (time hertz : Dbl) (type : Int)
    (lfoHertz lfoAmplitude : Dbl) (c : ℚ) (hc : c ≤ 100) (hfuel : 99 ≤ fuel) :
    ∃ v r, Oscillate m fuel rng time hertz type lfoHertz lfoAmplitude (.fin c) = .ok (v, r) := by
  have hq : c - 1 ≤ fuel := by
    have : (99 : ℚ) ≤ fuel := by exact_mod_cast hfuel
    linarith
  unfold Oscillate
  split_ifs
  · exact ⟨_, _, rfl⟩
  · exact ⟨_, _, rfl⟩
  · exact ⟨_, _, rfl⟩
  · obtain ⟨v, hv⟩ := Oscillate.sawLoop_ok m
      (ConvertToHz m hertz * time
        + lfoAmplitude * hertz * m.sin (ConvertToHz m lfoHertz * time)) c fuel 1 (Dbl.lit 0.0)
      hq
    have e1 : (Dbl.lit 1.0 : Dbl) = .fin 1 := by
      show Dbl.fin 1.0 = Dbl.fin 1
      norm_num
    simp only [e1, hv]
    exact ⟨_, _, rfl⟩
  · exact ⟨_, _, rfl⟩
  · exact ⟨_, _, rfl⟩

/-- Outside the sawtooth case `Oscillate` has no loop and returns for every
fuel. -/
theorem Oscillate_ok_of_ne_saw (m : LibM) (fuel rng : Nat) (time hertz : Dbl) (type : Int)
    (lfoHertz lfoAmplitude custom : Dbl) (ht : type ≠ SAW_WAVE) :
    ∃ a, Oscillate m fuel rng time hertz type lfoHertz lfoAmplitude custom = .ok a := by
  unfold Oscillate
  split_ifs
  · exact ⟨_, rfl⟩
  · exact ⟨_, rfl⟩
  · exact ⟨_, rfl⟩
  · exact ⟨_, rfl⟩
  · exact ⟨_, rfl⟩

/-- Form of `Oscillate_ok` used under a bind. -/
theorem Oscillate_ok_pair (m : LibM) (fuel rng : Nat) (time hertz : Dbl) (type : Int)
    (lfoHertz lfoAmplitude : Dbl) (c : ℚ) (hc : c ≤ 100) (hfuel : 99 ≤ fuel) :
    ∃ a, Oscillate m fuel rng time hertz type lfoHertz lfoAmplitude (.fin c) = .ok a := by
  obtain ⟨v, r, h⟩ := Oscillate_ok m fuel rng time hertz type lfoHertz lfoAmplitude c hc hfuel
  exact ⟨_, h⟩

/-- A bind whose first action returns and whose continuation always returns
with `P` returns with `P`. -/
theorem Except.bind_ok {α β : Type} {x : Except Fault α} {f : α → Except Fault β}
    {P : β → Prop} (hx : ∃ a, x = .ok a) (hf : ∀ a, ∃ b, f a = .ok b ∧ P b) :
    ∃ b, (x >>= f) = .ok b ∧ P b := by
  obtain ⟨a, rfl⟩ := hx
  exact hf a

/-- `Bell::sound` returns once the fuel covers its sawtooth loops, and the
flag it returns is set exactly when it was set before or the envelope
amplitude is `<= 0.0`. -/
theorem Bell_sound_ok (m : LibM) (fuel rng : Nat) (self : BaseInstrument) (time : Dbl)
    (n : Note) (nf : Bool) (hfuel : 99 ≤ fuel) :
    ∃ b, Bell.sound m fuel rng self time n nf = .ok b ∧
      b.2.1 = (if Dbl.le (envelopeOutput time self.envelopeOutput n.on_ n.off_) (Dbl.lit 0.0)
        then true else nf) := by
  unfold Bell.sound
  dsimp only
  refine Except.bind_ok (Oscillate_ok_pair _ _ _ _ _ _ _ _ _ ?_ hfuel) (fun o1 => ?_)
  · norm_num
  refine Except.bind_ok (Oscillate_ok_pair _ _ _ _ _ _ _ _ _ ?_ hfuel) (fun o2 => ?_)
  · norm_num
  refine Except.bind_ok (Oscillate_ok_pair _ _ _ _ _ _ _ _ _ ?_ hfuel) (fun o3 => ?_)
  · norm_num
  exact ⟨_, rfl, rfl⟩

/-- `Bell8::sound` returns once the fuel covers its sawtooth loops, and the
flag it returns is set exactly when it was set before or the envelope
amplitude is `<= 0.0`. -/
theorem Bell8_sound_ok (m : LibM) (fuel rng : Nat) (self : BaseInstrument) (time : Dbl)
    (n : Note) (nf : Bool) (hfuel : 99 ≤ fuel) :
    ∃ b, Bell8.sound m fuel rng self time n nf = .ok b ∧
      b.2.1 = (if Dbl.le (envelopeOutput time self.envelopeOutput n.on_ n.off_) (Dbl.lit 0.0)
        then true else nf) := by
  unfold Bell8.sound
  dsimp only
  refine Except.bind_ok (Oscillate_ok_pair _ _ _ _ _ _ _ _ _ ?_ hfuel) (fun o1 => ?_)
  · norm_num
  refine Except.bind_ok (Oscillate_ok_pair _ _ _ _ _ _ _ _ _ ?_ hfuel) (fun o2 => ?_)
  · norm_num
  refine Except.bind_ok (Oscillate_ok_pair _ _ _ _ _ _ _ _ _ ?_ hfuel) (fun o3 => ?_)
  · norm_num
  exact ⟨_, rfl, rfl⟩

/-- `Harmonica::sound` returns once the fuel covers its sawtooth loops, and the
flag it returns is set exactly when it was set before or the envelope
amplitude is `<= 0.0`. -/
theorem Harmonica_sound_ok (m : LibM) (fuel rng : Nat) (self : BaseInstrument) (time : Dbl)
    (n : Note) (nf : Bool) (hfuel : 99 ≤ fuel) :
    ∃ b, Harmonica.sound m fuel rng self time n nf = .ok b ∧
      b.2.1 = (if Dbl.le (envelopeOutput time self.envelopeOutput n.on_ n.off_) (Dbl.lit 0.0)
        then true else nf) := by
  unfold Harmonica.sound
  dsimp only
  refine Except.bind_ok (Oscillate_ok_pair _ _ _ _ _ _ _ _ _ ?_ hfuel) (fun o1 => ?_)
  · norm_num
  refine Except.bind_ok (Oscillate_ok_pair _ _ _ _ _ _ _ _ _ ?_ hfuel) (fun o2 => ?_)
  · norm_num
  refine Except.bind_ok (Oscillate_ok_pair _ _ _ _ _ _ _ _ _ ?_ hfuel) (fun o3 => ?_)
  · norm_num
  refine Except.bind_ok (Oscillate_ok_pair _ _ _ _ _ _ _ _ _ ?_ hfuel) (fun o4 => ?_)
  · norm_num
  exact ⟨_, rfl, rfl⟩

/-- `Supersaw::sound` returns once the fuel covers its sawtooth loops, and the
flag it returns is set exactly when it was set before or the envelope
amplitude is `<= 0.0`. -/
theorem Supersaw_sound_ok (m : LibM) (fuel rng : Nat) (self : BaseInstrument) (time : Dbl)
    (n : Note) (nf : Bool) (hfuel : 99 ≤ fuel) :
    ∃ b, Supersaw.sound m fuel rng self time n nf = .ok b ∧
      b.2.1 = (if Dbl.le (envelopeOutput time self.envelopeOutput n.on_ n.off_) (Dbl.lit 0.0)
        then true else nf) := by
  unfold Supersaw.sound
  dsimp only
  refine Except.bind_ok (Oscillate_ok_pair _ _ _ _ _ _ _ _ _ ?_ hfuel) (fun o1 => ?_)
  · norm_num
  refine Except.bind_ok (Oscillate_ok_pair _ _ _ _ _ _ _ _ _ ?_ hfuel) (fun o2 => ?_)
  · norm_num
  refine Except.bind_ok (Oscillate_ok_pair _ _ _ _ _ _ _ _ _ ?_ hfuel) (fun o3 => ?_)
  · norm_num
  refine Except.bind_ok (Oscillate_ok_pair _ _ _ _ _ _ _ _ _ ?_ hfuel) (fun o4 => ?_)
  · norm_num
  exact ⟨_, rfl, rfl⟩

/-- `KickDrum::sound` returns for every fuel, and the flag it returns is set
exactly when it was set before or the life time has reached a positive
`maxLifeTme`. -/
theorem KickDrum_sound_ok (m : LibM) (fuel rng : Nat) (self : BaseInstrument) (time : Dbl)
    (n : Note) (nf : Bool) :
    ∃ b, KickDrum.sound m fuel rng self time n nf = .ok b ∧
      b.2.1 = (if Dbl.gt self.maxLifeTme (Dbl.lit 0.0)
          && Dbl.ge (time - n.on_) self.maxLifeTme then true else nf) := by
  unfold KickDrum.sound
  dsimp only
  refine Except.bind_ok (Oscillate_ok_of_ne_saw _ _ _ _ _ _ _ _ _ (by decide)) (fun o1 => ?_)
  refine Except.bind_ok (Oscillate_ok_of_ne_saw _ _ _ _ _ _ _ _ _ (by decide)) (fun o2 => ?_)
  refine Except.bind_ok (Oscillate_ok_of_ne_saw _ _ _ _ _ _ _ _ _ (by decide)) (fun o3 => ?_)
  exact ⟨_, rfl, rfl⟩

/-- `SnareDrum::sound` returns for every fuel, and the flag it returns is set
exactly when it was set before or the life time has reached a positive
`maxLifeTme`. -/
theorem SnareDrum_sound_ok (m : LibM) (fuel rng : Nat) (self : BaseInstrument) (time : Dbl)
    (n : Note) (nf : Bool) :
    ∃ b, SnareDrum.sound m fuel rng self time n nf = .ok b ∧
      b.2.1 = (if Dbl.gt self.maxLifeTme (Dbl.lit 0.0)
          && Dbl.ge (time - n.on_) self.maxLifeTme then true else nf) := by
  unfold SnareDrum.sound
  dsimp only
  refine Except.bind_ok (Oscillate_ok_of_ne_saw _ _ _ _ _ _ _ _ _ (by decide)) (fun o1 => ?_)
  refine Except.bind_ok (Oscillate_ok_of_ne_saw _ _ _ _ _ _ _ _ _ (by decide)) (fun o2 => ?_)
  exact ⟨_, rfl, rfl⟩

/-- `HiHat::sound` returns for every fuel, and the flag it returns is set
exactly when it was set before or the life time has reached a positive
`maxLifeTme`. -/
theorem HiHat_sound_ok (m : LibM) (fuel rng : Nat) (self : BaseInstrument) (time : Dbl)
    (n : Note) (nf : Bool) :
    ∃ b, HiHat.sound m fuel rng self time n nf = .ok b ∧
      b.2.1 = (if Dbl.gt self.maxLifeTme (Dbl.lit 0.0)
          && Dbl.ge (time - n.on_) self.maxLifeTme then true else nf) := by
  unfold HiHat.sound
  dsimp only
  refine Except.bind_ok (Oscillate_ok_of_ne_saw _ _ _ _ _ _ _ _ _ (by decide)) (fun o1 => ?_)
  refine Except.bind_ok (Oscillate_ok_of_ne_saw _ _ _ _ _ _ _ _ _ (by decide)) (fun o2 => ?_)
  exact ⟨_, rfl, rfl⟩

/-- Every virtual `sound` call returns once the fuel covers the sawtooth
loops. -/
theorem BaseInstrument_sound_ok (m : LibM) (fuel rng : Nat) (self : BaseInstrument)
    (time : Dbl) (n : Note) (nf : Bool) (hfuel : 99 ≤ fuel) :
    ∃ b, self.sound m fuel rng time n nf = .ok b := by
  unfold BaseInstrument.sound
  cases self.kind
  · obtain ⟨b, hb, _⟩ := Bell_sound_ok m fuel rng self time n nf hfuel
    exact ⟨b, hb⟩
  · obtain ⟨b, hb, _⟩ := Bell8_sound_ok m fuel rng self time n nf hfuel
    exact ⟨b, hb⟩
  · obtain ⟨b, hb, _⟩ := Harmonica_sound_ok m fuel rng self time n nf hfuel
    exact ⟨b, hb⟩
  · obtain ⟨b, hb, _⟩ := Supersaw_sound_ok m fuel rng self time n nf hfuel
    exact ⟨b, hb⟩
  · obtain ⟨b, hb, _⟩ := KickDrum_sound_ok m fuel rng self time n nf
    exact ⟨b, hb⟩
  · obtain ⟨b, hb, _⟩ := SnareDrum_sound_ok m fuel rng self time n nf
    exact ⟨b, hb⟩
  · obtain ⟨b, hb, _⟩ := HiHat_sound_ok m fuel rng self time n nf
    exact ⟨b, hb⟩

/-- The silence floor yields `0` exactly on the amplitudes `<= 0.01`. -/
theorem Reference.clamp_eq_zero_iff (x : ℚ) : Reference.clamp x = 0 ↔ x ≤ 0.01 := by
  unfold Reference.clamp
  split_ifs with h
  · simp [h]
  · constructor
    · intro h0
      exact absurd (by rw [h0]; norm_num) h
    · intro h1
      exact absurd h1 h

/-- A floored amplitude is `<= 0` only when it is `0`. -/
theorem Reference.clamp_le_zero_iff (x : ℚ) : Reference.clamp x ≤ 0 ↔ Reference.clamp x = 0 := by
  unfold Reference.clamp
  split_ifs with h
  · simp
  · have h1 : (0.01 : ℚ) < x := not_le.mp h
    have h2 : (0 : ℚ) < 0.01 := by norm_num
    constructor
    · intro h0
      linarith
    · intro h0
      linarith

/-- The reference amplitude is `<= 0` only when it is `0`. -/
theorem Reference.amplitude_le_zero_iff (a d s r sa t tOn tOff : ℚ) :
    Reference.amplitude a d s r sa t tOn tOff ≤ 0
      ↔ Reference.amplitude a d s r sa t tOn tOff = 0 := by
  unfold Reference.amplitude
  split_ifs
  · exact Reference.clamp_le_zero_iff _
  · exact Reference.clamp_le_zero_iff _

/-- With start amplitude `1` and sustain level `0.95`, the phase amplitude is
under the silence floor exactly during the first hundredth of the attack. -/
theorem Reference.E_le_floor_iff (a d life : ℚ) (ha : 0 < a) (hd : 0 < d) :
    Reference.E a d 0.95 1 life ≤ 0.01 ↔ life ≤ a * 0.01 := by
  unfold Reference.E
  split_ifs with h1 h2
  · rw [mul_one, div_le_iff₀ ha]
    constructor <;> intro h <;> linarith
  · have hf1 : (life - a) / d ≤ 1 := by
      rw [div_le_one hd]
      linarith [h2.2]
    constructor
    · intro h
      norm_num at h
      linarith
    · intro h
      have : a * 0.01 < a := by
        have h3 : (0.01 : ℚ) < 1 := by norm_num
        nlinarith
      linarith [h2.1]
  · constructor
    · intro h
      norm_num at h
    · intro h
      have h3 : a < life := not_le.mp h1
      have : a * 0.01 < a := by
        have h4 : (0.01 : ℚ) < 1 := by norm_num
        nlinarith
      linarith

/-- Finished flag of a sustaining instrument whose envelope has attack `a`,
decay `1`, sustain level `0.95`, release `0.1` and start amplitude `1`, given
the form of the flag its `sound` returns. -/
theorem sustaining_flag (a : ℚ) (ha : 0 < a) (time tOn tOff : ℚ) (flag : Bool)
    (hflag : flag =
      (if Dbl.le
          (envelopeOutput (.fin time) ⟨.fin a, .fin 1, .fin 0.95, .fin 0.1, .fin 1⟩ (.fin tOn)
            (.fin tOff))
          (Dbl.lit 0.0) then true else false)) :
    (flag = true ↔
      EnvelopeADSR.amplitude ⟨.fin a, .fin 1, .fin 0.95, .fin 0.1, .fin 1⟩ (.fin time)
        (.fin tOn) (.fin tOff) = .fin 0)
    ∧ (tOff < tOn → (flag = true ↔ time - tOn ≤ a * 0.01)) := by
  have z : (0.0 : ℚ) = 0 := by norm_num
  have hamp := EnvelopeADSR.amplitude_fin a 1 0.95 0.1 1 time tOn tOff (ne_of_gt ha)
    (by norm_num) (by norm_num)
  have hf : flag = true ↔ Reference.amplitude a 1 0.95 0.1 1 time tOn tOff ≤ 0 := by
    rw [hflag]
    unfold envelopeOutput
    rw [hamp]
    simp [z]
  constructor
  · rw [hf, hamp, Reference.amplitude_le_zero_iff]
    constructor
    · intro h
      rw [h]
    · intro h
      exact Dbl.fin.inj h
  · intro hheld
    rw [hf, Reference.amplitude_le_zero_iff]
    unfold Reference.amplitude
    rw [if_pos hheld, Reference.clamp_eq_zero_iff]
    exact Reference.E_le_floor_iff a 1 _ ha (by norm_num)

/-- C7, the code at the failing input. A note of the Harmonica or of the
Supersaw that is held (`on = 1`, `off = 0`, as after `note.on = GetTime()` in
`main` while the key is down) is reported finished by `sound` at `time = on`,
for every math library, state of `rand`, pitch and channel: the attack ramp is
`(0 / attack) * startAmplitude = 0` there and `sound` tests only
`amplitude <= 0.0`, not that the note was released. -/
theorem sustaining_held_onset_finished (m : LibM) (rng : Nat) (id : Int)
    (channel : Option BaseInstrument) :
    (BaseInstrument.sound m 99 rng Harmonica.new (.fin 1)
        ⟨id, .fin 1, .fin 0, true, channel⟩ false).map (fun b => b.2.1) = .ok true
    ∧ (BaseInstrument.sound m 99 rng Supersaw.new (.fin 1)
        ⟨id, .fin 1, .fin 0, true, channel⟩ false).map (fun b => b.2.1) = .ok true := by
  constructor
  · obtain ⟨b, hb, hflag⟩ := Harmonica_sound_ok m 99 rng Harmonica.new (.fin 1)
      ⟨id, .fin 1, .fin 0, true, channel⟩ false (le_refl 99)
    have h := (sustaining_flag 0.1 (by norm_num) 1 1 0 b.2.1 (by
      rw [hflag]
      norm_num [Harmonica.new, EnvelopeADSR.new])).2 (by norm_num)
    have ht : b.2.1 = true := h.mpr (by norm_num)
    have hs : BaseInstrument.sound m 99 rng Harmonica.new (.fin 1)
        ⟨id, .fin 1, .fin 0, true, channel⟩ false = .ok b := hb
    rw [hs]
    simp [Except.map, ht]
  · obtain ⟨b, hb, hflag⟩ := Supersaw_sound_ok m 99 rng Supersaw.new (.fin 1)
      ⟨id, .fin 1, .fin 0, true, channel⟩ false (le_refl 99)
    have h := (sustaining_flag 0.05 (by norm_num) 1 1 0 b.2.1 (by
      rw [hflag]
      norm_num [Supersaw.new, EnvelopeADSR.new])).2 (by norm_num)
    have ht : b.2.1 = true := h.mpr (by norm_num)
    have hs : BaseInstrument.sound m 99 rng Supersaw.new (.fin 1)
        ⟨id, .fin 1, .fin 0, true, channel⟩ false = .ok b := hb
    rw [hs]
    simp [Except.map, ht]

/-- Finished flag of a percussive instrument with a positive finite
`maxLifeTme`, given the form of the flag its `sound` returns. -/
theorem percussive_flag (maxLife time tOn : ℚ) (hmax : 0 < maxLife) (flag : Bool)
    (hflag : flag =
      (if Dbl.gt (.fin maxLife) (Dbl.lit 0.0)
          && Dbl.ge (Dbl.fin time - Dbl.fin tOn) (.fin maxLife) then true else false)) :
    flag = decide (maxLife ≤ time - tOn) := by
  have z : (0.0 : ℚ) = 0 := by norm_num
  rw [hflag]
  simp [z, hmax]

end synthesizer

/-! ## Mixer -/

/-- `SafeRemove` keeps exactly the elements on which the predicate holds, in
order. -/
theorem SafeRemove_eq_filter (f : Note → Bool) (v : List Note) :
    SafeRemove f v = v.filter f := by
  induction v with
  | nil => rfl
  | cons n rest ih =>
    by_cases h : f n
    · simp [SafeRemove, h, ih]
    · simp [SafeRemove, h, ih]

/-- Every render of a note returns once the fuel covers the sawtooth loops. -/
theorem Reference.renderNote_ok (m : LibM) (fuel rng : Nat) (time : Dbl) (n : Note)
    (hfuel : 99 ≤ fuel) : ∃ r, Reference.renderNote m fuel rng time n = .ok r := by
  unfold Reference.renderNote
  cases n.channel with
  | none => exact ⟨_, rfl⟩
  | some instrument => exact BaseInstrument_sound_ok m fuel rng instrument time n false hfuel

/-- The body of the mixer loop renders the note as `renderNote` does. -/
theorem GenerateNoise.forLoop_cons (m : LibM) (fuel : Nat) (time : Dbl) (n : Note)
    (rest : List Note) (rng : Nat) (mixedOutput : Dbl) :
    GenerateNoise.forLoop m fuel time (n :: rest) rng mixedOutput
      = (Reference.renderNote m fuel rng time n >>= fun r =>
          GenerateNoise.forLoop m fuel time rest r.2.2 (mixedOutput + r.1) >>= fun t =>
            pure ((if r.2.1 then { n with active := false } else n) :: t.1, t.2)) := by
  rw [GenerateNoise.forLoop]
  unfold Reference.renderNote
  cases n.channel <;> rfl

/-- The mixer loop returns once the fuel covers the sawtooth loops: it marks
inactive the notes whose render reported finished and adds every rendered
sample to `mixedOutput`. -/
theorem GenerateNoise.forLoop_renders (m : LibM) (fuel : Nat) (time : Dbl) (hfuel : 99 ≤ fuel) :
    ∀ (notes : List Note) (rng : Nat) (mixedOutput : Dbl),
      (Reference.renders m fuel time notes rng).length = notes.length
      ∧ ∃ rng',
        GenerateNoise.forLoop m fuel time notes rng mixedOutput
          = .ok (List.zipWith (fun n r => if r.2 then { n with active := false } else n) notes
                (Reference.renders m fuel time notes rng),
              rng',
              ((Reference.renders m fuel time notes rng).map (fun r => r.1)).foldl
                (fun acc x => acc + x) mixedOutput) := by
  intro notes
  induction notes with
  | nil =>
    intro rng mixedOutput
    exact ⟨rfl, rng, rfl⟩
  | cons n rest ih =>
    intro rng mixedOutput
    obtain ⟨r, hr⟩ := Reference.renderNote_ok m fuel rng time n hfuel
    obtain ⟨hlen, rng', hrest⟩ := ih r.2.2 (mixedOutput + r.1)
    refine ⟨?_, rng', ?_⟩
    · simp [Reference.renders, hr, hlen]
    · rw [GenerateNoise.forLoop_cons, hr]
      simp only [Reference.renders, hr]
      show (GenerateNoise.forLoop m fuel time rest r.2.2 (mixedOutput + r.1) >>= _) = _
      rw [hrest]
      rfl

/-- With every note active before the pass, the notes still active after the
marking are those whose render did not report finished. -/
theorem Reference.filter_marked (notes : List Note) (hactive : ∀ n ∈ notes, n.active = true) :
    ∀ rs : List (Dbl × Bool),
      (List.zipWith (fun n r => if r.2 then { n with active := false } else n) notes rs).filter
          (fun item => item.active)
        = Reference.survivors notes rs := by
  induction notes with
  | nil =>
    intro rs
    simp [Reference.survivors]
  | cons n rest ih =>
    intro rs
    cases rs with
    | nil => simp [Reference.survivors]
    | cons r rs =>
      have hn : n.active = true := hactive n (List.mem_cons_self _ _)
      have hrest := ih (fun x hx => hactive x (List.mem_cons_of_mem _ hx)) rs
      unfold Reference.survivors at hrest ⊢
      by_cases hr : r.2 = true
      · simp [hr, hrest]
      · simp [hr, hn, hrest]

/-- Survivors and finished renders partition the notes of a pass. -/
theorem Reference.survivors_length (notes : List Note) :
    ∀ rs : List (Dbl × Bool), rs.length = notes.length →
      (Reference.survivors notes rs).length + Reference.finishedCount rs = notes.length := by
  induction notes with
  | nil =>
    intro rs h
    have : rs = [] := List.length_eq_zero.mp h
    subst this
    rfl
  | cons n rest ih =>
    intro rs h
    cases rs with
    | nil => simp at h
    | cons r rs =>
      have hrest := ih rs (by simpa using h)
      simp only [Reference.survivors, Reference.finishedCount, List.length_map,
        List.length_cons, List.zip_cons_cons] at hrest ⊢
      by_cases hr : r.2 = true
      · simp only [List.filter_cons, hr, Bool.not_true, Bool.false_eq_true, if_false, if_true,
          List.length_cons]
        omega
      · simp only [List.filter_cons, hr, Bool.not_eq_true, Bool.not_false, if_false, if_true,
          List.length_cons]
        simp only [Bool.not_eq_true] at hr
        simp only [hr, Bool.not_false, if_true, List.length_cons, Bool.false_eq_true, if_false]
        omega

/-- The survivors are a sub-sequence of the notes, in the same order. -/
theorem Reference.survivors_sublist (notes : List Note) (rs : List (Dbl × Bool))
    (h : rs.length = notes.length) : List.Sublist (Reference.survivors notes rs) notes := by
  have hz : (notes.zip rs).map (fun p => p.1) = notes := by
    have := List.map_fst_zip notes rs (le_of_eq h.symm)
    simpa using this
  have hs : List.Sublist (Reference.survivors notes rs) ((notes.zip rs).map (fun p => p.1)) :=
    List.Sublist.map _ (List.filter_sublist _)
  rw [hz] at hs
  exact hs

/-- Result of `GenerateNoise` in terms of the renders of the pass. -/
theorem GenerateNoise_eq (m : LibM) (fuel rng : Nat) (vecNotes : List Note)
    (channel : Int) (time : Dbl) (hfuel : 99 ≤ fuel) :
    (Reference.renders m fuel time vecNotes rng).length = vecNotes.length
    ∧ ∃ rng', GenerateNoise m fuel rng vecNotes channel time
        = .ok (Reference.sum ((Reference.renders m fuel time vecNotes rng).map (fun r => r.1))
              * Dbl.lit 0.2,
            (List.zipWith (fun n r => if r.2 then { n with active := false } else n) vecNotes
              (Reference.renders m fuel time vecNotes rng)).filter (fun item => item.active),
            rng') := by
  obtain ⟨hlen, rng', hloop⟩ :=
    GenerateNoise.forLoop_renders m fuel time hfuel vecNotes rng (Dbl.lit 0.0)
  refine ⟨hlen, rng', ?_⟩
  unfold GenerateNoise
  dsimp only
  rw [hloop, ← SafeRemove_eq_filter]
  rfl

/-- C2. Mixer retirement: when every note of the list is active, one call of
`GenerateNoise` (with fuel for the sawtooth loops) returns, and the list it
leaves is exactly the notes whose instrument did not report finished during
the call, in their order: a sub-sequence of the list, shorter by exactly the
number of notes that reported finished. -/
theorem GenerateNoise_retires (m : LibM) (fuel rng : Nat) (vecNotes : List Note)
    (channel : Int) (time : Dbl) (hfuel : 99 ≤ fuel)
    (hactive : ∀ n ∈ vecNotes, n.active = true) :
    (∃ out rng', GenerateNoise m fuel rng vecNotes channel time
        = .ok (out, Reference.survivors vecNotes (Reference.renders m fuel time vecNotes rng),
            rng'))
    ∧ (Reference.renders m fuel time vecNotes rng).length = vecNotes.length
    ∧ List.Sublist
        (Reference.survivors vecNotes (Reference.renders m fuel time vecNotes rng)) vecNotes
    ∧ (Reference.survivors vecNotes (Reference.renders m fuel time vecNotes rng)).length
        + Reference.finishedCount (Reference.renders m fuel time vecNotes rng)
        = vecNotes.length := by
  obtain ⟨hlen, rng', hG⟩ := GenerateNoise_eq m fuel rng vecNotes channel time hfuel
  rw [Reference.filter_marked vecNotes hactive] at hG
  exact ⟨⟨_, rng', hG⟩, hlen, Reference.survivors_sublist _ _ hlen,
    Reference.survivors_length _ _ hlen⟩

/-- C3. Mixer output: one call of `GenerateNoise` (with fuel for the sawtooth
loops) renders every note of the list exactly once, finished or not, and
returns `0.2` times the sum of the rendered samples (`0` for a note without
instrument); the result does not depend on the channel index. -/
theorem GenerateNoise_output (m : LibM) (fuel rng : Nat) (vecNotes : List Note)
    (channel : Int) (time : Dbl) (hfuel : 99 ≤ fuel) :
    (Reference.renders m fuel time vecNotes rng).length = vecNotes.length
    ∧ (∃ notes rng', GenerateNoise m fuel rng vecNotes channel time
        = .ok (Reference.sum ((Reference.renders m fuel time vecNotes rng).map (fun r => r.1))
              * Dbl.lit 0.2,
            notes, rng'))
    ∧ (∀ channel' : Int, GenerateNoise m fuel rng vecNotes channel' time
        = GenerateNoise m fuel rng vecNotes channel time) := by
  obtain ⟨hlen, rng', hG⟩ := GenerateNoise_eq m fuel rng vecNotes channel time hfuel
  exact ⟨hlen, ⟨_, rng', hG⟩, fun _ => rfl⟩

/-- Witness of C2: a held Harmonica note and a Kick note past its lifetime,
both active; after the pass at time 2 only the Harmonica note is left. -/
theorem GenerateNoise_retires_witness :
    ∃ out rng', GenerateNoise LibM.silent 99 0
        [⟨64, .fin 1, .fin 0, true, some Harmonica.new⟩,
         ⟨64, .fin 0, .fin 0, true, some KickDrum.new⟩] 0 (.fin 2)
      = .ok (out, [⟨64, .fin 1, .fin 0, true, some Harmonica.new⟩], rng') := by
  obtain ⟨⟨out, rng', h⟩, _, _, _⟩ := GenerateNoise_retires LibM.silent 99 0
    [⟨64, .fin 1, .fin 0, true, some Harmonica.new⟩,
     ⟨64, .fin 0, .fin 0, true, some KickDrum.new⟩] 0 (.fin 2) (le_refl 99)
    (by
      intro n hn
      simp only [List.mem_cons, List.mem_singleton, List.not_mem_nil, or_false] at hn
      rcases hn with rfl | rfl <;> rfl)
  refine ⟨out, rng', ?_⟩
  rw [h]
  obtain ⟨b1, hb1, hf1⟩ := Harmonica_sound_ok LibM.silent 99 0 Harmonica.new (.fin 2)
    ⟨64, .fin 1, .fin 0, true, some Harmonica.new⟩ false (le_refl 99)
  have hs1 : BaseInstrument.sound LibM.silent 99 0 Harmonica.new (.fin 2)
      ⟨64, .fin 1, .fin 0, true, some Harmonica.new⟩ false = .ok b1 := hb1
  have hflag1 : b1.2.1 = false := by
    cases hv : b1.2.1
    · rfl
    · have h2 := (sustaining_flag 0.1 (by norm_num) 2 1 0 b1.2.1 (by
        rw [hf1]
        norm_num [Harmonica.new, EnvelopeADSR.new])).2 (by norm_num)
      have := h2.mp hv
      norm_num at this
  obtain ⟨b2, hb2, hf2⟩ := KickDrum_sound_ok LibM.silent 99 b1.2.2 KickDrum.new (.fin 2)
    ⟨64, .fin 0, .fin 0, true, some KickDrum.new⟩ false
  have hs2 : BaseInstrument.sound LibM.silent 99 b1.2.2 KickDrum.new (.fin 2)
      ⟨64, .fin 0, .fin 0, true, some KickDrum.new⟩ false = .ok b2 := hb2
  have hflag2 : b2.2.1 = true := by
    rw [percussive_flag 1.5 2 0 (by norm_num) b2.2.1 hf2]
    norm_num
  simp [Reference.survivors, Reference.renders, Reference.renderNote, hs1, hs2, hflag1, hflag2]

/-- Witness of C3: the pass of the witness of C2 returns `0.2` times the sum
of its two renders. -/
theorem GenerateNoise_output_witness :
    ∃ notes rng', GenerateNoise LibM.silent 99 0
        [⟨64, .fin 1, .fin 0, true, some Harmonica.new⟩,
         ⟨64, .fin 0, .fin 0, true, some KickDrum.new⟩] 0 (.fin 2)
      = .ok (Reference.sum ((Reference.renders LibM.silent 99 (.fin 2)
              [⟨64, .fin 1, .fin 0, true, some Harmonica.new⟩,
               ⟨64, .fin 0, .fin 0, true, some KickDrum.new⟩] 0).map (fun r => r.1))
            * Dbl.lit 0.2,
          notes, rng') :=
  (GenerateNoise_output LibM.silent 99 0
    [⟨64, .fin 1, .fin 0, true, some Harmonica.new⟩,
     ⟨64, .fin 0, .fin 0, true, some KickDrum.new⟩] 0 (.fin 2) (le_refl 99)).2.1

/-! ## Step sequencer -/

namespace synthesizer

/-- Inside a pattern, `s[i]` is the character at position `i`. -/
theorem wstringAt_of_lt (s : String) (i : Int) (h0 : 0 ≤ i) (h1 : i < s.data.length) :
    ∃ ch, s.data.get? i.toNat = some ch ∧ wstringAt s i = .ok ch := by
  have hlt : i.toNat < s.data.length := by omega
  obtain ⟨ch, hch⟩ : ∃ ch, s.data.get? i.toNat = some ch :=
    ⟨s.data.get ⟨i.toNat, hlt⟩, List.get?_eq_get hlt⟩
  refine ⟨ch, hch, ?_⟩
  unfold wstringAt
  rw [if_neg (not_lt.mpr h0), hch]

/-- The channel loop appends the batch of the channels it visits, provided the
step index lies inside every pattern. -/
theorem DrumSequencer.Update.forLoop_batch (index : Int) (h0 : 0 ≤ index) :
    ∀ (rest pre : List Channel) (vecNotes : List Note),
      (∀ c ∈ rest, index < c.beat.data.length) →
      DrumSequencer.Update.forLoop (pre ++ rest) index rest pre.length vecNotes
        = .ok (vecNotes ++ Reference.batch rest index.toNat) := by
  intro rest
  induction rest with
  | nil =>
    intro pre vecNotes _
    simp [DrumSequencer.Update.forLoop, Reference.batch]
  | cons v rest ih =>
    intro pre vecNotes hpat
    obtain ⟨ch, hget, hch⟩ := wstringAt_of_lt v.beat index h0 (hpat v (List.mem_cons_self _ _))
    have hrest := ih (pre ++ [v])
    have hpre : pre ++ v :: rest = (pre ++ [v]) ++ rest := by simp
    have hlen : (pre ++ [v]).length = pre.length + 1 := by simp
    have hc : (pre ++ v :: rest).get? pre.length = some v := by
      rw [List.get?_eq_getElem?, List.getElem?_append_right (le_refl _)]
      simp
    rw [DrumSequencer.Update.forLoop]
    simp only [hch, bind, Except.bind]
    by_cases hx : (ch = 'X' || ch = 'x') = true
    · rw [if_pos hx]
      simp only [hc]
      rw [hpre, ← hlen, hrest _ (fun c hc => hpat c (List.mem_cons_of_mem _ hc))]
      have hhit : Reference.isHit index.toNat v = true := by
        simp only [Reference.isHit, hget]
        simpa using hx
      simp [Reference.batch, hhit, Reference.trigger, Note.new]
    · rw [if_neg hx]
      rw [hpre, ← hlen, hrest _ (fun c hc => hpat c (List.mem_cons_of_mem _ hc))]
      have hhit : Reference.isHit index.toNat v = false := by
        simp only [Reference.isHit, hget]
        simpa using hx
      simp [Reference.batch, hhit]

/-- One step boundary after another: the index after `j + 1` boundaries from
`old` is the index after `j` boundaries from the index after one. -/
theorem Reference.stepIndex_succ (old total : Int) (j : Nat) :
    Reference.stepIndex (Reference.stepIndex old total 1) total j
      = Reference.stepIndex old total (j + 1) := by
  unfold Reference.stepIndex
  rw [Int.emod_add_emod]
  congr 1
  push_cast
  ring

/-- The events of `k + 1` boundaries are the batch of the first followed by the
events of the `k` boundaries after it. -/
theorem Reference.events_succ (channels : List Channel) (old total : Int) (k : Nat) :
    Reference.events channels old total (k + 1)
      = Reference.batch channels (Reference.stepIndex old total 1).toNat
        ++ Reference.events channels (Reference.stepIndex old total 1) total k := by
  unfold Reference.events
  rw [List.range_succ_eq_map, List.flatMap_cons, List.flatMap_map]
  congr 1
  apply List.flatMap_congr
  intro j _
  rw [Reference.stepIndex_succ]

/-- The increment-and-wrap of `Update` is the step index after one boundary,
for an index in range. -/
theorem Reference.stepIndex_one (idx total : Int) (h0 : 0 ≤ idx) (h1 : idx < total) :
    (if idx + 1 ≥ total then 0 else idx + 1) = Reference.stepIndex idx total 1 := by
  unfold Reference.stepIndex
  split_ifs with h
  · have : idx + 1 = total := by omega
    simp [this]
  · have hlt : idx + 1 < total := by omega
    simp only [Nat.cast_one]
    rw [Int.emod_eq_of_lt (by omega) hlt]

/-- Batches of the example channel `"X...X...X...X..."`: one event at the
indices 0, 4, 8 and 12, none at the other indices below 16. -/
theorem Reference.batch_example (j : Int) (h0 : 0 ≤ j) (h1 : j < 16) :
    ((Reference.batch [{ instrument := some KickDrum.new, beat := "X...X...X...X..." }]
        j.toNat).length : Int)
      = if j = 0 ∨ j = 4 ∨ j = 8 ∨ j = 12 then 1 else 0 := by
  interval_cases j <;> simp [Reference.batch, Reference.isHit]

/-- A comparison `x < y` that holds excludes `x >= y`. -/
theorem Dbl.ge_eq_false_of_lt (x y : Dbl) (h : Dbl.lt x y = true) : Dbl.ge x y = false := by
  cases x <;> cases y <;> simp_all [Dbl.lt, Dbl.ge, Dbl.le]

end synthesizer

/-! ## Oscillator waveforms -/

namespace synthesizer

/-- C14. Unknown waveform degrades to silence: for every waveform kind other
than 0 to 4 and every time, frequency, vibrato, harmonics and fuel,
`Oscillate` returns exactly `0` without calling `rand()`. -/
theorem Oscillate_unknown (m : LibM) (fuel rng : Nat) (time hertz : Dbl) (type : Int)
    (lfoHertz lfoAmplitude custom : Dbl)
    (h : type ≠ 0 ∧ type ≠ 1 ∧ type ≠ 2 ∧ type ≠ 3 ∧ type ≠ 4) :
    Oscillate m fuel rng time hertz type lfoHertz lfoAmplitude custom = .ok (.fin 0, rng) := by
  have z : (0.0 : ℚ) = 0 := by norm_num
  obtain ⟨h0, h1, h2, h3, h4⟩ := h
  unfold Oscillate
  simp only [SINE_WAVE, SQUARE_WAVE, TRIANGLE_WAVE, SAW_WAVE, NOISE, h0, h1, h2, h3, h4,
    if_false, z]

/-- Witness of C14: waveform kind 5. -/
theorem Oscillate_unknown_witness :
    Oscillate LibM.silent 0 0 (.fin 1) (.fin 440) 5 (.fin 0) (.fin 0) (.fin 50)
      = .ok (.fin 0, 0) :=
  Oscillate_unknown LibM.silent 0 0 (.fin 1) (.fin 440) 5 (.fin 0) (.fin 0) (.fin 50)
    (by decide)

end synthesizer

/-! ## Stream engine -/

/-- The clipped value is finite and lies in `[-1, 1]`, whatever the sample,
`NaN` and the infinities included. -/
theorem NoiseGenerator.clip_range (x : Dbl) :
    ∃ q : ℚ, NoiseGenerator.clip x (Dbl.lit 1.0) = .fin q ∧ -1 ≤ q ∧ q ≤ 1 := by
  have z : (0.0 : ℚ) = 0 := by norm_num
  have o : (1.0 : ℚ) = 1 := by norm_num
  have hneg : (-(Dbl.lit 1.0) : Dbl) = .fin (-1) := by
    show Dbl.fin (-1.0) = Dbl.fin (-1)
    norm_num
  unfold NoiseGenerator.clip
  rw [hneg]
  cases x with
  | fin v =>
    by_cases h0 : 0 ≤ v
    · by_cases h1 : v ≤ 1
      · exact ⟨v, by simp [Dbl.fmin, Dbl.le, z, o, h0, h1], by linarith, h1⟩
      · exact ⟨1, by simp [Dbl.fmin, Dbl.le, z, o, h0, h1], by norm_num, le_refl 1⟩
    · by_cases h1 : -1 ≤ v
      · exact ⟨v, by simp [Dbl.fmax, Dbl.ge, Dbl.le, z, h0, h1], h1, by linarith⟩
      · exact ⟨-1, by simp [Dbl.fmax, Dbl.ge, Dbl.le, z, h0, h1], le_refl _, by norm_num⟩
  | pinf => exact ⟨1, by simp [Dbl.fmin, Dbl.ge, Dbl.le, o], by norm_num, le_refl 1⟩
  | ninf => exact ⟨-1, by simp [Dbl.fmax, Dbl.ge, Dbl.le], le_refl _, by norm_num⟩
  | nan => exact ⟨-1, by simp [Dbl.fmax, Dbl.ge, Dbl.le], le_refl _, by norm_num⟩

/-- Clipping leaves a sample of `[-1, 1]` as it is and replaces a sample beyond
by the bound on its side. -/
theorem NoiseGenerator.clip_cases (x : Dbl) :
    (Dbl.le (.fin (-1)) x = true → Dbl.le x (.fin 1) = true →
      NoiseGenerator.clip x (Dbl.lit 1.0) = x)
    ∧ (Dbl.gt x (.fin 1) = true → NoiseGenerator.clip x (Dbl.lit 1.0) = .fin 1)
    ∧ (Dbl.lt x (.fin (-1)) = true → NoiseGenerator.clip x (Dbl.lit 1.0) = .fin (-1)) := by
  have z : (0.0 : ℚ) = 0 := by norm_num
  have o : (1.0 : ℚ) = 1 := by norm_num
  have hneg : (-(Dbl.lit 1.0) : Dbl) = .fin (-1) := by
    show Dbl.fin (-1.0) = Dbl.fin (-1)
    norm_num
  unfold NoiseGenerator.clip
  rw [hneg]
  cases x with
  | fin v =>
    refine ⟨?_, ?_, ?_⟩
    · intro hlo hhi
      simp only [Dbl.le_fin_fin, decide_eq_true_eq] at hlo hhi
      by_cases h0 : 0 ≤ v
      · simp [Dbl.fmin, Dbl.le, z, o, h0, hhi]
      · simp [Dbl.fmax, Dbl.ge, Dbl.le, z, h0, hlo]
    · intro hgt
      simp only [Dbl.gt_fin_fin, decide_eq_true_eq] at hgt
      have h0 : 0 ≤ v := by linarith
      have h1 : ¬ v ≤ 1 := not_le.mpr hgt
      simp [Dbl.fmin, Dbl.le, z, o, h0, h1]
    · intro hlt
      simp only [Dbl.lt_fin_fin, decide_eq_true_eq] at hlt
      have h0 : ¬ 0 ≤ v := by linarith
      have h1 : ¬ -1 ≤ v := not_le.mpr hlt
      simp [Dbl.fmax, Dbl.ge, Dbl.le, z, h0, h1]
  | pinf => simp [Dbl.fmin, Dbl.ge, Dbl.gt, Dbl.lt, Dbl.le, o]
  | ninf => simp [Dbl.fmax, Dbl.ge, Dbl.gt, Dbl.lt, Dbl.le]
  | nan => simp [Dbl.fmax, Dbl.ge, Dbl.gt, Dbl.lt, Dbl.le]

/-- Truncation toward zero keeps a value inside integer bounds `[-M, M]`. -/
theorem truncQ_range (x : ℚ) (M : Int) (h0 : -(M : ℚ) ≤ x) (h1 : x ≤ M) :
    -M ≤ truncQ x ∧ truncQ x ≤ M := by
  unfold truncQ
  split_ifs with hx
  · constructor
    · have hM : (0 : ℚ) ≤ M := le_trans hx h1
      have hM' : (0 : Int) ≤ M := by exact_mod_cast hM
      have := Int.floor_nonneg.mpr hx
      linarith
    · have := Int.floor_le x
      have h2 : ((⌊x⌋ : Int) : ℚ) ≤ M := le_trans this h1
      exact_mod_cast h2
  · constructor
    · have := Int.le_ceil x
      have h2 : ((-M : Int) : ℚ) ≤ ⌈x⌉ := by
        push_cast
        linarith
      exact_mod_cast h2
    · have hx0 : x ≤ ((0 : Int) : ℚ) := by
        push_cast
        linarith
      have hc : ⌈x⌉ ≤ 0 := Int.ceil_le.mpr hx0
      have hM : (0 : ℚ) ≤ M := by linarith
      have hM' : (0 : Int) ≤ M := by exact_mod_cast hM
      linarith

/-- `Generate` returns `false` exactly when the device is in the enumerated
list and `waveOutOpen` fails on it; then the object is not ready and no thread
is started by the call.  In every other case, the device missing from the list
included, it returns `true` with the object ready and the producer thread
started. -/
theorem NoiseGenerator.Generate_result {σ : Type} (env : AudioDevices)
    (self : NoiseGenerator σ) (outputDevice : String)
    (sampleRate channels blocks blockSamples : Nat) :
    (outputDevice ∈ env.devices ∧ env.waveOutOpen (env.devices.indexOf outputDevice) = false →
      (NoiseGenerator.Generate env self outputDevice sampleRate channels blocks blockSamples).1
          = false
      ∧ (NoiseGenerator.Generate env self outputDevice sampleRate channels blocks
          blockSamples).2.m_ready = false
      ∧ (NoiseGenerator.Generate env self outputDevice sampleRate channels blocks
          blockSamples).2.m_thread = self.m_thread)
    ∧ (¬ (outputDevice ∈ env.devices
          ∧ env.waveOutOpen (env.devices.indexOf outputDevice) = false) →
      (NoiseGenerator.Generate env self outputDevice sampleRate channels blocks blockSamples).1
          = true
      ∧ (NoiseGenerator.Generate env self outputDevice sampleRate channels blocks
          blockSamples).2.m_ready = true
      ∧ (NoiseGenerator.Generate env self outputDevice sampleRate channels blocks
          blockSamples).2.m_thread = true) := by
  have hmem : env.devices.indexOf outputDevice ≠ env.devices.length
      ↔ outputDevice ∈ env.devices := by
    rw [← List.indexOf_lt_length]
    have := List.indexOf_le_length (a := outputDevice) (l := env.devices)
    omega
  constructor
  · rintro ⟨hin, hopen⟩
    have hd := hmem.mpr hin
    simp [NoiseGenerator.Generate, hd, hopen, NoiseGenerator.Destroy]
  · intro h
    by_cases hin : outputDevice ∈ env.devices
    · have hopen : env.waveOutOpen (env.devices.indexOf outputDevice) = true := by
        cases hv : env.waveOutOpen (env.devices.indexOf outputDevice)
        · exact absurd ⟨hin, hv⟩ h
        · rfl
      have hd := hmem.mpr hin
      simp [NoiseGenerator.Generate, hd, hopen]
    · have hd : ¬ env.devices.indexOf outputDevice ≠ env.devices.length := fun hc =>
        hin (hmem.mp hc)
      simp only [ne_eq, not_not] at hd
      simp [NoiseGenerator.Generate, hd]

/-- C17, the code at the failing input. The only enumerated device is
`"Speakers"` and the requested device is `"Headphones"`: the test
`d != devices.end()` fails, nothing is opened, and `Generate` falls through to
the allocation: it returns `true`, sets `m_ready` and starts the producer
thread, with no device opened. -/
theorem NoiseGenerator.Generate_device_not_found :
    (NoiseGenerator.Generate ⟨["Speakers"], fun _ => true⟩ NoiseGenerator.blank "Headphones"
        44100 1 8 512).1 = true
    ∧ (NoiseGenerator.Generate ⟨["Speakers"], fun _ => true⟩ NoiseGenerator.blank "Headphones"
        44100 1 8 512).2.m_ready = true
    ∧ (NoiseGenerator.Generate ⟨["Speakers"], fun _ => true⟩ NoiseGenerator.blank "Headphones"
        44100 1 8 512).2.m_thread = true
    ∧ (NoiseGenerator.Generate ⟨["Speakers"], fun _ => true⟩ NoiseGenerator.blank "Headphones"
        44100 1 8 512).2.m_hwDevice = none
    ∧ "Headphones" ∉ ["Speakers"] := by
  have hnot : "Headphones" ∉ ["Speakers"] := by decide
  have h := (NoiseGenerator.Generate_result ⟨["Speakers"], fun _ => true⟩ NoiseGenerator.blank
    "Headphones" 44100 1 8 512).2 (fun hc => hnot hc.1)
  refine ⟨h.1, h.2.1, h.2.2, ?_, hnot⟩
  have hd : List.indexOf "Headphones" ["Speakers"] = 1 := by decide
  simp [NoiseGenerator.Generate, hd, NoiseGenerator.blank]

/-! ## Pattern length -/

namespace synthesizer

/-- Beyond the terminating null, `s[i]` has no defined value. -/
theorem wstringAt_of_gt (s : String) (i : Int) (h : (s.data.length : Int) < i) :
    wstringAt s i = .error .outOfRange := by
  have h0 : ¬ i < 0 := by omega
  have hlt : s.data.length < i.toNat := by omega
  have hget : s.data.get? i.toNat = none := List.get?_eq_none.mpr (le_of_lt hlt)
  unfold wstringAt
  rw [if_neg h0, hget]
  simp only
  rw [if_neg (by omega)]

/-- The only fault of `s[i]` is the read out of range. -/
theorem wstringAt_fault (s : String) (i : Int) (e : Fault) (h : wstringAt s i = .error e) :
    e = .outOfRange := by
  unfold wstringAt at h
  by_cases h0 : i < 0
  · rw [if_pos h0] at h
    exact (Except.error.inj h).symm
  · rw [if_neg h0] at h
    cases hg : s.data.get? i.toNat with
    | some c =>
      rw [hg] at h
      cases h
    | none =>
      rw [hg] at h
      by_cases hl : i.toNat = s.data.length
      · simp only [hl, if_true] at h
        cases h
      · simp only [hl, if_false] at h
        exact (Except.error.inj h).symm

/-- The channel loop reads out of range when the step index lies beyond the
pattern of a channel it visits. -/
theorem DrumSequencer.Update.forLoop_short_pattern (index : Int) :
    ∀ (rest pre : List Channel) (vecNotes : List Note),
      (∃ c ∈ rest, (c.beat.data.length : Int) < index) →
      DrumSequencer.Update.forLoop (pre ++ rest) index rest pre.length vecNotes
        = .error .outOfRange := by
  intro rest
  induction rest with
  | nil =>
    intro pre vecNotes h
    obtain ⟨c, hc, _⟩ := h
    simp at hc
  | cons v rest ih =>
    intro pre vecNotes h
    have hpre : pre ++ v :: rest = (pre ++ [v]) ++ rest := by simp
    have hlen : (pre ++ [v]).length = pre.length + 1 := by simp
    have hc : (pre ++ v :: rest).get? pre.length = some v := by
      rw [List.get?_eq_getElem?, List.getElem?_append_right (le_refl _)]
      simp
    rw [DrumSequencer.Update.forLoop]
    cases hw : wstringAt v.beat index with
    | error e =>
      rw [wstringAt_fault _ _ _ hw]
      rfl
    | ok ch =>
      have hrest : ∃ c ∈ rest, (c.beat.data.length : Int) < index := by
        obtain ⟨c, hcm, hcl⟩ := h
        rcases List.mem_cons.mp hcm with rfl | hin
        · rw [wstringAt_of_gt _ _ hcl] at hw
          exact absurd hw (by simp)
        · exact ⟨c, hin, hcl⟩
      simp only [bind, Except.bind, hc]
      split_ifs
      · rw [hpre, ← hlen]
        exact ih (pre ++ [v]) _ hrest
      · rw [hpre, ← hlen]
        exact ih (pre ++ [v]) _ hrest

/-- `Update` across a step boundary reads out of range when the new step index
lies beyond the pattern of a channel. -/
theorem DrumSequencer.Update_short_pattern (beats sub : Int) (temp : Dbl)
    (step a elapsed : ℚ) (idx total : Int) (chans : List Channel) (notes0 : List Note)
    (fuel : Nat) (hfuel : 1 ≤ fuel) (he : step ≤ a + elapsed)
    (hidx : idx + 1 < total)
    (hbad : ∃ c ∈ chans, (c.beat.data.length : Int) < idx + 1) :
    DrumSequencer.Update fuel ⟨beats, sub, temp, .fin step, .fin a, idx, total, chans, notes0⟩
        (.fin elapsed)
      = .error .outOfRange := by
  obtain ⟨f, rfl⟩ : ∃ f, fuel = f + 1 := ⟨fuel - 1, by omega⟩
  have hw : ¬ idx + 1 ≥ total := by omega
  have hloop := DrumSequencer.Update.forLoop_short_pattern (idx + 1) chans [] [] hbad
  simp only [List.nil_append, List.length_nil] at hloop
  unfold DrumSequencer.Update
  simp only [Dbl.fin_add_fin, bind, Except.bind]
  rw [DrumSequencer.Update.whileLoop]
  simp only [Dbl.ge_fin_fin, he, decide_True, if_true, Dbl.fin_sub_fin, bind, Except.bind,
    if_neg hw, hloop]

/-- C18 as stated fails: nothing is validated at configuration time.
`AddInstrument` on the freshly constructed sequencer (16 steps) succeeds and
leaves a channel whose pattern is empty; `Update(0.125)` on that state crosses
the first boundary and reads the pattern at index 1, out of range. -/
theorem DrumSequencer.pattern_validation_counterexample :
    (((DrumSequencer.new (Dbl.lit 120) 4 4).AddInstrument (some KickDrum.new)).vecChannel.map
        (fun c => c.beat.data.length)) = [0]
    ∧ ((DrumSequencer.new (Dbl.lit 120) 4 4).AddInstrument (some KickDrum.new)).drumTotalBeats
        = 16
    ∧ ((DrumSequencer.new (Dbl.lit 120) 4 4).AddInstrument (some KickDrum.new)).Update 1
        (.fin 0.125) = .error .outOfRange := by
  have hbt : (Dbl.lit 60.0 / Dbl.lit 120) / Dbl.ofInt 4 = Dbl.fin 0.125 := by
    norm_num [Dbl.div_def, Dbl.div, Dbl.ofInt]
  have hs : (DrumSequencer.new (Dbl.lit 120) 4 4).AddInstrument (some KickDrum.new)
      = ⟨4, 4, Dbl.lit 120, .fin 0.125, .fin 0, 0, 16,
          [{ instrument := some KickDrum.new, beat := "" }], []⟩ := by
    simp only [DrumSequencer.AddInstrument, DrumSequencer.new, hbt]
    norm_num
  refine ⟨by rw [hs]; rfl, by rw [hs], ?_⟩
  rw [hs]
  exact DrumSequencer.Update_short_pattern 4 4 (Dbl.lit 120) 0.125 0 0.125 0 16 _ [] 1
    (le_refl 1) (by norm_num) (by norm_num)
    ⟨_, List.mem_singleton.mpr rfl, by decide⟩

/-- C18, amended. A pattern shorter than `totalSteps` is not rejected at
configuration time: `AddInstrument` accepts every instrument and gives the new
channel the empty pattern, and the pattern assignment stores a pattern of any
length in an existing channel.  On a state with a channel whose pattern is
shorter than the next step index, `Update` across a step boundary reads that
pattern out of range. -/
theorem DrumSequencer.pattern_not_validated (s : DrumSequencer)
    (inst : Option BaseInstrument) (i : Nat) (pattern : String)
    (hi : i < s.vecChannel.length)
    (step a elapsed : ℚ) (fuel : Nat) (hfuel : 1 ≤ fuel)
    (hstep : s.drumBeatTime = .fin step) (hacc : s.drumAccumulate = .fin a)
    (he : step ≤ a + elapsed) (hidx : s.drumCurrentBeat + 1 < s.drumTotalBeats)
    (hbad : ∃ c ∈ s.vecChannel, (c.beat.data.length : Int) < s.drumCurrentBeat + 1) :
    (s.AddInstrument inst).vecChannel = s.vecChannel ++ [{ instrument := inst, beat := "" }]
    ∧ (∃ s', s.setBeat i pattern = .ok s'
        ∧ (s'.vecChannel.get? i).map (fun c => c.beat) = some pattern
        ∧ s'.vecChannel.length = s.vecChannel.length)
    ∧ s.Update fuel (.fin elapsed) = .error .outOfRange := by
  refine ⟨rfl, ?_, ?_⟩
  · have hget : s.vecChannel.get? i = some (s.vecChannel.get ⟨i, hi⟩) := List.get?_eq_get hi
    refine ⟨{ s with
      vecChannel := s.vecChannel.set i { s.vecChannel.get ⟨i, hi⟩ with beat := pattern } },
      by simp only [DrumSequencer.setBeat, hget], ?_, ?_⟩
    · simp [hi]
    · simp
  · cases s with
    | mk beats sub temp bt acc idx total chans notes0 =>
      simp only at hstep hacc hidx hbad
      subst hstep hacc
      exact DrumSequencer.Update_short_pattern beats sub temp step a elapsed idx total chans
        notes0 fuel hfuel he hidx hbad

end synthesizer

namespace synthesizer

/-- Witness of C18: a 16-step sequencer at index 2 whose single channel has
the pattern `"X."`; the next boundary reads the pattern at index 3. -/
theorem DrumSequencer.pattern_not_validated_witness :
    DrumSequencer.Update 1
        ⟨4, 4, Dbl.lit 120, .fin 0.125, .fin 0, 2, 16,
          [{ instrument := some KickDrum.new, beat := "X." }], []⟩ (.fin 0.125)
      = .error .outOfRange :=
  (DrumSequencer.pattern_not_validated
    ⟨4, 4, Dbl.lit 120, .fin 0.125, .fin 0, 2, 16,
      [{ instrument := some KickDrum.new, beat := "X." }], []⟩
    none 0 "X." (by decide) 0.125 0 0.125 1 (le_refl 1) rfl rfl (by norm_num) (by decide)
    ⟨_, List.mem_singleton.mpr rfl, by decide⟩).2.2

end synthesizer

/-! ## Backpressure -/

/-- What every step of the engine keeps: the block count, the partition of the
blocks into free, held by the producer and pending at the device, and a
positive counter between the wait and the decrement. -/
theorem Engine.step_invariant (blocks : Nat) (hblocks : blocks < UINT_SIZE) (a : EngineStep)
    (e e' : Engine) (hstep : Engine.step a e = some e')
    (hcount : e.m_blockCount = blocks)
    (hsum : e.m_atomicFreeBlock + e.held + e.pending = blocks)
    (hpos : e.producer = .afterWait → 0 < e.m_atomicFreeBlock) :
    e'.m_blockCount = blocks
    ∧ e'.m_atomicFreeBlock + e'.held + e'.pending = blocks
    ∧ (e'.producer = .afterWait → 0 < e'.m_atomicFreeBlock) := by
  have hU : UINT_SIZE = 4294967296 := by norm_num [UINT_SIZE]
  rw [hU] at hblocks
  cases a with
  | wait =>
    simp only [Engine.step] at hstep
    split_ifs at hstep with hp h0
    · cases hstep
      exact ⟨hcount, hsum, hpos⟩
    · cases hstep
      refine ⟨hcount, ?_, fun _ => Nat.pos_of_ne_zero h0⟩
      simp only [Engine.held, hp] at hsum ⊢
      simpa using hsum
  | take =>
    simp only [Engine.step] at hstep
    split_ifs at hstep with hp
    cases hstep
    have hfree := hpos hp
    have hlt : e.m_atomicFreeBlock < 4294967296 := by omega
    refine ⟨hcount, ?_, ?_⟩
    · simp only [Engine.held, hp] at hsum ⊢
      simp only [hU, if_true]
      simp only [reduceCtorEq, if_false] at hsum
      omega
    · intro h
      cases h
  | submit =>
    simp only [Engine.step] at hstep
    split_ifs at hstep with hp
    cases hstep
    refine ⟨hcount, ?_, ?_⟩
    · simp only [Engine.held, hp.1, if_true] at hsum ⊢
      simp only [reduceCtorEq, if_false]
      omega
    · intro h
      cases h
  | done =>
    simp only [Engine.step] at hstep
    split_ifs at hstep with hp
    cases hstep
    refine ⟨hcount, ?_, ?_⟩
    · simp only [Engine.held] at hsum ⊢
      simp only [hU]
      split_ifs at hsum ⊢ <;> omega
    · intro h
      have := hpos h
      simp only [hU]
      omega

/-- The invariant of the steps holds after every run from the start state. -/
theorem Engine.run_invariant (blocks : Nat) (hblocks : blocks < UINT_SIZE) :
    ∀ (steps : List EngineStep) (e0 e : Engine), Engine.run steps e0 = some e →
      e0.m_blockCount = blocks →
      e0.m_atomicFreeBlock + e0.held + e0.pending = blocks →
      (e0.producer = .afterWait → 0 < e0.m_atomicFreeBlock) →
      e.m_blockCount = blocks
      ∧ e.m_atomicFreeBlock + e.held + e.pending = blocks
      ∧ (e.producer = .afterWait → 0 < e.m_atomicFreeBlock) := by
  intro steps
  induction steps with
  | nil =>
    intro e0 e hrun hcount hsum hpos
    simp only [Engine.run] at hrun
    cases hrun
    exact ⟨hcount, hsum, hpos⟩
  | cons a rest ih =>
    intro e0 e hrun hcount hsum hpos
    simp only [Engine.run] at hrun
    cases hs : Engine.step a e0 with
    | none => simp [hs] at hrun
    | some e1 =>
      simp only [hs] at hrun
      obtain ⟨h1, h2, h3⟩ := Engine.step_invariant blocks hblocks a e0 e1 hs hcount hsum hpos
      exact ih e1 e hrun h1 h2 h3

/-- Claim C19 (backpressure).  In every state `e` that the engine reaches from
`Engine.start blocks` (counter = block count, `blocks` an `unsigned int`) by
any sequence of producer steps and completion signals: the blocks are
partitioned into free, held by the producer and submitted-but-not-completed,
so neither the pending blocks nor the counter exceed `blocks`; while the
counter is `0` the producer cannot take a block, its cycle wait, take, submit
is not enabled, and at the top of its loop it stays there; and a take that is
enabled finds a positive counter and lowers it by one without wrap. -/
theorem Engine.backpressure (blocks : Nat) (hblocks : blocks < UINT_SIZE)
    (steps : List EngineStep) (e : Engine)
    (hrun : Engine.run steps (Engine.start blocks) = some e) :
    e.m_atomicFreeBlock + e.held + e.pending = blocks
    ∧ e.pending ≤ blocks
    ∧ e.m_atomicFreeBlock ≤ blocks
    ∧ (e.m_atomicFreeBlock = 0 →
        Engine.step .take e = none
        ∧ Engine.run [.wait, .take, .submit] e = none
        ∧ (e.producer = .loopTop → Engine.step .wait e = some e))
    ∧ (∀ e1, Engine.step .take e = some e1 →
        0 < e.m_atomicFreeBlock
        ∧ e1.m_atomicFreeBlock + 1 = e.m_atomicFreeBlock
        ∧ e1.producer = .filling)
    ∧ (∀ e1, Engine.step .submit e = some e1 →
        e.producer = .filling ∧ e1.pending = e.pending + 1 ∧ e1.pending ≤ blocks) := by
  obtain ⟨hcount, hsum, hpos⟩ :=
    Engine.run_invariant blocks hblocks steps (Engine.start blocks) e hrun rfl
      (by simp [Engine.start, Engine.held]) (by intro h; cases h)
  have hU : UINT_SIZE = 4294967296 := by norm_num [UINT_SIZE]
  have hne : e.m_atomicFreeBlock = 0 → e.producer ≠ .afterWait := by
    intro h0 hp
    have := hpos hp
    omega
  refine ⟨hsum, by omega, by omega, ?_, ?_, ?_⟩
  · intro h0
    have htake : Engine.step .take e = none := by
      simp only [Engine.step, if_neg (hne h0)]
    refine ⟨htake, ?_, ?_⟩
    · simp only [Engine.run]
      cases hw : Engine.step .wait e with
      | none => rfl
      | some e1 =>
        simp only [Engine.step] at hw
        split_ifs at hw with hp
        cases hw
        simp only [htake]
    · intro hp
      simp only [Engine.step, hp, h0, if_true]
  · intro e1 h1
    simp only [Engine.step] at h1
    split_ifs at h1 with hp
    cases h1
    have hfree := hpos hp
    refine ⟨hfree, ?_, rfl⟩
    simp only [hU]
    rw [hU] at hblocks
    omega
  · intro e1 h1
    simp only [Engine.step] at h1
    split_ifs at h1 with hp
    cases h1
    refine ⟨hp.1, rfl, ?_⟩
    simp only [Engine.held, hp.1, if_true] at hsum
    simp only
    omega

/-- Witness of C19: two blocks, both taken and submitted, then the producer at
the wait with the counter at `0`. -/
theorem Engine.backpressure_witness :
    Engine.run [.wait, .take, .submit, .wait, .take, .submit, .wait] (Engine.start 2)
      = some ⟨2, 0, 0, .loopTop, 2⟩
    ∧ Engine.step .take ⟨2, 0, 0, .loopTop, 2⟩ = none
    ∧ Engine.run [.wait, .take, .submit] ⟨2, 0, 0, .loopTop, 2⟩ = none :=
  ⟨rfl,
   ((Engine.backpressure 2 (by norm_num [UINT_SIZE])
      [.wait, .take, .submit, .wait, .take, .submit, .wait] ⟨2, 0, 0, .loopTop, 2⟩
      rfl).2.2.2.1 rfl).1,
   ((Engine.backpressure 2 (by norm_num [UINT_SIZE])
      [.wait, .take, .submit, .wait, .take, .submit, .wait] ⟨2, 0, 0, .loopTop, 2⟩
      rfl).2.2.2.1 rfl).2.1⟩

/-! ## Sequencer invariant -/

namespace synthesizer

end synthesizer

/-! ## Rounding to `double` -/

namespace synthesizer

namespace binary64

/-- The half-way rule of `roundEven`: the result is within `1/2` of the
argument, and even when it is exactly `1/2` away. -/
theorem roundEven_spec (x : ℚ) :
    |x - roundEven x| < 1 / 2 ∨ (|x - roundEven x| = 1 / 2 ∧ roundEven x % 2 = 0) := by
  have h0 := Int.floor_le x
  have h1 := Int.lt_floor_add_one x
  unfold roundEven
  split_ifs with ha hb hc
  · left
    rw [abs_lt]
    constructor <;> linarith
  · left
    push_cast
    rw [abs_lt]
    constructor <;> linarith
  · right
    have he : x - ⌊x⌋ = 1 / 2 := le_antisymm (not_lt.mp hb) (not_lt.mp ha)
    exact ⟨by rw [he]; norm_num, hc⟩
  · right
    have he : x - ⌊x⌋ = 1 / 2 := le_antisymm (not_lt.mp hb) (not_lt.mp ha)
    refine ⟨?_, by omega⟩
    push_cast
    have : x - (⌊x⌋ + 1) = -(1 / 2) := by linarith
    rw [this]
    norm_num

/-- The integer that meets the half-way rule is the one `roundEven` returns. -/
theorem roundEven_unique (x : ℚ) (k : ℤ)
    (h : |x - k| < 1 / 2 ∨ (|x - k| = 1 / 2 ∧ k % 2 = 0)) : roundEven x = k := by
  have hs := roundEven_spec x
  generalize roundEven x = r at hs
  have hd : |((r - k : ℤ) : ℚ)| ≤ |x - r| + |x - k| := by
    have : ((r - k : ℤ) : ℚ) = (x - k) - (x - r) := by push_cast; ring
    rw [this]
    calc |x - ↑k - (x - ↑r)| ≤ |x - ↑k| + |x - ↑r| := abs_sub _ _
      _ = |x - ↑r| + |x - ↑k| := add_comm _ _
  have hcast : |((r - k : ℤ) : ℚ)| = ((|r - k| : ℤ) : ℚ) := by simp
  rw [hcast] at hd
  rcases hs with hs | ⟨hs, hse⟩ <;> rcases h with h | ⟨h, hke⟩
  · have : ((|r - k| : ℤ) : ℚ) < 1 := by linarith
    have : |r - k| < 1 := by exact_mod_cast this
    have := abs_lt.mp this
    omega
  · have : ((|r - k| : ℤ) : ℚ) < 1 := by linarith
    have : |r - k| < 1 := by exact_mod_cast this
    have := abs_lt.mp this
    omega
  · have : ((|r - k| : ℤ) : ℚ) < 1 := by linarith
    have : |r - k| < 1 := by exact_mod_cast this
    have := abs_lt.mp this
    omega
  · have : ((|r - k| : ℤ) : ℚ) ≤ 1 := by linarith
    have : |r - k| ≤ 1 := by exact_mod_cast this
    have := abs_le.mp this
    omega

/-- An integer is its own nearest integer. -/
theorem roundEven_intCast (k : ℤ) : roundEven (k : ℚ) = k :=
  roundEven_unique _ k (Or.inl (by simp))

/-- Rounding to the nearest integer is odd. -/
theorem roundEven_neg (x : ℚ) : roundEven (-x) = -roundEven x := by
  apply roundEven_unique
  have hs := roundEven_spec x
  have he : -x - ((-roundEven x : ℤ) : ℚ) = -(x - roundEven x) := by push_cast; ring
  rw [he, abs_neg]
  rcases hs with hs | ⟨hs, hse⟩
  · exact Or.inl hs
  · exact Or.inr ⟨hs, by omega⟩

/-- Rounding to the nearest integer is monotone. -/
theorem roundEven_mono {x y : ℚ} (h : x ≤ y) : roundEven x ≤ roundEven y := by
  by_contra hlt
  push_neg at hlt
  have hx := roundEven_spec x
  have hy := roundEven_spec y
  generalize roundEven x = a at hx hlt
  generalize roundEven y = b at hy hlt
  have hab : (b : ℚ) + 1 ≤ a := by exact_mod_cast hlt
  have hxa : |x - a| ≤ 1 / 2 := by
    rcases hx with hx | ⟨hx, _⟩
    · exact hx.le
    · exact hx.le
  have hyb : |y - b| ≤ 1 / 2 := by
    rcases hy with hy | ⟨hy, _⟩
    · exact hy.le
    · exact hy.le
  have h1 := (abs_le.mp hxa).1
  have h2 := (abs_le.mp hyb).2
  have hxe : x - a = -(1 / 2) := by linarith
  have hye : y - b = 1 / 2 := by linarith
  have hab2 : (a : ℚ) = b + 1 := by linarith
  have hab3 : a = b + 1 := by exact_mod_cast hab2
  rcases hx with hx | ⟨_, hae⟩
  · rw [hxe, abs_neg, abs_of_pos (by norm_num : (0 : ℚ) < 1 / 2)] at hx
    exact lt_irrefl _ hx
  · rcases hy with hy | ⟨_, hbe⟩
    · rw [hye, abs_of_pos (by norm_num : (0 : ℚ) < 1 / 2)] at hy
      exact lt_irrefl _ hy
    · omega

/-- The exponent of a number of the binade `[2^e, 2^(e+1))`, `e ≥ -1022`. -/
theorem exponent_eq (q : ℚ) (e : ℤ) (hmin : -1022 ≤ e) (hlo : (2 : ℚ) ^ e ≤ |q|)
    (hhi : |q| < 2 ^ (e + 1)) : exponent q = e := by
  have hpos : (0 : ℚ) < |q| := lt_of_lt_of_le (by positivity) hlo
  have h1 : e ≤ Int.log 2 |q| := by
    rw [← Int.zpow_le_iff_le_log (by norm_num) hpos]
    exact_mod_cast hlo
  have h2 : Int.log 2 |q| < e + 1 := by
    rw [← Int.lt_zpow_iff_log_lt (by norm_num) hpos]
    exact_mod_cast hhi
  unfold exponent
  omega

/-- The exponent of a number below the normal range. -/
theorem exponent_subnormal (q : ℚ) (hhi : |q| < 2 ^ (-1022 : ℤ)) (hq : q ≠ 0) :
    exponent q = -1022 := by
  have hpos : (0 : ℚ) < |q| := abs_pos.mpr hq
  have h2 : Int.log 2 |q| < -1022 := by
    rw [← Int.lt_zpow_iff_log_lt (by norm_num) hpos]
    exact_mod_cast hhi
  unfold exponent
  omega

/-- Where the exponent puts a number: below `2^(E+1)`, and at least `2^E`
unless `E` is the exponent of the subnormal numbers. -/
theorem exponent_bounds (q : ℚ) (hq : q ≠ 0) :
    -1022 ≤ exponent q ∧ |q| < 2 ^ (exponent q + 1)
    ∧ ((2 : ℚ) ^ exponent q ≤ |q| ∨ exponent q = -1022) := by
  have hpos : (0 : ℚ) < |q| := abs_pos.mpr hq
  have h1 : ((2 : ℕ) : ℚ) ^ Int.log 2 |q| ≤ |q| := Int.zpow_log_le_self (by norm_num) hpos
  have h2 : |q| < ((2 : ℕ) : ℚ) ^ (Int.log 2 |q| + 1) :=
    Int.lt_zpow_succ_log_self (by norm_num) _
  rw [Nat.cast_ofNat] at h1 h2
  unfold exponent
  rcases le_total (Int.log 2 |q|) (-1022) with h | h
  · rw [max_eq_right h]
    refine ⟨le_refl _, ?_, Or.inr rfl⟩
    exact lt_of_lt_of_le h2 (zpow_le_zpow_right₀ (by norm_num) (by omega))
  · rw [max_eq_left h]
    exact ⟨h, h2, Or.inl h1⟩

/-- The exponent of zero. -/
theorem exponent_zero : exponent 0 = 0 := by
  unfold exponent
  rw [abs_zero, Int.log_of_right_le_zero 2 (le_refl (0 : ℚ))]
  rfl

/-- Zero is a `double`. -/
theorem nearest_zero : nearest 0 = 0 := by
  unfold nearest
  rw [zero_div]
  have : roundEven 0 = 0 := by
    have := roundEven_intCast 0
    simpa using this
  rw [this]
  simp

/-- A rational `m · 2^p` with a mantissa of at most 53 bits and an exponent
from the subnormal range on is on the grid of its binade. -/
theorem nearest_dyadic (m p : ℤ) (hm : |m| < 2 ^ 53) (hp : -1074 ≤ p) :
    nearest ((m : ℚ) * 2 ^ p) = (m : ℚ) * 2 ^ p := by
  by_cases hm0 : m = 0
  · subst hm0
    simp only [Int.cast_zero, zero_mul]
    exact nearest_zero
  have h2 : (2 : ℚ) ≠ 0 := by norm_num
  have hq : (m : ℚ) * 2 ^ p ≠ 0 := mul_ne_zero (by exact_mod_cast hm0) (zpow_ne_zero _ h2)
  obtain ⟨hE, hhi, hlo⟩ := exponent_bounds _ hq
  unfold nearest
  generalize exponent ((m : ℚ) * 2 ^ p) = E at hE hhi hlo
  have hmq : |(m : ℚ)| < 2 ^ (53 : ℤ) := by
    have : ((|m| : ℤ) : ℚ) < ((2 ^ 53 : ℤ) : ℚ) := by exact_mod_cast hm
    rw [Int.cast_abs] at this
    calc |(m : ℚ)| < ((2 ^ 53 : ℤ) : ℚ) := this
      _ = 2 ^ (53 : ℤ) := by norm_num
  have hp2 : (0 : ℚ) < 2 ^ p := zpow_pos (by norm_num) p
  have hup : |(m : ℚ) * 2 ^ p| < 2 ^ (53 + p) := by
    rw [abs_mul, abs_of_pos hp2, zpow_add₀ h2]
    exact mul_lt_mul_of_pos_right hmq hp2
  have hEp : E - 52 ≤ p := by
    rcases hlo with hlo | hlo
    · have := lt_of_le_of_lt hlo hup
      rw [zpow_lt_zpow_iff_right₀ (by norm_num : (1 : ℚ) < 2)] at this
      omega
    · omega
  obtain ⟨n, hn⟩ : ∃ n : ℕ, p = E - 52 + n := ⟨(p - (E - 52)).toNat, by omega⟩
  have hdiv : (m : ℚ) * 2 ^ p / 2 ^ (E - 52) = ((m * 2 ^ n : ℤ) : ℚ) := by
    rw [hn, zpow_add₀ h2, zpow_natCast]
    field_simp
    ring
  rw [hdiv, roundEven_intCast, hn, zpow_add₀ h2, zpow_natCast]
  push_cast
  ring

/-- Such a rational within the range of `double` is a `double`: rounding
returns it. -/
theorem round_dyadic (m p : ℤ) (hm : |m| < 2 ^ 53) (hp : -1074 ≤ p) (hp1 : p ≤ 971) :
    round ((m : ℚ) * 2 ^ p) = .fin ((m : ℚ) * 2 ^ p) := by
  have hmq : |(m : ℚ)| < 2 ^ (53 : ℤ) := by
    have : ((|m| : ℤ) : ℚ) < ((2 ^ 53 : ℤ) : ℚ) := by exact_mod_cast hm
    rw [Int.cast_abs] at this
    calc |(m : ℚ)| < ((2 ^ 53 : ℤ) : ℚ) := this
      _ = 2 ^ (53 : ℤ) := by norm_num
  have hp2 : (0 : ℚ) < 2 ^ p := zpow_pos (by norm_num) p
  have hup : |(m : ℚ) * 2 ^ p| < 2 ^ (1024 : ℤ) := by
    rw [abs_mul, abs_of_pos hp2]
    calc |(m : ℚ)| * 2 ^ p < 2 ^ (53 : ℤ) * 2 ^ p := mul_lt_mul_of_pos_right hmq hp2
      _ = 2 ^ (53 + p) := (zpow_add₀ (by norm_num) _ _).symm
      _ ≤ 2 ^ (1024 : ℤ) := zpow_le_zpow_right₀ (by norm_num) (by omega)
  have hb := abs_lt.mp hup
  unfold round
  rw [nearest_dyadic m p hm hp, if_neg (not_le.mpr hb.2), if_neg (not_le.mpr hb.1)]

/-- The nearest grid value of a non-negative number is non-negative. -/
theorem nearest_nonneg (q : ℚ) (hq : 0 ≤ q) : 0 ≤ nearest q := by
  unfold nearest
  have h0 : (0 : ℚ) < 2 ^ (exponent q - 52) := zpow_pos (by norm_num) _
  have h1 : roundEven 0 ≤ roundEven (q / 2 ^ (exponent q - 52)) :=
    roundEven_mono (div_nonneg hq h0.le)
  have h2 : roundEven 0 = 0 := by
    have := roundEven_intCast 0
    simpa using this
  rw [h2] at h1
  exact mul_nonneg (by exact_mod_cast h1) h0.le

/-- Rounding is odd. -/
theorem nearest_neg (q : ℚ) : nearest (-q) = -nearest q := by
  unfold nearest exponent
  rw [abs_neg, neg_div, roundEven_neg]
  push_cast
  ring

/-- Rounding a non-negative exact result gives a non-negative `double` or
`+∞`. -/
theorem round_nonneg (q : ℚ) (hq : 0 ≤ q) :
    round q = .pinf ∨ ∃ v : ℚ, 0 ≤ v ∧ round q = .fin v := by
  have h := nearest_nonneg q hq
  unfold round
  by_cases h1 : (2 : ℚ) ^ (1024 : ℤ) ≤ nearest q
  · left
    rw [if_pos h1]
  · right
    have h2 : ¬ nearest q ≤ -2 ^ (1024 : ℤ) := by
      have : (0 : ℚ) < 2 ^ (1024 : ℤ) := by positivity
      intro hc
      linarith
    exact ⟨nearest q, h, by rw [if_neg h1, if_neg h2]⟩

/-- Rounding to the grid is monotone on positive numbers. -/
theorem nearest_mono_pos (q r : ℚ) (hq : 0 < q) (h : q ≤ r) : nearest q ≤ nearest r := by
  have hr : 0 < r := lt_of_lt_of_le hq h
  obtain ⟨hE, hhi, hlo⟩ := exponent_bounds q (ne_of_gt hq)
  obtain ⟨hE', hhi', hlo'⟩ := exponent_bounds r (ne_of_gt hr)
  rw [abs_of_pos hq] at hhi hlo
  rw [abs_of_pos hr] at hhi' hlo'
  have h2 : (2 : ℚ) ≠ 0 := by norm_num
  have hlogle : exponent q ≤ exponent r := by
    unfold exponent
    apply max_le_max _ (le_refl _)
    rw [abs_of_pos hq, abs_of_pos hr]
    exact Int.log_mono_right hq h
  unfold nearest
  generalize exponent q = E at hE hhi hlo hlogle
  generalize exponent r = F at hE' hhi' hlo' hlogle
  rcases lt_or_eq_of_le hlogle with hlt | heq
  · -- the binade of `r` is above the one of `q`
    have hlo2 : (2 : ℚ) ^ F ≤ r := by
      rcases hlo' with hlo' | hlo'
      · exact hlo'
      · omega
    have hu : (0 : ℚ) < 2 ^ (E - 52) := zpow_pos (by norm_num) _
    have hv : (0 : ℚ) < 2 ^ (F - 52) := zpow_pos (by norm_num) _
    have hqle : q / 2 ^ (E - 52) ≤ ((2 ^ 53 : ℤ) : ℚ) := by
      rw [div_le_iff₀ hu]
      have : ((2 ^ 53 : ℤ) : ℚ) * 2 ^ (E - 52) = 2 ^ (E + 1) := by
        have : ((2 ^ 53 : ℤ) : ℚ) = 2 ^ (53 : ℤ) := by norm_num
        rw [this, ← zpow_add₀ h2]
        congr 1
        ring
      rw [this]
      exact hhi.le
    have hrge : ((2 ^ 52 : ℤ) : ℚ) ≤ r / 2 ^ (F - 52) := by
      rw [le_div_iff₀ hv]
      have : ((2 ^ 52 : ℤ) : ℚ) * 2 ^ (F - 52) = 2 ^ F := by
        have : ((2 ^ 52 : ℤ) : ℚ) = 2 ^ (52 : ℤ) := by norm_num
        rw [this, ← zpow_add₀ h2]
        congr 1
        ring
      rw [this]
      exact hlo2
    have h1 := roundEven_mono hqle
    have h3 := roundEven_mono hrge
    rw [roundEven_intCast] at h1 h3
    have h1q : ((roundEven (q / 2 ^ (E - 52)) : ℤ) : ℚ) ≤ 2 ^ (53 : ℤ) := by
      have : ((roundEven (q / 2 ^ (E - 52)) : ℤ) : ℚ) ≤ ((2 ^ 53 : ℤ) : ℚ) := by exact_mod_cast h1
      calc _ ≤ ((2 ^ 53 : ℤ) : ℚ) := this
        _ = 2 ^ (53 : ℤ) := by norm_num
    have h3q : (2 : ℚ) ^ (52 : ℤ) ≤ ((roundEven (r / 2 ^ (F - 52)) : ℤ) : ℚ) := by
      have : ((2 ^ 52 : ℤ) : ℚ) ≤ ((roundEven (r / 2 ^ (F - 52)) : ℤ) : ℚ) := by exact_mod_cast h3
      calc (2 : ℚ) ^ (52 : ℤ) = ((2 ^ 52 : ℤ) : ℚ) := by norm_num
        _ ≤ _ := this
    calc ((roundEven (q / 2 ^ (E - 52)) : ℤ) : ℚ) * 2 ^ (E - 52)
        ≤ 2 ^ (53 : ℤ) * 2 ^ (E - 52) := mul_le_mul_of_nonneg_right h1q hu.le
      _ = 2 ^ (E + 1) := by rw [← zpow_add₀ h2]; congr 1; ring
      _ ≤ 2 ^ F := zpow_le_zpow_right₀ (by norm_num) (by omega)
      _ = 2 ^ (52 : ℤ) * 2 ^ (F - 52) := by rw [← zpow_add₀ h2]; congr 1; ring
      _ ≤ ((roundEven (r / 2 ^ (F - 52)) : ℤ) : ℚ) * 2 ^ (F - 52) :=
        mul_le_mul_of_nonneg_right h3q hv.le
  · subst heq
    have hu : (0 : ℚ) < 2 ^ (E - 52) := zpow_pos (by norm_num) _
    have h1 := roundEven_mono (div_le_div_of_nonneg_right h hu.le)
    exact mul_le_mul_of_nonneg_right (by exact_mod_cast h1) hu.le

/-- Rounding to the grid is monotone. -/
theorem nearest_mono (q r : ℚ) (h : q ≤ r) : nearest q ≤ nearest r := by
  rcases lt_trichotomy q 0 with hq | hq | hq
  · rcases lt_or_le r 0 with hr | hr
    · have := nearest_mono_pos (-r) (-q) (by linarith) (by linarith)
      rw [nearest_neg, nearest_neg] at this
      linarith
    · have h1 := nearest_nonneg (-q) (by linarith)
      rw [nearest_neg] at h1
      have h2 := nearest_nonneg r hr
      linarith
  · subst hq
    rw [nearest_zero]
    exact nearest_nonneg r h
  · exact nearest_mono_pos q r hq h

/-- Rounding to `double` is monotone. -/
theorem round_mono (q r : ℚ) (h : q ≤ r) : Dbl.le (round q) (round r) = true := by
  have hm := nearest_mono q r h
  have hpos : (0 : ℚ) < 2 ^ (1024 : ℤ) := by positivity
  unfold round
  by_cases h1 : (2 : ℚ) ^ (1024 : ℤ) ≤ nearest q
  · have h1r : (2 : ℚ) ^ (1024 : ℤ) ≤ nearest r := le_trans h1 hm
    rw [if_pos h1, if_pos h1r]
    rfl
  · rw [if_neg h1]
    by_cases h2 : nearest q ≤ -2 ^ (1024 : ℤ)
    · rw [if_pos h2]
      split_ifs <;> rfl
    · rw [if_neg h2]
      by_cases h3 : (2 : ℚ) ^ (1024 : ℤ) ≤ nearest r
      · rw [if_pos h3]
        rfl
      · have h4 : ¬ nearest r ≤ -2 ^ (1024 : ℤ) := by
          intro hc
          exact h2 (le_trans hm hc)
        rw [if_neg h3, if_neg h4]
        simp only [Dbl.le, decide_eq_true_eq]
        exact hm

/-- Rounding of a number of the binade `[2^e, 2^(e+1))` whose quotient by the
spacing `2^(e-52)` has `k` as nearest integer under the half-way rule. -/
theorem round_eq (q : ℚ) (e k : ℤ) (hmin : -1022 ≤ e) (hlo : (2 : ℚ) ^ e ≤ |q|)
    (hhi : |q| < 2 ^ (e + 1))
    (hk : |q / 2 ^ (e - 52) - k| < 1 / 2 ∨ (|q / 2 ^ (e - 52) - k| = 1 / 2 ∧ k % 2 = 0))
    (hfin : |(k : ℚ) * 2 ^ (e - 52)| < 2 ^ (1024 : ℤ)) :
    round q = .fin ((k : ℚ) * 2 ^ (e - 52)) := by
  have hn : nearest q = (k : ℚ) * 2 ^ (e - 52) := by
    unfold nearest
    rw [exponent_eq q e hmin hlo hhi, roundEven_unique _ k hk]
  have hb := abs_lt.mp hfin
  unfold round
  rw [hn, if_neg (not_le.mpr hb.2), if_neg (not_le.mpr hb.1)]

end binary64

end synthesizer

/-! ## Step sequencer in `double` arithmetic -/

namespace synthesizer

namespace binary64

/-- The `while` loop of `Update` in `double` arithmetic, on a state with an
index in range and patterns covering every step: when the accumulated time
stays at or above the step duration through `k` subtractions and is below it
after them, the loop crosses `k` boundaries with `k` units of fuel. -/
theorem DrumSequencer.Update.whileLoop_drains (beats sb : Int) (temp step : Dbl)
    (total : Int) (chans : List Channel) (htotal : 1 ≤ total)
    (hpat : ∀ c ∈ chans, total ≤ c.beat.data.length) :
    ∀ (k fuel : Nat) (a : Dbl) (idx : Int) (notes : List Note),
      k ≤ fuel → (∀ j < k, Dbl.ge (Reference.drained step a j) step = true) →
      Dbl.ge (Reference.drained step a k) step = false → 0 ≤ idx → idx < total →
      DrumSequencer.Update.whileLoop fuel ⟨beats, sb, temp, step, a, idx, total, chans, notes⟩
        = .ok ⟨beats, sb, temp, step, Reference.drained step a k,
            Reference.stepIndex idx total k, total, chans,
            notes ++ Reference.events chans idx total k⟩ := by
  intro k
  induction k with
  | zero =>
    intro fuel a idx notes _ _ hstop h0 h1
    simp only [Reference.drained] at hstop
    unfold DrumSequencer.Update.whileLoop
    simp only [hstop, Bool.false_eq_true, if_false]
    simp [Reference.stepIndex, Reference.events, Reference.drained, Int.emod_eq_of_lt h0 h1]
  | succ k ih =>
    intro fuel a idx notes hfuel hcross hstop h0 h1
    obtain ⟨f, rfl⟩ : ∃ f, fuel = f + 1 := ⟨fuel - 1, by omega⟩
    have hge : Dbl.ge a step = true := hcross 0 (by omega)
    have hidx := Reference.stepIndex_one idx total h0 h1
    have hnew0 : 0 ≤ Reference.stepIndex idx total 1 := Int.emod_nonneg _ (by omega)
    have hnew1 : Reference.stepIndex idx total 1 < total := Int.emod_lt_of_pos _ (by omega)
    have hloop := synthesizer.DrumSequencer.Update.forLoop_batch
      (Reference.stepIndex idx total 1) hnew0 chans [] notes
      (fun c hc => lt_of_lt_of_le hnew1 (hpat c hc))
    have hrec := ih f (sub a step) (Reference.stepIndex idx total 1)
      (notes ++ Reference.batch chans (Reference.stepIndex idx total 1).toNat) (by omega)
      (fun j hj => hcross (j + 1) (by omega)) hstop hnew0 hnew1
    simp only [List.nil_append, List.length_nil] at hloop
    have hsucc := Reference.stepIndex_succ idx total k
    have hd : Reference.drained step a (k + 1) = Reference.drained step (sub a step) k := rfl
    rw [Reference.events_succ, ← hsucc, hd, ← List.append_assoc, ← hrec]
    rw [DrumSequencer.Update.whileLoop]
    simp only [hge, if_true, bind, Except.bind]
    generalize Reference.stepIndex idx total 1 = i1 at hidx hloop ⊢
    by_cases hw : idx + 1 ≥ total
    · rw [if_pos hw] at hidx
      subst hidx
      simp only [if_pos hw]
      rw [hloop]
    · rw [if_neg hw] at hidx
      subst hidx
      simp only [if_neg hw]
      rw [hloop]

/-- Result of `Update` in `double` arithmetic in terms of the number `k` of
subtractions that bring the accumulated time below the step duration. -/
theorem DrumSequencer.Update_drains (beats sb : Int) (temp step acc elapsed : Dbl)
    (idx total : Int) (chans : List Channel) (notes0 : List Note) (k fuel : Nat)
    (htotal : 1 ≤ total) (hpat : ∀ c ∈ chans, total ≤ c.beat.data.length)
    (hidx0 : 0 ≤ idx) (hidx1 : idx < total) (hfuel : k ≤ fuel)
    (hcross : ∀ j < k, Dbl.ge (Reference.drained step (add acc elapsed) j) step = true)
    (hstop : Dbl.ge (Reference.drained step (add acc elapsed) k) step = false) :
    DrumSequencer.Update fuel ⟨beats, sb, temp, step, acc, idx, total, chans, notes0⟩ elapsed
      = .ok (((Reference.events chans idx total k).length : Int),
          ⟨beats, sb, temp, step, Reference.drained step (add acc elapsed) k,
            Reference.stepIndex idx total k, total, chans,
            Reference.events chans idx total k⟩) := by
  have h := DrumSequencer.Update.whileLoop_drains beats sb temp step total chans htotal hpat
    k fuel (add acc elapsed) idx [] hfuel hcross hstop hidx0 hidx1
  unfold DrumSequencer.Update
  simp only [bind, Except.bind, h, List.nil_append]
  rfl

end binary64

end synthesizer

namespace synthesizer

namespace binary64

/-- Sum of two finite `double` values. -/
theorem add_fin (a b : ℚ) : add (.fin a) (.fin b) = round (a + b) := by
  simp only [add, Dbl.fin_add_fin, rnd]

/-- Difference of two finite `double` values. -/
theorem sub_fin (a b : ℚ) : sub (.fin a) (.fin b) = round (a - b) := by
  simp only [sub, Dbl.fin_sub_fin, rnd]

/-- A rational written as `m · 2^p` with a mantissa of at most 53 bits and an
exponent in range is a `double`. -/
theorem round_of_dyadic (q : ℚ) (m p : ℤ) (hq : q = (m : ℚ) * 2 ^ p) (hm : |m| < 2 ^ 53)
    (hp : -1074 ≤ p) (hp1 : p ≤ 971) : round q = .fin q := by
  rw [hq]
  exact round_dyadic m p hm hp hp1

/-- C5, amended with the sum as the code forms it. For every state of the
sequencer and every `elapsed` for which the `double` sum
`drumAccumulate + elapsed` is not at or above `stepDuration`, `Update(elapsed)`
returns `0`, leaves `vecNotes` empty and the step index unchanged, and stores
that sum as the accumulated time. -/
theorem DrumSequencer.Update_below_step (s : DrumSequencer) (elapsed : Dbl) (fuel : Nat)
    (h : Dbl.ge (add s.drumAccumulate elapsed) s.drumBeatTime = false) :
    DrumSequencer.Update fuel s elapsed
      = .ok (0, { s with vecNotes := [], drumAccumulate := add s.drumAccumulate elapsed })
    ∧ ∃ s', DrumSequencer.Update fuel s elapsed = .ok (0, s')
        ∧ s'.vecNotes = [] ∧ s'.drumCurrentBeat = s.drumCurrentBeat := by
  have hu : DrumSequencer.Update fuel s elapsed
      = .ok (0, { s with vecNotes := [], drumAccumulate := add s.drumAccumulate elapsed }) := by
    unfold DrumSequencer.Update
    simp only [bind, Except.bind]
    unfold DrumSequencer.Update.whileLoop
    simp only [h, Bool.false_eq_true, if_false]
    rfl
  exact ⟨hu, _, hu, rfl, rfl⟩

/-- Witness of C5: 16 steps of 0.125 s with 0.0625 s accumulated; `Update(0.03125)`
leaves 0.09375 s accumulated and crosses no boundary. -/
theorem DrumSequencer.Update_below_step_witness :
    DrumSequencer.Update 0
        ⟨4, 4, .fin 120, .fin 0.125, .fin 0.0625, 5, 16,
          [{ instrument := some KickDrum.new, beat := "X...X...X...X..." }], []⟩ (.fin 0.03125)
      = .ok (0, ⟨4, 4, .fin 120, .fin 0.125, .fin 0.09375, 5, 16,
          [{ instrument := some KickDrum.new, beat := "X...X...X...X..." }], []⟩) := by
  have hr : round ((0.0625 : ℚ) + 0.03125) = .fin 0.09375 := by
    have e : (0.0625 : ℚ) + 0.03125 = 0.09375 := by norm_num
    rw [e]
    exact round_of_dyadic _ 3 (-5) (by norm_num) (by norm_num) (by norm_num) (by norm_num)
  have h := (DrumSequencer.Update_below_step
    ⟨4, 4, .fin 120, .fin 0.125, .fin 0.0625, 5, 16,
      [{ instrument := some KickDrum.new, beat := "X...X...X...X..." }], []⟩ (.fin 0.03125) 0
    (by
      simp only [add_fin, hr, Dbl.ge_fin_fin]
      norm_num)).1
  simp only [add_fin, hr] at h
  exact h

/-- C5 as stated fails: the bound on `elapsed` alone does not keep the
accumulated time below the step duration.  From the state as constructed
(16 steps of 0.125 s, nothing accumulated), two calls `Update(0.09375)`, each
with `0 <= 0.09375 < 0.125`: the second call moves the step index from 0 to
1. -/
theorem DrumSequencer.Update_below_step_counterexample :
    (0 : ℚ) ≤ 0.09375 ∧ (0.09375 : ℚ) < 0.125
    ∧ (DrumSequencer.Updates 1 ⟨4, 4, .fin 120, .fin 0.125, .fin 0, 0, 16, [], []⟩
        [.fin 0.09375, .fin 0.09375]).map (fun rs => rs.map (fun r => r.2.drumCurrentBeat))
      = .ok [0, 1] := by
  refine ⟨by norm_num, by norm_num, ?_⟩
  have hr1 : round ((0 : ℚ) + 0.09375) = .fin 0.09375 := by
    rw [zero_add]
    exact round_of_dyadic _ 3 (-5) (by norm_num) (by norm_num) (by norm_num) (by norm_num)
  have hr2 : round ((0.09375 : ℚ) + 0.09375) = .fin 0.1875 := by
    have e : (0.09375 : ℚ) + 0.09375 = 0.1875 := by norm_num
    rw [e]
    exact round_of_dyadic _ 3 (-4) (by norm_num) (by norm_num) (by norm_num) (by norm_num)
  have hr3 : round ((0.1875 : ℚ) - 0.125) = .fin 0.0625 := by
    have e : (0.1875 : ℚ) - 0.125 = 0.0625 := by norm_num
    rw [e]
    exact round_of_dyadic _ 1 (-4) (by norm_num) (by norm_num) (by norm_num) (by norm_num)
  have h1 := DrumSequencer.Update_drains 4 4 (.fin 120) (.fin 0.125) (.fin 0) (.fin 0.09375) 0 16
    [] [] 0 1 (by norm_num) (by simp) (by norm_num) (by norm_num) (by norm_num)
    (by intro j hj; omega)
    (by
      simp only [Reference.drained, add_fin, hr1, Dbl.ge_fin_fin]
      norm_num)
  have h2 := DrumSequencer.Update_drains 4 4 (.fin 120) (.fin 0.125) (.fin 0.09375)
    (.fin 0.09375) 0 16 [] (Reference.events [] 0 16 0) 1 1 (by norm_num) (by simp)
    (by norm_num) (by norm_num) (by norm_num)
    (by
      intro j hj
      have : j = 0 := by omega
      subst this
      simp only [Reference.drained, add_fin, hr2, Dbl.ge_fin_fin]
      norm_num)
    (by
      simp only [Reference.drained, add_fin, sub_fin, hr2, hr3, Dbl.ge_fin_fin]
      norm_num)
  simp only [Reference.drained, add_fin, sub_fin, hr1, hr2, hr3] at h1 h2
  have hi : Reference.stepIndex 0 16 0 = 0 := by decide
  rw [hi] at h1
  simp only [DrumSequencer.Updates, h1, h2, bind, Except.bind, Except.map, pure, Except.pure,
    List.map_cons, List.map_nil]
  have hj : Reference.stepIndex 0 16 1 = 1 := by decide
  rw [hj]

end binary64

end synthesizer

namespace synthesizer

namespace binary64

/-- C4, amended with the accumulated time as the code forms it. For every
state of the sequencer with `totalSteps >= 1`, `0 <= index < totalSteps`,
patterns of length `>= totalSteps`, and an accumulated time for which the
`double` sum `drumAccumulate + stepDuration` is at or above `stepDuration` and
that sum less `stepDuration` is not: `Update(stepDuration)` crosses one
boundary, sets the step index to `(index + 1) mod totalSteps` and returns the
batch of that index, one event per channel with a hit there, in channel order,
each with the instrument of its channel, pitch id 64 and `active = true`.
Both conditions hold for `drumAccumulate = 0` and every positive `double`
step duration.  In the example (16 steps of 0.125 s, the Kick pattern, nothing
accumulated) one event is returned exactly when the new index is 0, 4, 8 or
12. -/
theorem DrumSequencer.Update_one_boundary (beats sb : Int) (temp step acc : Dbl)
    (idx total : Int) (chans : List Channel) (notes0 : List Note) (fuel : Nat)
    (htotal : 1 ≤ total) (hpat : ∀ c ∈ chans, total ≤ c.beat.data.length)
    (hidx0 : 0 ≤ idx) (hidx1 : idx < total) (hfuel : 1 ≤ fuel)
    (hreach : Dbl.ge (add acc step) step = true)
    (hleft : Dbl.ge (sub (add acc step) step) step = false) :
    DrumSequencer.Update fuel ⟨beats, sb, temp, step, acc, idx, total, chans, notes0⟩ step
      = .ok (((Reference.batch chans ((idx + 1) % total).toNat).length : Int),
          ⟨beats, sb, temp, step, sub (add acc step) step, (idx + 1) % total, total, chans,
            Reference.batch chans ((idx + 1) % total).toNat⟩)
    ∧ (∀ q : ℚ, round q = .fin q → 0 < q →
        Dbl.ge (add (.fin 0) (.fin q)) (.fin q) = true
        ∧ Dbl.ge (sub (add (.fin 0) (.fin q)) (.fin q)) (.fin q) = false)
    ∧ (∀ (i : Int) (fuel' : Nat), 0 ≤ i → i < 16 → 1 ≤ fuel' →
        ∃ count s', DrumSequencer.Update fuel'
              ⟨4, 4, .fin 120, .fin 0.125, .fin 0, i, 16,
                [{ instrument := some KickDrum.new, beat := "X...X...X...X..." }], []⟩
              (.fin 0.125)
            = .ok (count, s')
          ∧ s'.drumCurrentBeat = (i + 1) % 16
          ∧ (s'.vecNotes.length : Int) = count
          ∧ (count = 1 ↔ ((i + 1) % 16 = 0 ∨ (i + 1) % 16 = 4 ∨ (i + 1) % 16 = 8
              ∨ (i + 1) % 16 = 12))
          ∧ (count = 0 ∨ count = 1)) := by
  have hgen : ∀ (beats sb : Int) (temp step acc : Dbl) (idx total : Int)
      (chans : List Channel) (notes0 : List Note) (fuel : Nat),
      1 ≤ total → (∀ c ∈ chans, total ≤ c.beat.data.length) → 0 ≤ idx → idx < total →
      1 ≤ fuel → Dbl.ge (add acc step) step = true →
      Dbl.ge (sub (add acc step) step) step = false →
      DrumSequencer.Update fuel ⟨beats, sb, temp, step, acc, idx, total, chans, notes0⟩ step
        = .ok (((Reference.batch chans ((idx + 1) % total).toNat).length : Int),
            ⟨beats, sb, temp, step, sub (add acc step) step, (idx + 1) % total, total, chans,
              Reference.batch chans ((idx + 1) % total).toNat⟩) := by
    intro beats sb temp step acc idx total chans notes0 fuel htotal hpat hidx0 hidx1 hfuel
      hreach hleft
    have h := DrumSequencer.Update_drains beats sb temp step acc step idx total chans notes0 1
      fuel htotal hpat hidx0 hidx1 hfuel
      (by
        intro j hj
        have : j = 0 := by omega
        subst this
        exact hreach)
      hleft
    have he : Reference.events chans idx total 1
        = Reference.batch chans ((idx + 1) % total).toNat := by
      simp [Reference.events, Reference.stepIndex, List.range_succ]
    have hs : Reference.stepIndex idx total 1 = (idx + 1) % total := by
      simp [Reference.stepIndex]
    rw [h, he, hs]
    rfl
  have hzero : ∀ q : ℚ, round q = .fin q → 0 < q →
      Dbl.ge (add (.fin 0) (.fin q)) (.fin q) = true
      ∧ Dbl.ge (sub (add (.fin 0) (.fin q)) (.fin q)) (.fin q) = false := by
    intro q hq hpos
    have h0 : round 0 = .fin 0 := round_of_dyadic 0 0 0 (by norm_num) (by norm_num)
      (by norm_num) (by norm_num)
    simp only [add_fin, zero_add, hq, sub_fin, sub_self, h0, Dbl.ge_fin_fin, le_refl,
      decide_True, decide_eq_false_iff_not, not_le, true_and]
    exact hpos
  refine ⟨hgen beats sb temp step acc idx total chans notes0 fuel htotal hpat hidx0 hidx1
    hfuel hreach hleft, hzero, ?_⟩
  intro i fuel' hi0 hi1 hfuel'
  have hq : round (0.125 : ℚ) = .fin 0.125 :=
    round_of_dyadic _ 1 (-3) (by norm_num) (by norm_num) (by norm_num) (by norm_num)
  have hc := hzero 0.125 hq (by norm_num)
  have hnew0 : 0 ≤ (i + 1) % 16 := Int.emod_nonneg _ (by norm_num)
  have hnew1 : (i + 1) % 16 < 16 := Int.emod_lt_of_pos _ (by norm_num)
  have hb := Reference.batch_example ((i + 1) % 16) hnew0 hnew1
  have hU := hgen 4 4 (.fin 120) (.fin 0.125) (.fin 0) i 16
    [{ instrument := some KickDrum.new, beat := "X...X...X...X..." }] [] fuel' (by norm_num)
    (by
      intro c hc
      simp only [List.mem_singleton] at hc
      subst hc
      decide) hi0 hi1 hfuel' hc.1 hc.2
  refine ⟨_, _, hU, rfl, rfl, ?_, ?_⟩
  · rw [hb]
    split_ifs with h
    · exact ⟨fun _ => h, fun _ => rfl⟩
    · exact ⟨fun h1 => absurd h1 (by norm_num), fun h1 => absurd h1 h⟩
  · rw [hb]
    split_ifs with h
    · exact Or.inr rfl
    · exact Or.inl rfl

/-- Witness of C4: in the example, from index 3 with nothing accumulated,
`Update(0.125)` moves to index 4 and returns the one event of the Kick. -/
theorem DrumSequencer.Update_one_boundary_witness :
    (DrumSequencer.Update 1
        ⟨4, 4, .fin 120, .fin 0.125, .fin 0, 3, 16,
          [{ instrument := some KickDrum.new, beat := "X...X...X...X..." }], []⟩
        (.fin 0.125)).map (fun r => (r.1, r.2.drumCurrentBeat, r.2.drumAccumulate))
      = .ok (1, 4, .fin 0) := by
  have hq : round (0.125 : ℚ) = .fin 0.125 :=
    round_of_dyadic _ 1 (-3) (by norm_num) (by norm_num) (by norm_num) (by norm_num)
  have h0 : round 0 = .fin 0 := round_of_dyadic 0 0 0 (by norm_num) (by norm_num)
    (by norm_num) (by norm_num)
  have ha : add (.fin 0) (.fin 0.125) = .fin 0.125 := by rw [add_fin, zero_add, hq]
  have hs : sub (.fin 0.125) (.fin 0.125) = .fin 0 := by rw [sub_fin, sub_self, h0]
  rw [(DrumSequencer.Update_one_boundary 4 4 (.fin 120) (.fin 0.125) (.fin 0) 3 16
    [{ instrument := some KickDrum.new, beat := "X...X...X...X..." }] [] 1 (by norm_num)
    (by
      intro c hc
      simp only [List.mem_singleton] at hc
      subst hc
      decide) (by norm_num) (by norm_num) (le_refl 1)
    (by rw [ha, Dbl.ge_fin_fin]; norm_num)
    (by rw [ha, hs, Dbl.ge_fin_fin]; norm_num)).1]
  simp only [Except.map, ha, hs]
  have e : ((3 : Int) + 1) % 16 = 4 := by decide
  rw [e]
  simp [Reference.batch, Reference.isHit]

/-- C4 as stated fails through the rounding of the sum.  The state with
16 steps of 0.125 s and the accumulated time `0.125 - 2^-56` (left by the call
`Update(0.125 - 2^-56)` on the state as constructed) has
`0 <= accumulator < stepDuration`; the sum `accumulator + 0.125` is half-way
between two `double` values and rounds to `0.25`, so `Update(0.125)` crosses
two boundaries and leaves the index at 2, not at `(0 + 1) mod 16`. -/
theorem DrumSequencer.Update_one_boundary_counterexample :
    (0 : ℚ) ≤ 0.125 - 2 ^ (-56 : ℤ) ∧ (0.125 - 2 ^ (-56 : ℤ) : ℚ) < 0.125
    ∧ DrumSequencer.Update 0
          ⟨4, 4, .fin 120, .fin 0.125, .fin 0, 0, 16,
            [{ instrument := some KickDrum.new, beat := "X...X...X...X..." }], []⟩
          (.fin (0.125 - 2 ^ (-56 : ℤ)))
        = .ok (0, ⟨4, 4, .fin 120, .fin 0.125, .fin (0.125 - 2 ^ (-56 : ℤ)), 0, 16,
            [{ instrument := some KickDrum.new, beat := "X...X...X...X..." }], []⟩)
    ∧ (DrumSequencer.Update 2
          ⟨4, 4, .fin 120, .fin 0.125, .fin (0.125 - 2 ^ (-56 : ℤ)), 0, 16,
            [{ instrument := some KickDrum.new, beat := "X...X...X...X..." }], []⟩
          (.fin 0.125)).map (fun r => r.2.drumCurrentBeat)
        = .ok 2
    ∧ ((0 : Int) + 1) % 16 ≠ 2 := by
  have hacc : round ((0 : ℚ) + (0.125 - 2 ^ (-56 : ℤ))) = .fin (0.125 - 2 ^ (-56 : ℤ)) := by
    rw [zero_add]
    exact round_of_dyadic _ (2 ^ 53 - 1) (-56) (by norm_num) (by norm_num) (by norm_num)
      (by norm_num)
  have hsum : round ((0.125 - 2 ^ (-56 : ℤ) : ℚ) + 0.125) = .fin 0.25 := by
    have h := round_eq ((0.125 - 2 ^ (-56 : ℤ) : ℚ) + 0.125) (-3) (2 ^ 53) (by norm_num)
      (by norm_num [abs_of_pos]) (by norm_num [abs_of_pos])
      (Or.inr ⟨by norm_num [abs_of_pos], by norm_num⟩) (by norm_num [abs_of_pos])
    rw [h]
    norm_num
  have h1 : round ((0.25 : ℚ) - 0.125) = .fin 0.125 := by
    have e : (0.25 : ℚ) - 0.125 = 0.125 := by norm_num
    rw [e]
    exact round_of_dyadic _ 1 (-3) (by norm_num) (by norm_num) (by norm_num) (by norm_num)
  have h2 : round ((0.125 : ℚ) - 0.125) = .fin 0 := by
    rw [sub_self]
    exact round_of_dyadic 0 0 0 (by norm_num) (by norm_num) (by norm_num) (by norm_num)
  refine ⟨by norm_num, by norm_num, ?_, ?_, by decide⟩
  · have h := (DrumSequencer.Update_below_step
      ⟨4, 4, .fin 120, .fin 0.125, .fin 0, 0, 16,
        [{ instrument := some KickDrum.new, beat := "X...X...X...X..." }], []⟩
      (.fin (0.125 - 2 ^ (-56 : ℤ))) 0
      (by
        simp only [add_fin, hacc, Dbl.ge_fin_fin]
        norm_num)).1
    simp only [add_fin, hacc] at h
    exact h
  · have h := DrumSequencer.Update_drains 4 4 (.fin 120) (.fin 0.125)
      (.fin (0.125 - 2 ^ (-56 : ℤ))) (.fin 0.125) 0 16
      [{ instrument := some KickDrum.new, beat := "X...X...X...X..." }] [] 2 2 (by norm_num)
      (by
        intro c hc
        simp only [List.mem_singleton] at hc
        subst hc
        decide) (by norm_num) (by norm_num) (le_refl 2)
      (by
        intro j hj
        have hj2 : j = 0 ∨ j = 1 := by omega
        rcases hj2 with rfl | rfl
        · simp only [Reference.drained, add_fin, hsum, Dbl.ge_fin_fin]
          norm_num
        · simp only [Reference.drained, add_fin, sub_fin, hsum, h1, Dbl.ge_fin_fin]
          norm_num)
      (by
        simp only [Reference.drained, add_fin, sub_fin, hsum, h1, h2, Dbl.ge_fin_fin]
        norm_num)
    rw [h]
    simp only [Except.map]
    have e : Reference.stepIndex 0 16 2 = 2 := by decide
    rw [e]

end binary64

end synthesizer

namespace synthesizer

namespace binary64

/-- The `while` loop of `Update` in `double` arithmetic runs out of fuel when
the accumulated time is still at or above the step duration after as many
subtractions as there is fuel. -/
theorem DrumSequencer.Update.whileLoop_short (beats sb : Int) (temp step : Dbl)
    (total : Int) (chans : List Channel) (htotal : 1 ≤ total)
    (hpat : ∀ c ∈ chans, total ≤ c.beat.data.length) :
    ∀ (f : Nat) (a : Dbl) (i : Int) (notes : List Note),
      0 ≤ i → i < total →
      (∀ j, j ≤ f → Dbl.ge (Reference.drained step a j) step = true) →
      DrumSequencer.Update.whileLoop f ⟨beats, sb, temp, step, a, i, total, chans, notes⟩
        = .error .outOfFuel := by
  intro f
  induction f with
  | zero =>
    intro a i notes _ _ hc
    have h0 : Dbl.ge a step = true := hc 0 (le_refl 0)
    unfold DrumSequencer.Update.whileLoop
    simp only [h0, if_true]
  | succ f ih =>
    intro a i notes hi0 hi1 hc
    have h0 : Dbl.ge a step = true := hc 0 (Nat.zero_le _)
    have hidx := Reference.stepIndex_one i total hi0 hi1
    have hnew0 : 0 ≤ Reference.stepIndex i total 1 := Int.emod_nonneg _ (by omega)
    have hnew1 : Reference.stepIndex i total 1 < total := Int.emod_lt_of_pos _ (by omega)
    have hloop := synthesizer.DrumSequencer.Update.forLoop_batch
      (Reference.stepIndex i total 1) hnew0 chans [] notes
      (fun c hc => lt_of_lt_of_le hnew1 (hpat c hc))
    simp only [List.nil_append, List.length_nil] at hloop
    have hrec := ih (sub a step) (Reference.stepIndex i total 1)
      (notes ++ Reference.batch chans (Reference.stepIndex i total 1).toNat) hnew0 hnew1
      (fun j hj => hc (j + 1) (by omega))
    rw [DrumSequencer.Update.whileLoop]
    simp only [h0, if_true, bind, Except.bind]
    generalize Reference.stepIndex i total 1 = i1 at hidx hloop hrec
    by_cases hw : i + 1 ≥ total
    · rw [if_pos hw] at hidx
      subst hidx
      simp only [if_pos hw]
      rw [hloop]
      exact hrec
    · rw [if_neg hw] at hidx
      subst hidx
      simp only [if_neg hw]
      rw [hloop]
      exact hrec

/-- C6, amended with the number of boundaries that the loop counts. For every
state of the sequencer with `totalSteps >= 1`, `0 <= index < totalSteps` and
patterns of length `>= totalSteps`, and every `elapsed`: when the `double` sum
`drumAccumulate + elapsed` stays at or above `stepDuration` through `k`
subtractions of `stepDuration`, each rounded to `double`, and is below it after
them, `Update(elapsed)` crosses exactly `k` boundaries with `k` units of fuel
and runs out of fuel with less: the final index is `(index + k) mod totalSteps`,
the final accumulated time is what the `k` subtractions leave, the returned
events are the batches of the `k` indices visited, in step order, and the
return value is their number. -/
theorem DrumSequencer.Update_boundaries (beats sb : Int) (temp step acc elapsed : Dbl)
    (idx total : Int) (chans : List Channel) (notes0 : List Note) (k : Nat)
    (htotal : 1 ≤ total) (hpat : ∀ c ∈ chans, total ≤ c.beat.data.length)
    (hidx0 : 0 ≤ idx) (hidx1 : idx < total)
    (hcross : ∀ j < k, Dbl.ge (Reference.drained step (add acc elapsed) j) step = true)
    (hstop : Dbl.ge (Reference.drained step (add acc elapsed) k) step = false) :
    (∀ fuel, k ≤ fuel →
      DrumSequencer.Update fuel ⟨beats, sb, temp, step, acc, idx, total, chans, notes0⟩ elapsed
        = .ok (((Reference.events chans idx total k).length : Int),
            ⟨beats, sb, temp, step, Reference.drained step (add acc elapsed) k,
              (idx + k) % total, total, chans, Reference.events chans idx total k⟩))
    ∧ (∀ fuel, fuel < k →
      DrumSequencer.Update fuel ⟨beats, sb, temp, step, acc, idx, total, chans, notes0⟩ elapsed
        = .error .outOfFuel) := by
  constructor
  · intro fuel hfuel
    exact DrumSequencer.Update_drains beats sb temp step acc elapsed idx total chans notes0 k
      fuel htotal hpat hidx0 hidx1 hfuel hcross hstop
  · intro fuel hfuel
    have h := DrumSequencer.Update.whileLoop_short beats sb temp step total chans htotal hpat
      fuel (add acc elapsed) idx [] hidx0 hidx1 (fun j hj => hcross j (by omega))
    unfold DrumSequencer.Update
    simp only [bind, Except.bind, h]

/-- Witness of C6: 16 steps of 0.125 s, 0.0625 s accumulated at index 14;
`Update(0.3125)` crosses the boundaries of the indices 15, 0 and 1 and returns
the one event of index 0. -/
theorem DrumSequencer.Update_boundaries_witness :
    (DrumSequencer.Update 3
        ⟨4, 4, .fin 120, .fin 0.125, .fin 0.0625, 14, 16,
          [{ instrument := some KickDrum.new, beat := "X...X...X...X..." }], []⟩
        (.fin 0.3125)).map (fun r => (r.1, r.2.drumCurrentBeat, r.2.drumAccumulate))
      = .ok (1, 1, .fin 0) := by
  have hsum : round ((0.0625 : ℚ) + 0.3125) = .fin 0.375 := by
    have e : (0.0625 : ℚ) + 0.3125 = 0.375 := by norm_num
    rw [e]
    exact round_of_dyadic _ 3 (-3) (by norm_num) (by norm_num) (by norm_num) (by norm_num)
  have h1 : round ((0.375 : ℚ) - 0.125) = .fin 0.25 := by
    have e : (0.375 : ℚ) - 0.125 = 0.25 := by norm_num
    rw [e]
    exact round_of_dyadic _ 1 (-2) (by norm_num) (by norm_num) (by norm_num) (by norm_num)
  have h2 : round ((0.25 : ℚ) - 0.125) = .fin 0.125 := by
    have e : (0.25 : ℚ) - 0.125 = 0.125 := by norm_num
    rw [e]
    exact round_of_dyadic _ 1 (-3) (by norm_num) (by norm_num) (by norm_num) (by norm_num)
  have h3 : round ((0.125 : ℚ) - 0.125) = .fin 0 := by
    rw [sub_self]
    exact round_of_dyadic 0 0 0 (by norm_num) (by norm_num) (by norm_num) (by norm_num)
  rw [(DrumSequencer.Update_boundaries 4 4 (.fin 120) (.fin 0.125) (.fin 0.0625) (.fin 0.3125)
    14 16 [{ instrument := some KickDrum.new, beat := "X...X...X...X..." }] [] 3 (by norm_num)
    (by
      intro c hc
      simp only [List.mem_singleton] at hc
      subst hc
      decide) (by norm_num) (by norm_num)
    (by
      intro j hj
      have hj3 : j = 0 ∨ j = 1 ∨ j = 2 := by omega
      rcases hj3 with rfl | rfl | rfl
      · simp only [Reference.drained, add_fin, hsum, Dbl.ge_fin_fin]
        norm_num
      · simp only [Reference.drained, add_fin, sub_fin, hsum, h1, Dbl.ge_fin_fin]
        norm_num
      · simp only [Reference.drained, add_fin, sub_fin, hsum, h1, h2, Dbl.ge_fin_fin]
        norm_num)
    (by
      simp only [Reference.drained, add_fin, sub_fin, hsum, h1, h2, h3, Dbl.ge_fin_fin]
      norm_num)).1 3 (le_refl 3)]
  simp only [Except.map, Reference.drained, add_fin, sub_fin, hsum, h1, h2, h3,
    Reference.events, Reference.stepIndex, List.range_succ, List.range_zero,
    List.nil_append, List.flatMap_append, List.flatMap_cons, List.flatMap_nil, List.append_nil]
  have e1 : (((14 : Int) + ((0 + 1 : ℕ) : Int)) % 16).toNat = 15 := by decide
  have e2 : (((14 : Int) + ((1 + 1 : ℕ) : Int)) % 16).toNat = 0 := by decide
  have e3 : (((14 : Int) + ((2 + 1 : ℕ) : Int)) % 16).toNat = 1 := by decide
  have e4 : ((14 : Int) + ((3 : ℕ) : Int)) % 16 = 1 := by decide
  have f1 : (List.filter (Reference.isHit 15)
      [({ instrument := some KickDrum.new, beat := "X...X...X...X..." } : Channel)]).length
      = 0 := by
    simp [Reference.isHit]
  have f2 : (List.filter (Reference.isHit 0)
      [({ instrument := some KickDrum.new, beat := "X...X...X...X..." } : Channel)]).length
      = 1 := by
    simp [Reference.isHit]
  have f3 : (List.filter (Reference.isHit 1)
      [({ instrument := some KickDrum.new, beat := "X...X...X...X..." } : Channel)]).length
      = 0 := by
    simp [Reference.isHit]
  simp only [Reference.batch, List.length_append, List.length_map, e1, e2, e3, e4, f1, f2, f3]
  norm_num [Reference.isHit]
  decide

/-- C6 as stated fails through the rounding of the sum.  With 16 steps of
0.5 s, the accumulated time `0.5 - 2^-54` and `elapsed = 0.5`, the claim counts
`k = floor((accumulator + elapsed) / stepDuration) = 1` boundary; the `double`
sum rounds to `1.0`, `Update(0.5)` crosses two boundaries and leaves the index
at 2 and the accumulated time at 0. -/
theorem DrumSequencer.Update_boundaries_counterexample :
    (0 : ℚ) ≤ 0.5 - 2 ^ (-54 : ℤ) ∧ (0.5 - 2 ^ (-54 : ℤ) : ℚ) < 0.5
    ∧ ⌊((0.5 - 2 ^ (-54 : ℤ) : ℚ) + 0.5) / 0.5⌋₊ = 1
    ∧ (DrumSequencer.Update 2
          ⟨4, 4, .fin 30, .fin 0.5, .fin (0.5 - 2 ^ (-54 : ℤ)), 0, 16,
            [{ instrument := some KickDrum.new, beat := "X...X...X...X..." }], []⟩
          (.fin 0.5)).map (fun r => (r.2.drumCurrentBeat, r.2.drumAccumulate))
        = .ok (2, .fin 0)
    ∧ ((0 : Int) + 1) % 16 ≠ 2 := by
  have hsum : round ((0.5 - 2 ^ (-54 : ℤ) : ℚ) + 0.5) = .fin 1 := by
    have h := round_eq ((0.5 - 2 ^ (-54 : ℤ) : ℚ) + 0.5) (-1) (2 ^ 53) (by norm_num)
      (by norm_num [abs_of_pos]) (by norm_num [abs_of_pos])
      (Or.inr ⟨by norm_num [abs_of_pos], by norm_num⟩) (by norm_num [abs_of_pos])
    rw [h]
    norm_num
  have h1 : round ((1 : ℚ) - 0.5) = .fin 0.5 := by
    have e : (1 : ℚ) - 0.5 = 0.5 := by norm_num
    rw [e]
    exact round_of_dyadic _ 1 (-1) (by norm_num) (by norm_num) (by norm_num) (by norm_num)
  have h2 : round ((0.5 : ℚ) - 0.5) = .fin 0 := by
    rw [sub_self]
    exact round_of_dyadic 0 0 0 (by norm_num) (by norm_num) (by norm_num) (by norm_num)
  refine ⟨by norm_num, by norm_num, ?_, ?_, by decide⟩
  · rw [Nat.floor_eq_iff (by norm_num)]
    constructor <;> norm_num
  · have h := DrumSequencer.Update_drains 4 4 (.fin 30) (.fin 0.5)
      (.fin (0.5 - 2 ^ (-54 : ℤ))) (.fin 0.5) 0 16
      [{ instrument := some KickDrum.new, beat := "X...X...X...X..." }] [] 2 2 (by norm_num)
      (by
        intro c hc
        simp only [List.mem_singleton] at hc
        subst hc
        decide) (by norm_num) (by norm_num) (le_refl 2)
      (by
        intro j hj
        have hj2 : j = 0 ∨ j = 1 := by omega
        rcases hj2 with rfl | rfl
        · simp only [Reference.drained, add_fin, hsum, Dbl.ge_fin_fin]
          norm_num
        · simp only [Reference.drained, add_fin, sub_fin, hsum, h1, Dbl.ge_fin_fin]
          norm_num)
      (by
        simp only [Reference.drained, add_fin, sub_fin, hsum, h1, h2, Dbl.ge_fin_fin]
        norm_num)
    rw [h]
    simp only [Except.map, Reference.drained, add_fin, sub_fin, hsum, h1, h2]
    have e : Reference.stepIndex 0 16 2 = 2 := by decide
    rw [e]

end binary64

end synthesizer

namespace synthesizer

namespace binary64

end binary64

end synthesizer

namespace synthesizer

namespace binary64

end binary64

end synthesizer

namespace synthesizer

namespace binary64

end binary64

end synthesizer

namespace synthesizer

namespace binary64

/-- The nearest grid value is an integer multiple of the spacing, of magnitude
at most `2^53`. -/
theorem nearest_form (q : ℚ) :
    ∃ k : ℤ, nearest q = (k : ℚ) * 2 ^ (exponent q - 52) ∧ |k| ≤ 2 ^ 53
      ∧ -1022 ≤ exponent q := by
  by_cases hq : q = 0
  · subst hq
    refine ⟨0, ?_, by norm_num, ?_⟩
    · rw [nearest_zero]
      simp
    · rw [exponent_zero]
      norm_num
  obtain ⟨hE, hhi, _⟩ := exponent_bounds q hq
  refine ⟨roundEven (q / 2 ^ (exponent q - 52)), rfl, ?_, hE⟩
  have h2 : (2 : ℚ) ≠ 0 := by norm_num
  have hu : (0 : ℚ) < 2 ^ (exponent q - 52) := zpow_pos (by norm_num) _
  have hsplit : (2 : ℚ) ^ (exponent q + 1) = 2 ^ (53 : ℤ) * 2 ^ (exponent q - 52) := by
    rw [← zpow_add₀ h2]
    congr 1
    ring
  have hb := abs_lt.mp hhi
  have hup : q / 2 ^ (exponent q - 52) ≤ (((2 : ℤ) ^ 53 : ℤ) : ℚ) := by
    rw [div_le_iff₀ hu]
    have : (((2 : ℤ) ^ 53 : ℤ) : ℚ) = 2 ^ (53 : ℤ) := by norm_num
    rw [this, ← hsplit]
    exact le_of_lt hb.2
  have hlo : ((-(2 : ℤ) ^ 53 : ℤ) : ℚ) ≤ q / 2 ^ (exponent q - 52) := by
    rw [le_div_iff₀ hu]
    have : ((-(2 : ℤ) ^ 53 : ℤ) : ℚ) = -2 ^ (53 : ℤ) := by norm_num
    rw [this, neg_mul, ← hsplit]
    exact le_of_lt hb.1
  have h1 := roundEven_mono hup
  have h0 := roundEven_mono hlo
  rw [roundEven_intCast] at h1 h0
  exact abs_le.mpr ⟨h0, h1⟩

/-- A nearest grid value is its own nearest grid value. -/
theorem nearest_idem (q : ℚ) : nearest (nearest q) = nearest q := by
  obtain ⟨k, hk, hk53, hE⟩ := nearest_form q
  have h2 : (2 : ℚ) ≠ 0 := by norm_num
  rw [hk]
  rcases lt_or_eq_of_le hk53 with h | h
  · exact nearest_dyadic k _ h (by omega)
  · have hsplit : (2 : ℚ) ^ (exponent q - 52) * 2 = 2 ^ (exponent q - 51) := by
      have : exponent q - 51 = exponent q - 52 + 1 := by ring
      rw [this, zpow_add₀ h2, zpow_one]
    rcases abs_eq (by norm_num : (0 : ℤ) ≤ 2 ^ 53) |>.mp h with hp | hn
    · have e : (k : ℚ) * 2 ^ (exponent q - 52)
          = (((2 : ℤ) ^ 52 : ℤ) : ℚ) * 2 ^ (exponent q - 51) := by
        rw [hp, ← hsplit]
        norm_num
        ring
      rw [e]
      exact nearest_dyadic _ _ (by norm_num) (by omega)
    · have e : (k : ℚ) * 2 ^ (exponent q - 52)
          = ((-(2 : ℤ) ^ 52 : ℤ) : ℚ) * 2 ^ (exponent q - 51) := by
        rw [hn, ← hsplit]
        norm_num
        ring
      rw [e]
      exact nearest_dyadic _ _ (by norm_num) (by omega)

/-- A finite result of rounding is a `double`: rounding returns it. -/
theorem round_idem (q v : ℚ) (h : round q = .fin v) : round v = .fin v ∧ nearest v = v := by
  unfold round at h
  split_ifs at h with h1 h2
  have hv : nearest q = v := Dbl.fin.inj h
  have hn : nearest v = v := by rw [← hv, nearest_idem]
  refine ⟨?_, hn⟩
  unfold round
  rw [hn, ← hv, if_neg h1, if_neg h2]

/-- A value of the grid stays below the nearest grid value of its sum with a
number that is at least the spacing of the grid at the value. -/
theorem nearest_add_gt (t ts : ℚ) (ht : nearest t = t) (h0 : 0 ≤ t)
    (hts : 2 ^ (exponent t - 52) ≤ ts) : t < nearest (t + ts) := by
  have h2 : (2 : ℚ) ≠ 0 := by norm_num
  have hu : (0 : ℚ) < 2 ^ (exponent t - 52) := zpow_pos (by norm_num) _
  obtain ⟨k, hk, _, hE⟩ := nearest_form t
  rw [ht] at hk
  have hk0 : 0 ≤ k := by
    by_contra hc
    have hc1 : (k : ℚ) ≤ -1 := by exact_mod_cast (by omega : k ≤ -1)
    have : t < 0 := by
      rw [hk]
      nlinarith
    linarith
  have hk53 : k < 2 ^ 53 := by
    by_cases ht0 : t = 0
    · have : (k : ℚ) = 0 := by
        rw [ht0] at hk
        rcases mul_eq_zero.mp hk.symm with h | h
        · exact h
        · rw [ht0] at hu
          exact absurd h (ne_of_gt hu)
      have : k = 0 := by exact_mod_cast this
      rw [this]
      norm_num
    · obtain ⟨_, hhi, _⟩ := exponent_bounds t ht0
      rw [abs_of_nonneg h0] at hhi
      have hsplit : (2 : ℚ) ^ (exponent t + 1) = 2 ^ (53 : ℤ) * 2 ^ (exponent t - 52) := by
        rw [← zpow_add₀ h2]
        congr 1
        ring
      rw [hsplit] at hhi
      nth_rewrite 1 [hk] at hhi
      have := lt_of_mul_lt_mul_right hhi (le_of_lt hu)
      have h3 : (k : ℚ) < (((2 : ℤ) ^ 53 : ℤ) : ℚ) := by
        have e : (((2 : ℤ) ^ 53 : ℤ) : ℚ) = 2 ^ (53 : ℤ) := by norm_num
        rw [e]
        exact this
      exact_mod_cast h3
  have hs : nearest (((k + 1 : ℤ) : ℚ) * 2 ^ (exponent t - 52))
      = ((k + 1 : ℤ) : ℚ) * 2 ^ (exponent t - 52) := by
    rcases lt_or_eq_of_le (by omega : k + 1 ≤ 2 ^ 53) with h | h
    · exact nearest_dyadic _ _ (by rw [abs_of_nonneg (by omega)]; exact h) (by omega)
    · have hsplit : (2 : ℚ) ^ (exponent t - 52) * 2 = 2 ^ (exponent t - 51) := by
        have : exponent t - 51 = exponent t - 52 + 1 := by ring
        rw [this, zpow_add₀ h2, zpow_one]
      have e : ((k + 1 : ℤ) : ℚ) * 2 ^ (exponent t - 52)
          = (((2 : ℤ) ^ 52 : ℤ) : ℚ) * 2 ^ (exponent t - 51) := by
        rw [h, ← hsplit]
        norm_num
        ring
      rw [e]
      exact nearest_dyadic _ _ (by norm_num) (by omega)
  have hle : ((k + 1 : ℤ) : ℚ) * 2 ^ (exponent t - 52) ≤ t + ts := by
    push_cast
    nth_rewrite 2 [hk]
    linarith
  have hm := nearest_mono _ _ hle
  rw [hs] at hm
  have hlt : t < ((k + 1 : ℤ) : ℚ) * 2 ^ (exponent t - 52) := by
    push_cast
    nth_rewrite 1 [hk]
    linarith
  linarith

/-- A positive value of the grid is at least the least positive `double`. -/
theorem grid_pos_ge (v : ℚ) (hv : nearest v = v) (hpos : 0 < v) : 2 ^ (-1074 : ℤ) ≤ v := by
  have hu : (0 : ℚ) < 2 ^ (exponent v - 52) := zpow_pos (by norm_num) _
  obtain ⟨k, hk, _, hE⟩ := nearest_form v
  rw [hv] at hk
  have hk1 : 1 ≤ k := by
    by_contra hc
    have hc1 : (k : ℚ) ≤ 0 := by exact_mod_cast (by omega : k ≤ 0)
    have : v ≤ 0 := by
      rw [hk]
      exact mul_nonpos_of_nonpos_of_nonneg hc1 (le_of_lt hu)
    linarith
  have hk1q : (1 : ℚ) ≤ k := by exact_mod_cast hk1
  calc (2 : ℚ) ^ (-1074 : ℤ) ≤ 2 ^ (exponent v - 52) :=
        zpow_le_zpow_right₀ (by norm_num) (by omega)
    _ ≤ (k : ℚ) * 2 ^ (exponent v - 52) := by nlinarith
    _ = v := hk.symm

/-- Adding a positive `double` to a non-negative `double` below `2^52` times
it gives a greater `double`. -/
theorem nearest_add_gt_of_lt (t ts : ℚ) (ht : nearest t = t) (hts : nearest ts = ts)
    (h0 : 0 ≤ t) (hpos : 0 < ts) (hlt : t < 2 ^ (52 : ℤ) * ts) : t < nearest (t + ts) := by
  have h2 : (2 : ℚ) ≠ 0 := by norm_num
  by_cases ht0 : t = 0
  · subst ht0
    rw [zero_add, hts]
    exact hpos
  apply nearest_add_gt t ts ht h0
  obtain ⟨_, _, hlo⟩ := exponent_bounds t ht0
  rcases hlo with hlo | hlo
  · rw [abs_of_nonneg h0] at hlo
    have h52 : (0 : ℚ) < 2 ^ (52 : ℤ) := by positivity
    have hsplit : (2 : ℚ) ^ (exponent t) = 2 ^ (52 : ℤ) * 2 ^ (exponent t - 52) := by
      rw [← zpow_add₀ h2]
      congr 1
      ring
    rw [hsplit] at hlo
    have := lt_of_le_of_lt hlo hlt
    exact le_of_lt (lt_of_mul_lt_mul_left this (le_of_lt h52))
  · rw [hlo]
    have := grid_pos_ge ts hts hpos
    calc (2 : ℚ) ^ ((-1022 : ℤ) - 52) = 2 ^ (-1074 : ℤ) := by norm_num
      _ ≤ ts := this

/-- The product of a number of `[-1, 1]` and an integer of magnitude below
`2^53` rounds to a finite value of magnitude at most that of the integer. -/
theorem round_clip_mul (c : ℚ) (M : ℤ) (h0 : -1 ≤ c) (h1 : c ≤ 1) (hM : |M| < 2 ^ 53) :
    ∃ v : ℚ, round (c * M) = .fin v ∧ -((|M| : ℤ) : ℚ) ≤ v ∧ v ≤ ((|M| : ℤ) : ℚ) := by
  have habs : (0 : ℚ) ≤ ((|M| : ℤ) : ℚ) := by exact_mod_cast abs_nonneg M
  have hMq : |(M : ℚ)| = ((|M| : ℤ) : ℚ) := by rw [Int.cast_abs]
  have hb := abs_le.mp (le_of_eq hMq)
  have hup : c * M ≤ ((|M| : ℤ) : ℚ) := by
    rcases le_total 0 (M : ℚ) with h | h
    · rw [abs_of_nonneg h] at hMq
      rw [← hMq]
      nlinarith
    · rw [abs_of_nonpos h] at hMq
      rw [← hMq]
      nlinarith
  have hlo : -((|M| : ℤ) : ℚ) ≤ c * M := by
    rcases le_total 0 (M : ℚ) with h | h
    · rw [abs_of_nonneg h] at hMq
      rw [← hMq]
      nlinarith
    · rw [abs_of_nonpos h] at hMq
      rw [← hMq]
      nlinarith
  have e1 : nearest (((|M| : ℤ) : ℚ)) = ((|M| : ℤ) : ℚ) := by
    have := nearest_dyadic (|M|) 0 (by rw [abs_abs]; exact hM) (by norm_num)
    simpa using this
  have e2 : nearest (-((|M| : ℤ) : ℚ)) = -((|M| : ℤ) : ℚ) := by
    rw [nearest_neg, e1]
  have hn1 := nearest_mono _ _ hup
  have hn0 := nearest_mono _ _ hlo
  rw [e1] at hn1
  rw [e2] at hn0
  have hbig : ((|M| : ℤ) : ℚ) < 2 ^ (1024 : ℤ) := by
    have : ((|M| : ℤ) : ℚ) < (((2 : ℤ) ^ 53 : ℤ) : ℚ) := by exact_mod_cast hM
    calc ((|M| : ℤ) : ℚ) < (((2 : ℤ) ^ 53 : ℤ) : ℚ) := this
      _ = 2 ^ (53 : ℤ) := by norm_num
      _ ≤ 2 ^ (1024 : ℤ) := zpow_le_zpow_right₀ (by norm_num) (by norm_num)
  refine ⟨nearest (c * M), ?_, hn0, hn1⟩
  unfold round
  rw [if_neg (not_le.mpr (lt_of_le_of_lt hn1 hbig)), if_neg (not_le.mpr (by linarith))]

end binary64

end synthesizer

/-! ## Stream engine in `double` arithmetic -/

/-- Product of two finite `double` values. -/
theorem synthesizer.binary64.mul_fin (a b : ℚ) :
    binary64.mul (.fin a) (.fin b) = binary64.round (a * b) := by
  simp only [binary64.mul, Dbl.fin_mul_fin, binary64.rnd]

/-- The conversion `(T) pow(2, sizeof(T) * 8 - 1)` in the initialiser of
`genericMaxSample` has no defined result, for any width of `T`: the power is
one above the greatest value of `T`. -/
theorem toT_power_undefined (bits : Nat) :
    toT bits (binary64.round (2 ^ (bits - 1))) = .error .outOfRange := by
  have hn : binary64.nearest ((2 : ℚ) ^ (bits - 1)) = 2 ^ (bits - 1) := by
    have h := binary64.nearest_dyadic 1 ((bits - 1 : ℕ) : ℤ) (by norm_num) (by omega)
    rw [Int.cast_one, one_mul, zpow_natCast] at h
    exact h
  have htr : truncQ ((2 : ℚ) ^ (bits - 1)) = 2 ^ (bits - 1) := by
    have hq : (0 : ℚ) ≤ 2 ^ (bits - 1) := by positivity
    unfold truncQ
    rw [if_pos hq]
    have : ((2 : ℚ) ^ (bits - 1)) = (((2 : Int) ^ (bits - 1) : Int) : ℚ) := by push_cast; rfl
    rw [this, Int.floor_intCast]
  unfold binary64.round
  rw [hn]
  split_ifs with h1 h2
  · rfl
  · rfl
  · unfold toT
    simp only [htr]
    rw [if_neg (by
      rintro ⟨_, h⟩
      exact lt_irrefl _ h)]

/-- The stored sample: for a local `maxSample` that holds the integer `M` of
magnitude at most the greatest value of `T`, the conversion to `T` of
`clip(x, 1.0) * maxSample` has a result for every callback value `x`, and the
result lies in `[-|M|, |M|]`. -/
theorem toT_clip_mul (bits : Nat) (M : Int) (hM : |M| ≤ 2 ^ (bits - 1) - 1)
    (hM53 : |M| < 2 ^ 53) (x : Dbl) :
    ∃ v : Int,
      toT bits (binary64.mul (NoiseGenerator.clip x (Dbl.lit 1.0)) (Dbl.ofInt M)) = .ok v
      ∧ -|M| ≤ v ∧ v ≤ |M| := by
  obtain ⟨q, hq, h0, h1⟩ := NoiseGenerator.clip_range x
  obtain ⟨v, hv, hv0, hv1⟩ := binary64.round_clip_mul q M h0 h1 hM53
  have hr := truncQ_range v |M| hv0 hv1
  refine ⟨truncQ v, ?_, hr.1, hr.2⟩
  rw [hq]
  show toT bits (binary64.mul (Dbl.fin q) (Dbl.fin (M : ℚ))) = _
  rw [binary64.mul_fin, hv]
  unfold toT
  simp only
  rw [if_pos ⟨by linarith [hr.1], by linarith [hr.2]⟩]

/-- The loop over the channels of a frame returns for every callback, leaves
`m_globalTime` as it is, and stores at the indices `currentBlock + n + c` of
the channels `c` it visits, in order, values of `[-|M|, |M|]`. -/
theorem NoiseGenerator.MainThread.channelLoop_spec {σ : Type} (g : NoiseGenerator σ) (M : Int)
    (hM : |M| ≤ 2 ^ (g.bits - 1) - 1) (hM53 : |M| < 2 ^ 53) (currentBlock n : Nat) :
    ∀ (k c : Nat) (st : FillState σ), g.m_channels - c = k →
      ∃ st', NoiseGenerator.MainThread.channelLoop g (Dbl.ofInt M) currentBlock n c st = .ok st'
        ∧ st'.m_globalTime = st.m_globalTime
        ∧ st'.stores.map Prod.fst
          = st.stores.map Prod.fst
            ++ (List.range' c k).map (fun c => (currentBlock + n + c) % UINT_SIZE)
        ∧ ∀ p ∈ st'.stores, p ∈ st.stores ∨ (-|M| ≤ p.2 ∧ p.2 ≤ |M|) := by
  intro k
  induction k with
  | zero =>
    intro c st hk
    have hc : ¬ c < g.m_channels := by omega
    rw [NoiseGenerator.MainThread.channelLoop, if_neg hc]
    exact ⟨st, rfl, rfl, by simp, fun p hp => Or.inl hp⟩
  | succ k ih =>
    intro c st hk
    have hc : c < g.m_channels := by omega
    rw [NoiseGenerator.MainThread.channelLoop, if_pos hc]
    cases hu : g.m_userFunction with
    | none =>
      obtain ⟨v, hv, hv0, hv1⟩ := toT_clip_mul g.bits M hM hM53
        (NoiseGenerator.UserProcess c st.m_globalTime)
      simp only [hv, bind, Except.bind]
      obtain ⟨st', hst', ht, hs, hval⟩ := ih (c + 1)
        ⟨st.user, st.m_globalTime,
          st.stores ++ [((currentBlock + n + c) % UINT_SIZE, v)]⟩
        (by omega)
      refine ⟨st', hst', ht, ?_, ?_⟩
      · rw [hs, List.range'_succ]
        simp
      · intro p hp
        rcases hval p hp with h | h
        · rcases List.mem_append.mp h with h | h
          · exact Or.inl h
          · rw [List.mem_singleton] at h
            subst h
            exact Or.inr ⟨hv0, hv1⟩
        · exact Or.inr h
    | some f =>
      obtain ⟨v, hv, hv0, hv1⟩ := toT_clip_mul g.bits M hM hM53 (f st.user c st.m_globalTime).1
      simp only [hv, bind, Except.bind]
      obtain ⟨st', hst', ht, hs, hval⟩ := ih (c + 1)
        ⟨(f st.user c st.m_globalTime).2, st.m_globalTime,
          st.stores ++ [((currentBlock + n + c) % UINT_SIZE, v)]⟩
        (by omega)
      refine ⟨st', hst', ht, ?_, ?_⟩
      · rw [hs, List.range'_succ]
        simp
      · intro p hp
        rcases hval p hp with h | h
        · rcases List.mem_append.mp h with h | h
          · exact Or.inl h
          · rw [List.mem_singleton] at h
            subst h
            exact Or.inr ⟨hv0, hv1⟩
        · exact Or.inr h

/-- A frame returns for every callback, adds `timeStep` to `m_globalTime` once,
in `double` arithmetic, and stores at the indices `currentBlock + n + c` of the
channels `c = 0, ..., m_channels - 1`, in order, values of `[-|M|, |M|]`. -/
theorem NoiseGenerator.MainThread.frame_spec {σ : Type} (g : NoiseGenerator σ) (M : Int)
    (hM : |M| ≤ 2 ^ (g.bits - 1) - 1) (hM53 : |M| < 2 ^ 53) (currentBlock n : Nat)
    (st : FillState σ) :
    ∃ st', NoiseGenerator.MainThread.frame g (Dbl.ofInt M) currentBlock n st = .ok st'
      ∧ st'.m_globalTime
        = binary64.add st.m_globalTime (NoiseGenerator.MainThread.timeStep g)
      ∧ st'.stores.map Prod.fst
        = st.stores.map Prod.fst
          ++ (List.range' 0 g.m_channels).map (fun c => (currentBlock + n + c) % UINT_SIZE)
      ∧ ∀ p ∈ st'.stores, p ∈ st.stores ∨ (-|M| ≤ p.2 ∧ p.2 ≤ |M|) := by
  obtain ⟨st1, h1, ht, hs, hval⟩ := NoiseGenerator.MainThread.channelLoop_spec g M hM hM53
    currentBlock n (g.m_channels - 0) 0 st rfl
  refine ⟨{ st1 with
      m_globalTime := binary64.add st1.m_globalTime (NoiseGenerator.MainThread.timeStep g) },
    ?_, ?_, hs, hval⟩
  · unfold NoiseGenerator.MainThread.frame
    rw [h1]
    rfl
  · show binary64.add st1.m_globalTime _ = _
    rw [ht]

/-- The loop over the frames keeps the stores made before it. -/
theorem NoiseGenerator.MainThread.fillLoop_keeps {σ : Type} (g : NoiseGenerator σ) (M : Int)
    (hM : |M| ≤ 2 ^ (g.bits - 1) - 1) (hM53 : |M| < 2 ^ 53) (currentBlock : Nat) :
    ∀ (fuel n : Nat) (st st' : FillState σ),
      NoiseGenerator.MainThread.fillLoop g (Dbl.ofInt M) currentBlock fuel n st = .ok st' →
      ∀ i ∈ st.stores.map Prod.fst, i ∈ st'.stores.map Prod.fst := by
  intro fuel
  induction fuel with
  | zero =>
    intro n st st' h i hi
    rw [NoiseGenerator.MainThread.fillLoop] at h
    by_cases hn : n < g.m_blockSamples
    · simp [hn] at h
    · simp only [hn, if_false, Except.ok.injEq] at h
      rw [← h]
      exact hi
  | succ fuel ih =>
    intro n st st' h i hi
    rw [NoiseGenerator.MainThread.fillLoop] at h
    by_cases hn : n < g.m_blockSamples
    · obtain ⟨st1, h1, _, hs, _⟩ := NoiseGenerator.MainThread.frame_spec g M hM hM53
        currentBlock n st
      simp only [hn, if_true, bind, Except.bind, h1] at h
      apply ih _ st1 st' h
      rw [hs]
      exact List.mem_append_left _ hi
    · simp only [hn, if_false, Except.ok.injEq] at h
      rw [← h]
      exact hi

/-- A run of the loop over the frames that returns from a slot `n` inside the
block has stored at the indices of every channel of the frame at `n`. -/
theorem NoiseGenerator.MainThread.fillLoop_first {σ : Type} (g : NoiseGenerator σ) (M : Int)
    (hM : |M| ≤ 2 ^ (g.bits - 1) - 1) (hM53 : |M| < 2 ^ 53)
    (currentBlock : Nat) (fuel n : Nat) (st st' : FillState σ) (hn : n < g.m_blockSamples)
    (h : NoiseGenerator.MainThread.fillLoop g (Dbl.ofInt M) currentBlock fuel n st = .ok st')
    (c : Nat) (hc : c < g.m_channels) :
    (currentBlock + n + c) % UINT_SIZE ∈ st'.stores.map Prod.fst := by
  cases fuel with
  | zero =>
    rw [NoiseGenerator.MainThread.fillLoop] at h
    simp [hn] at h
  | succ fuel =>
    rw [NoiseGenerator.MainThread.fillLoop] at h
    obtain ⟨st1, h1, _, hs, _⟩ := NoiseGenerator.MainThread.frame_spec g M hM hM53
      currentBlock n st
    simp only [hn, if_true, bind, Except.bind, h1] at h
    apply NoiseGenerator.MainThread.fillLoop_keeps g M hM hM53 currentBlock _ _ st1 st' h
    rw [hs]
    apply List.mem_append_right
    exact List.mem_map.mpr ⟨c, List.mem_range'_1.mpr ⟨Nat.zero_le _, by omega⟩, rfl⟩

/-- A run of the loop over the frames that returns has filled the frame at every
slot `j * m_channels` below `m_blockSamples`. -/
theorem NoiseGenerator.MainThread.fillLoop_reaches {σ : Type} (g : NoiseGenerator σ) (M : Int)
    (hM : |M| ≤ 2 ^ (g.bits - 1) - 1) (hM53 : |M| < 2 ^ 53)
    (currentBlock : Nat) (hU : g.m_blockSamples < UINT_SIZE) (j : Nat)
    (hj : j * g.m_channels < g.m_blockSamples) (c : Nat) (hc : c < g.m_channels) :
    ∀ (d i fuel : Nat) (st st' : FillState σ), i + d = j →
      NoiseGenerator.MainThread.fillLoop g (Dbl.ofInt M) currentBlock fuel (i * g.m_channels) st
        = .ok st' →
      (currentBlock + j * g.m_channels + c) % UINT_SIZE ∈ st'.stores.map Prod.fst := by
  intro d
  induction d with
  | zero =>
    intro i fuel st st' hi h
    have : i = j := by omega
    subst this
    exact NoiseGenerator.MainThread.fillLoop_first g M hM hM53 currentBlock fuel _ st st' hj h
      c hc
  | succ d ih =>
    intro i fuel st st' hi h
    have hle : (i + 1) * g.m_channels ≤ j * g.m_channels :=
      Nat.mul_le_mul_right _ (by omega)
    have hn : i * g.m_channels < g.m_blockSamples := by
      have : i * g.m_channels ≤ (i + 1) * g.m_channels := Nat.mul_le_mul_right _ (by omega)
      omega
    cases fuel with
    | zero =>
      rw [NoiseGenerator.MainThread.fillLoop] at h
      simp [hn] at h
    | succ fuel =>
      rw [NoiseGenerator.MainThread.fillLoop] at h
      obtain ⟨st1, h1, _⟩ := NoiseGenerator.MainThread.frame_spec g M hM hM53 currentBlock
        (i * g.m_channels) st
      simp only [hn, if_true, bind, Except.bind, h1] at h
      have hnext : (i * g.m_channels + g.m_channels) % UINT_SIZE = (i + 1) * g.m_channels := by
        rw [Nat.mod_eq_of_lt (by rw [Nat.add_mul, Nat.one_mul] at hle; omega)]
        ring
      rw [hnext] at h
      exact ih (i + 1) fuel st1 st' (by omega) h

/-- The time after one more frame. -/
theorem Reference.clock_succ (timeStep : Dbl) :
    ∀ (f : Nat) (t : Dbl),
      Reference.clock timeStep t (f + 1) = binary64.add (Reference.clock timeStep t f) timeStep := by
  intro f
  induction f with
  | zero =>
    intro t
    rfl
  | succ f ih =>
    intro t
    show Reference.clock timeStep (binary64.add t timeStep) (f + 1) = _
    rw [ih]
    rfl

/-- When `m_blockSamples` is `q` times `m_channels`, the loop over the frames
from the frame `j` returns with fuel for the `q - j` frames left; it has added
`timeStep` to `m_globalTime` once per frame and stored at the indices
`currentBlock + i` of the slots `i` from `j * m_channels` to
`m_blockSamples - 1`, once each, in order, values of `[-|M|, |M|]`. -/
theorem NoiseGenerator.MainThread.fillLoop_exact {σ : Type} (g : NoiseGenerator σ) (M : Int)
    (hM : |M| ≤ 2 ^ (g.bits - 1) - 1) (hM53 : |M| < 2 ^ 53)
    (currentBlock : Nat) (hU : g.m_blockSamples < UINT_SIZE) (q : Nat)
    (hq : g.m_blockSamples = q * g.m_channels) (hch : 0 < g.m_channels) :
    ∀ (r j fuel : Nat) (st : FillState σ), j + r = q → r ≤ fuel →
      ∃ st', NoiseGenerator.MainThread.fillLoop g (Dbl.ofInt M) currentBlock fuel
            (j * g.m_channels) st = .ok st'
        ∧ st'.m_globalTime
          = Reference.clock (NoiseGenerator.MainThread.timeStep g) st.m_globalTime r
        ∧ st'.stores.map Prod.fst
          = st.stores.map Prod.fst
            ++ (List.range' (j * g.m_channels) (r * g.m_channels)).map
                (fun i => (currentBlock + i) % UINT_SIZE)
        ∧ ∀ p ∈ st'.stores, p ∈ st.stores ∨ (-|M| ≤ p.2 ∧ p.2 ≤ |M|) := by
  intro r
  induction r with
  | zero =>
    intro j fuel st hj _
    have hn : ¬ j * g.m_channels < g.m_blockSamples := by
      have : j = q := by omega
      rw [hq, this]
      exact lt_irrefl _
    refine ⟨st, ?_, rfl, by simp, fun p hp => Or.inl hp⟩
    cases fuel with
    | zero =>
      rw [NoiseGenerator.MainThread.fillLoop]
      simp only [hn, if_false]
    | succ fuel =>
      rw [NoiseGenerator.MainThread.fillLoop]
      simp only [hn, if_false]
  | succ r ih =>
    intro j fuel st hj hfuel
    obtain ⟨f, rfl⟩ : ∃ f, fuel = f + 1 := ⟨fuel - 1, by omega⟩
    have hle : (j + 1) * g.m_channels ≤ q * g.m_channels := Nat.mul_le_mul_right _ (by omega)
    have hexp : (j + 1) * g.m_channels = j * g.m_channels + g.m_channels := by ring
    have hn : j * g.m_channels < g.m_blockSamples := by
      rw [hq]
      omega
    obtain ⟨st1, h1, ht1, hs1, hv1⟩ := NoiseGenerator.MainThread.frame_spec g M hM hM53
      currentBlock (j * g.m_channels) st
    have hnext : (j * g.m_channels + g.m_channels) % UINT_SIZE = (j + 1) * g.m_channels := by
      rw [Nat.mod_eq_of_lt (by omega)]
      ring
    obtain ⟨st', h2, ht2, hs2, hv2⟩ := ih (j + 1) f st1 (by omega) (by omega)
    refine ⟨st', ?_, ?_, ?_, ?_⟩
    · rw [NoiseGenerator.MainThread.fillLoop]
      simp only [hn, if_true, bind, Except.bind, h1, hnext]
      exact h2
    · rw [ht2, ht1]
      rfl
    · have hsplit : List.range' (j * g.m_channels) ((r + 1) * g.m_channels)
          = List.range' (j * g.m_channels) g.m_channels
            ++ List.range' ((j + 1) * g.m_channels) (r * g.m_channels) := by
        rw [hexp, List.range'_append_1]
        congr 1
        ring
      have hframe : (List.range' 0 g.m_channels).map
            (fun c => (currentBlock + j * g.m_channels + c) % UINT_SIZE)
          = (List.range' (j * g.m_channels) g.m_channels).map
              (fun i => (currentBlock + i) % UINT_SIZE) := by
        have hr : List.range' (j * g.m_channels) g.m_channels
            = (List.range' 0 g.m_channels).map (fun x => j * g.m_channels + x) := by
          rw [List.map_add_range', Nat.add_zero]
        rw [hr, List.map_map]
        apply List.map_congr_left
        intro c _
        simp only [Function.comp, Nat.add_assoc]
      rw [hs2, hs1, hsplit, List.map_append, hframe, List.append_assoc]
    · intro p hp
      rcases hv2 p hp with h | h
      · exact hv1 p h
      · exact Or.inr h

/-- With fuel for fewer frames than are left, the loop over the frames runs
out of fuel. -/
theorem NoiseGenerator.MainThread.fillLoop_short {σ : Type} (g : NoiseGenerator σ) (M : Int)
    (hM : |M| ≤ 2 ^ (g.bits - 1) - 1) (hM53 : |M| < 2 ^ 53)
    (currentBlock : Nat) (hU : g.m_blockSamples < UINT_SIZE) (q : Nat)
    (hq : g.m_blockSamples = q * g.m_channels) (hch : 0 < g.m_channels) :
    ∀ (fuel j : Nat) (st : FillState σ), j + fuel < q →
      NoiseGenerator.MainThread.fillLoop g (Dbl.ofInt M) currentBlock fuel (j * g.m_channels) st
        = .error .outOfFuel := by
  intro fuel
  induction fuel with
  | zero =>
    intro j st hj
    have hle : (j + 1) * g.m_channels ≤ q * g.m_channels := Nat.mul_le_mul_right _ (by omega)
    have hn : j * g.m_channels < g.m_blockSamples := by
      rw [hq]
      rw [Nat.add_mul, Nat.one_mul] at hle
      omega
    rw [NoiseGenerator.MainThread.fillLoop]
    simp only [hn, if_true]
  | succ fuel ih =>
    intro j st hj
    have hle : (j + 1) * g.m_channels ≤ q * g.m_channels := Nat.mul_le_mul_right _ (by omega)
    rw [Nat.add_mul, Nat.one_mul] at hle
    have hn : j * g.m_channels < g.m_blockSamples := by
      rw [hq]
      omega
    obtain ⟨st1, h1, _⟩ := NoiseGenerator.MainThread.frame_spec g M hM hM53 currentBlock
      (j * g.m_channels) st
    have hnext : (j * g.m_channels + g.m_channels) % UINT_SIZE = (j + 1) * g.m_channels := by
      rw [Nat.mod_eq_of_lt (by omega)]
      ring
    rw [NoiseGenerator.MainThread.fillLoop]
    simp only [hn, if_true, bind, Except.bind, h1, hnext]
    exact ih (j + 1) st1 (by omega)

/-- One pass of the producer is the loop over the frames of the current block
followed by the advance of the ring index. -/
theorem NoiseGenerator.MainThread.fillBlock_eq {σ : Type} (g : NoiseGenerator σ)
    (maxSample : Dbl) (hcount : g.m_blockCount ≠ 0) (fuel : Nat) (user : σ) :
    NoiseGenerator.MainThread.fillBlock fuel g maxSample user
      = (NoiseGenerator.MainThread.fillLoop g maxSample
          ((g.m_blockCurrent * g.m_blockSamples) % UINT_SIZE) fuel 0
          ⟨user, g.m_globalTime, []⟩).bind
        (fun st => .ok
          ({ g with
              m_globalTime := st.m_globalTime
              m_blockCurrent := (g.m_blockCurrent + 1) % UINT_SIZE % g.m_blockCount },
            st.user, st.stores)) := by
  unfold NoiseGenerator.MainThread.fillBlock
  simp only [bind, Except.bind]
  cases NoiseGenerator.MainThread.fillLoop g maxSample
      ((g.m_blockCurrent * g.m_blockSamples) % UINT_SIZE) fuel 0
      ⟨user, g.m_globalTime, []⟩ with
  | error e => rfl
  | ok st =>
    simp only [if_neg hcount]
    rfl

/-- For a positive sample rate of `unsigned int` the local `timeStep` is a
positive `double`. -/
theorem NoiseGenerator.MainThread.timeStep_grid {σ : Type} (g : NoiseGenerator σ)
    (hsr : 0 < g.m_sampleRate) (hsrU : g.m_sampleRate < UINT_SIZE) :
    ∃ ts : ℚ, NoiseGenerator.MainThread.timeStep g = .fin ts
      ∧ binary64.round ts = .fin ts ∧ 0 < ts := by
  have hpos : (0 : ℚ) < ((g.m_sampleRate : Int) : ℚ) := by exact_mod_cast hsr
  have hne : ((g.m_sampleRate : Int) : ℚ) ≠ 0 := ne_of_gt hpos
  have hlt : ((g.m_sampleRate : Int) : ℚ) < 2 ^ (32 : ℤ) := by
    have : ((g.m_sampleRate : Int) : ℚ) < ((UINT_SIZE : ℕ) : ℚ) := by exact_mod_cast hsrU
    calc ((g.m_sampleRate : Int) : ℚ) < ((UINT_SIZE : ℕ) : ℚ) := this
      _ = 2 ^ (32 : ℤ) := by norm_num [UINT_SIZE]
  have hge : (1 : ℚ) ≤ ((g.m_sampleRate : Int) : ℚ) := by exact_mod_cast hsr
  have hstep : NoiseGenerator.MainThread.timeStep g
      = binary64.round (1 / ((g.m_sampleRate : Int) : ℚ)) := by
    unfold NoiseGenerator.MainThread.timeStep binary64.div Dbl.ofInt Dbl.lit
    rw [Dbl.fin_div_fin _ _ hne]
    norm_num [binary64.rnd]
  have hlow : (2 : ℚ) ^ (-32 : ℤ) ≤ 1 / ((g.m_sampleRate : Int) : ℚ) := by
    rw [le_div_iff₀ hpos]
    have : (2 : ℚ) ^ (-32 : ℤ) * 2 ^ (32 : ℤ) = 1 := by norm_num
    nlinarith [zpow_pos (by norm_num : (0 : ℚ) < 2) (-32 : ℤ)]
  have hup : 1 / ((g.m_sampleRate : Int) : ℚ) ≤ 1 := by
    rw [div_le_iff₀ hpos]
    linarith
  have e0 : binary64.nearest ((2 : ℚ) ^ (-32 : ℤ)) = 2 ^ (-32 : ℤ) := by
    have h := binary64.nearest_dyadic 1 (-32) (by norm_num) (by norm_num)
    rw [Int.cast_one, one_mul] at h
    exact h
  have e1 : binary64.nearest (1 : ℚ) = 1 := by
    have h := binary64.nearest_dyadic 1 0 (by norm_num) (by norm_num)
    rw [Int.cast_one, one_mul, zpow_zero] at h
    exact h
  have h0 := binary64.nearest_mono _ _ hlow
  have h1 := binary64.nearest_mono _ _ hup
  rw [e0] at h0
  rw [e1] at h1
  have hr : binary64.round (1 / ((g.m_sampleRate : Int) : ℚ))
      = .fin (binary64.nearest (1 / ((g.m_sampleRate : Int) : ℚ))) := by
    unfold binary64.round
    have hbig : (1 : ℚ) < 2 ^ (1024 : ℤ) := by norm_num
    have hp32 : (0 : ℚ) < 2 ^ (-32 : ℤ) := by positivity
    rw [if_neg (not_le.mpr (by linarith)), if_neg (not_le.mpr (by linarith))]
  refine ⟨_, by rw [hstep, hr], (binary64.round_idem _ _ hr).1, ?_⟩
  exact lt_of_lt_of_le (by positivity) h0

/-- The clock that starts at `0` and advances by a positive `double` is a
non-negative `double` or `+inf` after every number of frames. -/
theorem Reference.clock_grid (ts : ℚ) (hpos : 0 < ts) :
    ∀ f : Nat, Reference.clock (.fin ts) (.fin 0) f = .pinf
      ∨ ∃ t : ℚ, Reference.clock (.fin ts) (.fin 0) f = .fin t ∧ 0 ≤ t
          ∧ binary64.round t = .fin t := by
  intro f
  induction f with
  | zero =>
    refine Or.inr ⟨0, rfl, le_refl _, ?_⟩
    have h := binary64.round_dyadic 0 0 (by norm_num) (by norm_num) (by norm_num)
    simpa using h
  | succ f ih =>
    rw [Reference.clock_succ]
    rcases ih with h | ⟨t, h, h0, _⟩
    · rw [h]
      exact Or.inl rfl
    · rw [h, binary64.add_fin]
      rcases binary64.round_nonneg (t + ts) (by linarith) with hr | ⟨v, hv0, hr⟩
      · exact Or.inl hr
      · exact Or.inr ⟨v, hr, hv0, (binary64.round_idem _ _ hr).1⟩

/-- The clock never decreases from one frame to the next. -/
theorem Reference.clock_le (ts : ℚ) (hpos : 0 < ts) (f : Nat) :
    Dbl.le (Reference.clock (.fin ts) (.fin 0) f) (Reference.clock (.fin ts) (.fin 0) (f + 1))
      = true := by
  rw [Reference.clock_succ]
  rcases Reference.clock_grid ts hpos f with h | ⟨t, h, h0, ht⟩
  · rw [h]
    rfl
  · rw [h, binary64.add_fin]
    have hm := binary64.round_mono t (t + ts) (by linarith)
    rw [ht] at hm
    exact hm

/-- The clock increases strictly at a frame that starts below `2^52` times
`timeStep`. -/
theorem Reference.clock_lt (ts : ℚ) (hts : binary64.round ts = .fin ts) (hpos : 0 < ts)
    (f : Nat) (t : ℚ) (hf : Reference.clock (.fin ts) (.fin 0) f = .fin t)
    (hlt : t < 2 ^ (52 : ℤ) * ts) :
    Dbl.lt (.fin t) (Reference.clock (.fin ts) (.fin 0) (f + 1)) = true := by
  rw [Reference.clock_succ, hf, binary64.add_fin]
  rcases Reference.clock_grid ts hpos f with h | ⟨t1, h, h0, ht⟩
  · rw [h] at hf
    cases hf
  · rw [h] at hf
    have e : t1 = t := Dbl.fin.inj hf
    subst e
    have hgt := binary64.nearest_add_gt_of_lt t1 ts (binary64.round_idem _ _ ht).2
      (binary64.round_idem _ _ hts).2 h0 hpos hlt
    unfold binary64.round
    split_ifs with h1 h2
    · rfl
    · have : (0 : ℚ) < 2 ^ (1024 : ℤ) := by positivity
      linarith
    · simp only [Dbl.lt, decide_eq_true_eq]
      exact hgt

/-- A pass of the producer over a block of `q` frames returns with fuel for
`q` frames and leaves as global time the time `q` frames after the one it
found. -/
theorem NoiseGenerator.MainThread.fillBlock_clock {σ : Type} (g : NoiseGenerator σ) (M : Int)
    (user : σ) (hM : |M| ≤ 2 ^ (g.bits - 1) - 1) (hM53 : |M| < 2 ^ 53)
    (hch : 1 ≤ g.m_channels) (hbsU : g.m_blockSamples < UINT_SIZE)
    (hcount : g.m_blockCount ≠ 0) (hdvd : g.m_channels ∣ g.m_blockSamples)
    (fuel : Nat) (hfuel : g.m_blockSamples / g.m_channels ≤ fuel) :
    ∃ r, NoiseGenerator.MainThread.fillBlock fuel g (Dbl.ofInt M) user = .ok r
      ∧ r.1.m_globalTime
        = Reference.clock (NoiseGenerator.MainThread.timeStep g) g.m_globalTime
            (g.m_blockSamples / g.m_channels)
      ∧ ∀ p ∈ r.2.2, -|M| ≤ p.2 ∧ p.2 ≤ |M| := by
  obtain ⟨q, hq⟩ := hdvd
  rw [Nat.mul_comm] at hq
  have hdiv : g.m_blockSamples / g.m_channels = q := by
    rw [hq]
    exact Nat.mul_div_cancel _ (by omega)
  rw [hdiv] at hfuel ⊢
  obtain ⟨st', h1, ht, _, hv⟩ := NoiseGenerator.MainThread.fillLoop_exact g M hM hM53
    ((g.m_blockCurrent * g.m_blockSamples) % UINT_SIZE) hbsU q hq (by omega) q 0 fuel
    ⟨user, g.m_globalTime, []⟩ (by omega) hfuel
  rw [Nat.zero_mul] at h1
  refine ⟨_, by rw [NoiseGenerator.MainThread.fillBlock_eq g _ hcount, h1]; rfl, ht, ?_⟩
  intro p hp
  rcases hv p hp with h | h
  · cases h
  · exact h

/-- With a time step of `1` the clock counts the frames, up to `2^53`. -/
theorem Reference.clock_unit :
    ∀ k : Nat, k ≤ 2 ^ 53 → Reference.clock (.fin 1) (.fin 0) k = .fin k := by
  intro k
  induction k with
  | zero =>
    intro _
    show Dbl.fin 0 = Dbl.fin ((0 : ℕ) : ℚ)
    norm_num
  | succ k ih =>
    intro hk
    rw [Reference.clock_succ, ih (by omega), binary64.add_fin]
    rcases Nat.lt_or_ge (k + 1) (2 ^ 53) with h | h
    · have hr := binary64.round_dyadic ((k + 1 : ℕ) : ℤ) 0
        (by
          rw [abs_of_nonneg (by positivity)]
          exact_mod_cast h) (by norm_num) (by norm_num)
      rw [zpow_zero, mul_one] at hr
      push_cast at hr ⊢
      exact hr
    · have hk1 : k + 1 = 2 ^ 53 := by omega
      have e : ((k : ℚ) + 1) = (((2 : ℤ) ^ 52 : ℤ) : ℚ) * 2 ^ (1 : ℤ) := by
        have : ((k + 1 : ℕ) : ℚ) = ((2 ^ 53 : ℕ) : ℚ) := by rw [hk1]
        push_cast at this
        rw [this]
        norm_num
      have hr := binary64.round_dyadic ((2 : ℤ) ^ 52) 1 (by norm_num) (by norm_num)
        (by norm_num)
      rw [← e] at hr
      push_cast
      exact hr

/-- C16, the code at the failing input. For every width of the sample type
(`bits = 16` for the `short` of `main`) the initialiser of `maxSample`,
`(T) pow(2, sizeof(T) * 8 - 1) - 1`, has no defined value: it converts
`2^(bits-1)`, one above the greatest value of `T`, to `T` before it subtracts
`1`.  The claim takes `maxSample` to be `2^(bits-1) - 1`. -/
theorem NoiseGenerator.MainThread.maxSample_undefined (bits : Nat) :
    NoiseGenerator.MainThread.maxSample bits = .error .outOfRange := by
  unfold NoiseGenerator.MainThread.maxSample
  rw [toT_power_undefined]
  rfl

/-- C15, amended to the arithmetic of `double`. `MainThread` starts the global
time at `0`.  For a local `maxSample` that holds an integer `M` of magnitude at
most the greatest value of `T`: every frame returns, for every render callback
and whatever it returns, and adds `timeStep` to the global time once, after the
channels of the frame, as an addition of `double` values; a pass over a block
of `blockSamples / channels` frames returns and leaves the time that many
frames after the one it found, which is the sum taken one rounded addition per
frame.  For a sample rate `0 < sampleRate < 2^32`, `timeStep` is a positive
`double`, the clock never decreases from one frame to the next, and it
increases strictly at every frame that starts below `2^52 · timeStep`. -/
theorem NoiseGenerator.MainThread.clock {σ : Type} (g : NoiseGenerator σ) (M : Int) (user : σ)
    (hM : |M| ≤ 2 ^ (g.bits - 1) - 1) (hM53 : |M| < 2 ^ 53)
    (hch : 1 ≤ g.m_channels) (hbsU : g.m_blockSamples < UINT_SIZE)
    (hcount : g.m_blockCount ≠ 0) (hdvd : g.m_channels ∣ g.m_blockSamples) :
    (NoiseGenerator.MainThread.start g).m_globalTime = .fin 0
    ∧ (∀ (currentBlock n : Nat) (st : FillState σ),
        ∃ st', NoiseGenerator.MainThread.frame g (Dbl.ofInt M) currentBlock n st = .ok st'
          ∧ st'.m_globalTime
            = binary64.add st.m_globalTime (NoiseGenerator.MainThread.timeStep g))
    ∧ (∀ fuel, g.m_blockSamples / g.m_channels ≤ fuel →
        ∃ r, NoiseGenerator.MainThread.fillBlock fuel g (Dbl.ofInt M) user = .ok r
          ∧ r.1.m_globalTime
            = Reference.clock (NoiseGenerator.MainThread.timeStep g) g.m_globalTime
                (g.m_blockSamples / g.m_channels))
    ∧ (0 < g.m_sampleRate → g.m_sampleRate < UINT_SIZE →
        ∃ ts : ℚ, NoiseGenerator.MainThread.timeStep g = .fin ts ∧ 0 < ts
          ∧ (∀ f : Nat,
              Dbl.le (Reference.clock (.fin ts) (.fin 0) f)
                (Reference.clock (.fin ts) (.fin 0) (f + 1)) = true)
          ∧ (∀ (f : Nat) (t : ℚ), Reference.clock (.fin ts) (.fin 0) f = .fin t →
              t < 2 ^ (52 : ℤ) * ts →
              Dbl.lt (.fin t) (Reference.clock (.fin ts) (.fin 0) (f + 1)) = true)) := by
  have z : (Dbl.lit 0.0 : Dbl) = .fin 0 := by
    show Dbl.fin 0.0 = Dbl.fin 0
    norm_num
  refine ⟨z, ?_, ?_, ?_⟩
  · intro cb n st
    obtain ⟨st', h1, ht, _⟩ := NoiseGenerator.MainThread.frame_spec g M hM hM53 cb n st
    exact ⟨st', h1, ht⟩
  · intro fuel hfuel
    obtain ⟨r, hr, ht, _⟩ := NoiseGenerator.MainThread.fillBlock_clock g M user hM hM53 hch
      hbsU hcount hdvd fuel hfuel
    exact ⟨r, hr, ht⟩
  · intro hsr hsrU
    obtain ⟨ts, hts, hgrid, hpos⟩ := NoiseGenerator.MainThread.timeStep_grid g hsr hsrU
    exact ⟨ts, hts, hpos, fun f => Reference.clock_le ts hpos f,
      fun f t hf hlt => Reference.clock_lt ts hgrid hpos f t hf hlt⟩

/-- Witness of C15: the engine of `main` (16-bit samples, 44100 Hz, one
channel, 8 blocks of 512 samples) with `maxSample = 32767`; a pass over a block
returns and leaves the time 512 frames after `0`. -/
theorem NoiseGenerator.MainThread.clock_witness :
    ∃ r, NoiseGenerator.MainThread.fillBlock 512
        (⟨16, none, 44100, 1, 8, 512, 0, none, none, none, true, true, 7, .fin 0⟩ :
          NoiseGenerator Unit) (Dbl.ofInt 32767) () = .ok r
      ∧ r.1.m_globalTime
        = Reference.clock
            (NoiseGenerator.MainThread.timeStep
              (⟨16, none, 44100, 1, 8, 512, 0, none, none, none, true, true, 7, .fin 0⟩ :
                NoiseGenerator Unit))
            (.fin 0) (512 / 1) :=
  (NoiseGenerator.MainThread.clock
    (⟨16, none, 44100, 1, 8, 512, 0, none, none, none, true, true, 7, .fin 0⟩ :
      NoiseGenerator Unit) 32767 () (by norm_num) (by norm_num) (by norm_num)
    (by norm_num [UINT_SIZE]) (by norm_num) (one_dvd _)).2.2.1 512 (by norm_num)

/-- C15 as stated fails in `double` arithmetic.  With the sample rate 44100 Hz
of `main`, one channel and blocks of 13 samples, a pass over the first block
leaves the global time `5437815713338416 · 2^-64`, where `13 · (1 / 44100)` is
no `double`, the `double` product `13 * timeStep` and the `double` quotient
`13.0 / 44100.0` are both `5437815713338417 · 2^-64`.  With the sample rate
1 Hz the clock reaches `2^53` after `2^53` frames and the next frame leaves it
there. -/
theorem NoiseGenerator.MainThread.clock_counterexample :
    (∃ r, NoiseGenerator.MainThread.fillBlock 13
        (⟨16, none, 44100, 1, 8, 13, 0, none, none, none, true, true, 7, .fin 0⟩ :
          NoiseGenerator Unit) (Dbl.ofInt 32767) () = .ok r
      ∧ r.1.m_globalTime = .fin (5437815713338416 * 2 ^ (-64 : ℤ))
      ∧ r.1.m_globalTime ≠ .fin (13 * (1 / 44100))
      ∧ r.1.m_globalTime
        ≠ binary64.mul (.fin 13) (NoiseGenerator.MainThread.timeStep
          (⟨16, none, 44100, 1, 8, 13, 0, none, none, none, true, true, 7, .fin 0⟩ :
          NoiseGenerator Unit))
      ∧ r.1.m_globalTime ≠ binary64.div (.fin 13) (.fin 44100))
    ∧ NoiseGenerator.MainThread.timeStep
        (⟨16, none, 1, 1, 8, 512, 0, none, none, none, true, true, 7, .fin 0⟩ :
          NoiseGenerator Unit) = .fin 1
    ∧ Reference.clock (.fin 1) (.fin 0) (2 ^ 53 + 1)
      = Reference.clock (.fin 1) (.fin 0) (2 ^ 53) := by
  have hts : binary64.round ((1 : ℚ) / 44100)
      = .fin (6692696262570359 * 2 ^ (-68 : ℤ)) := by
    have h := binary64.round_eq ((1 : ℚ) / 44100)
      (-16) 6692696262570359 (by norm_num)
      (by rw [abs_of_pos (by norm_num)]; norm_num) (by rw [abs_of_pos (by norm_num)]; norm_num)
      (Or.inl (by rw [abs_lt]; norm_num)) (by rw [abs_of_pos (by norm_num)]; norm_num)
    rw [h]
    norm_num
  have h1 : binary64.round ((0 : ℚ) + 6692696262570359 * 2 ^ (-68 : ℤ))
      = .fin (6692696262570359 * 2 ^ (-68 : ℤ)) := by
    rw [zero_add]
    exact binary64.round_of_dyadic _ 6692696262570359 (-68)
      (by norm_num) (by norm_num) (by norm_num) (by norm_num)
  have h2 : binary64.round ((6692696262570359 * 2 ^ (-68 : ℤ) : ℚ)
      + 6692696262570359 * 2 ^ (-68 : ℤ))
      = .fin (6692696262570359 * 2 ^ (-67 : ℤ)) := by
    have h := binary64.round_eq ((6692696262570359 * 2 ^ (-68 : ℤ) : ℚ)
        + 6692696262570359 * 2 ^ (-68 : ℤ))
      (-15) 6692696262570359 (by norm_num)
      (by rw [abs_of_pos (by norm_num)]; norm_num) (by rw [abs_of_pos (by norm_num)]; norm_num)
      (Or.inl (by rw [abs_lt]; norm_num)) (by rw [abs_of_pos (by norm_num)]; norm_num)
    rw [h]
    norm_num
  have h3 : binary64.round ((6692696262570359 * 2 ^ (-67 : ℤ) : ℚ)
      + 6692696262570359 * 2 ^ (-68 : ℤ))
      = .fin (5019522196927769 * 2 ^ (-66 : ℤ)) := by
    have h := binary64.round_eq ((6692696262570359 * 2 ^ (-67 : ℤ) : ℚ)
        + 6692696262570359 * 2 ^ (-68 : ℤ))
      (-14) 5019522196927769 (by norm_num)
      (by rw [abs_of_pos (by norm_num)]; norm_num) (by rw [abs_of_pos (by norm_num)]; norm_num)
      (Or.inl (by rw [abs_lt]; norm_num)) (by rw [abs_of_pos (by norm_num)]; norm_num)
    rw [h]
    norm_num
  have h4 : binary64.round ((5019522196927769 * 2 ^ (-66 : ℤ) : ℚ)
      + 6692696262570359 * 2 ^ (-68 : ℤ))
      = .fin (6692696262570359 * 2 ^ (-66 : ℤ)) := by
    have h := binary64.round_eq ((5019522196927769 * 2 ^ (-66 : ℤ) : ℚ)
        + 6692696262570359 * 2 ^ (-68 : ℤ))
      (-14) 6692696262570359 (by norm_num)
      (by rw [abs_of_pos (by norm_num)]; norm_num) (by rw [abs_of_pos (by norm_num)]; norm_num)
      (Or.inl (by rw [abs_lt]; norm_num)) (by rw [abs_of_pos (by norm_num)]; norm_num)
    rw [h]
    norm_num
  have h5 : binary64.round ((6692696262570359 * 2 ^ (-66 : ℤ) : ℚ)
      + 6692696262570359 * 2 ^ (-68 : ℤ))
      = .fin (8365870328212949 * 2 ^ (-66 : ℤ)) := by
    have h := binary64.round_eq ((6692696262570359 * 2 ^ (-66 : ℤ) : ℚ)
        + 6692696262570359 * 2 ^ (-68 : ℤ))
      (-14) 8365870328212949 (by norm_num)
      (by rw [abs_of_pos (by norm_num)]; norm_num) (by rw [abs_of_pos (by norm_num)]; norm_num)
      (Or.inl (by rw [abs_lt]; norm_num)) (by rw [abs_of_pos (by norm_num)]; norm_num)
    rw [h]
    norm_num
  have h6 : binary64.round ((8365870328212949 * 2 ^ (-66 : ℤ) : ℚ)
      + 6692696262570359 * 2 ^ (-68 : ℤ))
      = .fin (5019522196927769 * 2 ^ (-65 : ℤ)) := by
    have h := binary64.round_eq ((8365870328212949 * 2 ^ (-66 : ℤ) : ℚ)
        + 6692696262570359 * 2 ^ (-68 : ℤ))
      (-13) 5019522196927769 (by norm_num)
      (by rw [abs_of_pos (by norm_num)]; norm_num) (by rw [abs_of_pos (by norm_num)]; norm_num)
      (Or.inl (by rw [abs_lt]; norm_num)) (by rw [abs_of_pos (by norm_num)]; norm_num)
    rw [h]
    norm_num
  have h7 : binary64.round ((5019522196927769 * 2 ^ (-65 : ℤ) : ℚ)
      + 6692696262570359 * 2 ^ (-68 : ℤ))
      = .fin (5856109229749064 * 2 ^ (-65 : ℤ)) := by
    have h := binary64.round_eq ((5019522196927769 * 2 ^ (-65 : ℤ) : ℚ)
        + 6692696262570359 * 2 ^ (-68 : ℤ))
      (-13) 5856109229749064 (by norm_num)
      (by rw [abs_of_pos (by norm_num)]; norm_num) (by rw [abs_of_pos (by norm_num)]; norm_num)
      (Or.inl (by rw [abs_lt]; norm_num)) (by rw [abs_of_pos (by norm_num)]; norm_num)
    rw [h]
    norm_num
  have h8 : binary64.round ((5856109229749064 * 2 ^ (-65 : ℤ) : ℚ)
      + 6692696262570359 * 2 ^ (-68 : ℤ))
      = .fin (6692696262570359 * 2 ^ (-65 : ℤ)) := by
    have h := binary64.round_eq ((5856109229749064 * 2 ^ (-65 : ℤ) : ℚ)
        + 6692696262570359 * 2 ^ (-68 : ℤ))
      (-13) 6692696262570359 (by norm_num)
      (by rw [abs_of_pos (by norm_num)]; norm_num) (by rw [abs_of_pos (by norm_num)]; norm_num)
      (Or.inl (by rw [abs_lt]; norm_num)) (by rw [abs_of_pos (by norm_num)]; norm_num)
    rw [h]
    norm_num
  have h9 : binary64.round ((6692696262570359 * 2 ^ (-65 : ℤ) : ℚ)
      + 6692696262570359 * 2 ^ (-68 : ℤ))
      = .fin (7529283295391654 * 2 ^ (-65 : ℤ)) := by
    have h := binary64.round_eq ((6692696262570359 * 2 ^ (-65 : ℤ) : ℚ)
        + 6692696262570359 * 2 ^ (-68 : ℤ))
      (-13) 7529283295391654 (by norm_num)
      (by rw [abs_of_pos (by norm_num)]; norm_num) (by rw [abs_of_pos (by norm_num)]; norm_num)
      (Or.inl (by rw [abs_lt]; norm_num)) (by rw [abs_of_pos (by norm_num)]; norm_num)
    rw [h]
    norm_num
  have h10 : binary64.round ((7529283295391654 * 2 ^ (-65 : ℤ) : ℚ)
      + 6692696262570359 * 2 ^ (-68 : ℤ))
      = .fin (8365870328212949 * 2 ^ (-65 : ℤ)) := by
    have h := binary64.round_eq ((7529283295391654 * 2 ^ (-65 : ℤ) : ℚ)
        + 6692696262570359 * 2 ^ (-68 : ℤ))
      (-13) 8365870328212949 (by norm_num)
      (by rw [abs_of_pos (by norm_num)]; norm_num) (by rw [abs_of_pos (by norm_num)]; norm_num)
      (Or.inl (by rw [abs_lt]; norm_num)) (by rw [abs_of_pos (by norm_num)]; norm_num)
    rw [h]
    norm_num
  have h11 : binary64.round ((8365870328212949 * 2 ^ (-65 : ℤ) : ℚ)
      + 6692696262570359 * 2 ^ (-68 : ℤ))
      = .fin (4601228680517122 * 2 ^ (-64 : ℤ)) := by
    have h := binary64.round_eq ((8365870328212949 * 2 ^ (-65 : ℤ) : ℚ)
        + 6692696262570359 * 2 ^ (-68 : ℤ))
      (-12) 4601228680517122 (by norm_num)
      (by rw [abs_of_pos (by norm_num)]; norm_num) (by rw [abs_of_pos (by norm_num)]; norm_num)
      (Or.inl (by rw [abs_lt]; norm_num)) (by rw [abs_of_pos (by norm_num)]; norm_num)
    rw [h]
    norm_num
  have h12 : binary64.round ((4601228680517122 * 2 ^ (-64 : ℤ) : ℚ)
      + 6692696262570359 * 2 ^ (-68 : ℤ))
      = .fin (5019522196927769 * 2 ^ (-64 : ℤ)) := by
    have h := binary64.round_eq ((4601228680517122 * 2 ^ (-64 : ℤ) : ℚ)
        + 6692696262570359 * 2 ^ (-68 : ℤ))
      (-12) 5019522196927769 (by norm_num)
      (by rw [abs_of_pos (by norm_num)]; norm_num) (by rw [abs_of_pos (by norm_num)]; norm_num)
      (Or.inl (by rw [abs_lt]; norm_num)) (by rw [abs_of_pos (by norm_num)]; norm_num)
    rw [h]
    norm_num
  have h13 : binary64.round ((5019522196927769 * 2 ^ (-64 : ℤ) : ℚ)
      + 6692696262570359 * 2 ^ (-68 : ℤ))
      = .fin (5437815713338416 * 2 ^ (-64 : ℤ)) := by
    have h := binary64.round_eq ((5019522196927769 * 2 ^ (-64 : ℤ) : ℚ)
        + 6692696262570359 * 2 ^ (-68 : ℤ))
      (-12) 5437815713338416 (by norm_num)
      (by rw [abs_of_pos (by norm_num)]; norm_num) (by rw [abs_of_pos (by norm_num)]; norm_num)
      (Or.inl (by rw [abs_lt]; norm_num)) (by rw [abs_of_pos (by norm_num)]; norm_num)
    rw [h]
    norm_num
  have hprod : binary64.round ((13 : ℚ) * (6692696262570359 * 2 ^ (-68 : ℤ)))
      = .fin (5437815713338417 * 2 ^ (-64 : ℤ)) := by
    have h := binary64.round_eq ((13 : ℚ) * (6692696262570359 * 2 ^ (-68 : ℤ)))
      (-12) 5437815713338417 (by norm_num)
      (by rw [abs_of_pos (by norm_num)]; norm_num) (by rw [abs_of_pos (by norm_num)]; norm_num)
      (Or.inl (by rw [abs_lt]; norm_num)) (by rw [abs_of_pos (by norm_num)]; norm_num)
    rw [h]
    norm_num
  have hdiv : binary64.round ((13 : ℚ) / 44100)
      = .fin (5437815713338417 * 2 ^ (-64 : ℤ)) := by
    have h := binary64.round_eq ((13 : ℚ) / 44100)
      (-12) 5437815713338417 (by norm_num)
      (by rw [abs_of_pos (by norm_num)]; norm_num) (by rw [abs_of_pos (by norm_num)]; norm_num)
      (Or.inl (by rw [abs_lt]; norm_num)) (by rw [abs_of_pos (by norm_num)]; norm_num)
    rw [h]
    norm_num
  have hstep : NoiseGenerator.MainThread.timeStep
      (⟨16, none, 44100, 1, 8, 13, 0, none, none, none, true, true, 7, .fin 0⟩ :
          NoiseGenerator Unit) = .fin (6692696262570359 * 2 ^ (-68 : ℤ)) := by
    unfold NoiseGenerator.MainThread.timeStep binary64.div Dbl.ofInt Dbl.lit
    rw [Dbl.fin_div_fin _ _ (by norm_num)]
    norm_num only [binary64.rnd]
    rw [hts]
    norm_num
  refine ⟨?_, ?_, ?_⟩
  · obtain ⟨r, hr, ht, _⟩ := NoiseGenerator.MainThread.fillBlock_clock
      (⟨16, none, 44100, 1, 8, 13, 0, none, none, none, true, true, 7, .fin 0⟩ :
          NoiseGenerator Unit) 32767 () (by norm_num) (by norm_num) (by norm_num)
      (by norm_num [UINT_SIZE]) (by norm_num) (one_dvd _) 13 (by norm_num)
    have hclock : r.1.m_globalTime = .fin (5437815713338416 * 2 ^ (-64 : ℤ)) := by
      rw [ht, hstep]
      simp only [Nat.div_one, Reference.clock, binary64.add_fin, h1, h2, h3, h4, h5, h6, h7,
        h8, h9, h10, h11, h12, h13]
    refine ⟨r, hr, hclock, ?_, ?_, ?_⟩
    · rw [hclock]
      intro h
      have := Dbl.fin.inj h
      norm_num at this
    · rw [hclock, hstep, binary64.mul_fin, hprod]
      intro h
      have := Dbl.fin.inj h
      norm_num at this
    · rw [hclock]
      show _ ≠ binary64.rnd (Dbl.fin 13 / Dbl.fin 44100)
      rw [Dbl.fin_div_fin _ _ (by norm_num)]
      show _ ≠ binary64.round ((13 : ℚ) / 44100)
      rw [hdiv]
      intro h
      have := Dbl.fin.inj h
      norm_num at this
  · unfold NoiseGenerator.MainThread.timeStep binary64.div Dbl.ofInt Dbl.lit
    rw [Dbl.fin_div_fin _ _ (by norm_num)]
    have h := binary64.round_dyadic 1 0 (by norm_num) (by norm_num) (by norm_num)
    norm_num only [binary64.rnd] at h ⊢
    exact h
  · rw [Reference.clock_succ, Reference.clock_unit _ (le_refl _), binary64.add_fin]
    have h := binary64.round_eq ((((2 ^ 53 : ℕ) : ℚ)) + 1) 53 (2 ^ 52) (by norm_num)
      (by rw [abs_of_pos (by norm_num)]; norm_num) (by rw [abs_of_pos (by norm_num)]; norm_num)
      (Or.inr ⟨by rw [abs_of_pos (by norm_num)]; norm_num, by norm_num⟩)
      (by rw [abs_of_pos (by norm_num)]; norm_num)
    rw [h]
    norm_num

/-! ## Block fill -/

/-- C23. Block fill stays inside the current block, on the states that
`Generate` leaves with block memory for `blockCount * blockSamples` samples
(the product below `2^32`, so that the allocation is not a wrapped one) and
for a local `maxSample` that holds an integer `M` of magnitude at most the
greatest value of `T`.  For `channels >= 1`, `blockSamples >= 1` and a current
block index `b < blockCount`: a pass of the producer returns with every store
inside `[b * blockSamples, (b + 1) * blockSamples)` if and only if `channels`
divides `blockSamples`.  In that case the pass returns with fuel for
`blockSamples / channels` frames and runs out with less, the indices stored are
`b * blockSamples, ..., (b + 1) * blockSamples - 1`, each once and in order,
and the current block index becomes `(b + 1) mod blockCount`. -/
theorem NoiseGenerator.MainThread.fill_in_block {σ : Type} (g : NoiseGenerator σ) (M : Int)
    (user : σ) (hM : |M| ≤ 2 ^ (g.bits - 1) - 1) (hM53 : |M| < 2 ^ 53)
    (hch : 1 ≤ g.m_channels) (hbs : 1 ≤ g.m_blockSamples)
    (hb : g.m_blockCurrent < g.m_blockCount)
    (hcap : g.m_blockCount * g.m_blockSamples < UINT_SIZE) :
    ((∃ (fuel : Nat) (r : NoiseGenerator σ × σ × List (Nat × Int)),
        NoiseGenerator.MainThread.fillBlock fuel g (Dbl.ofInt M) user = .ok r
          ∧ ∀ p ∈ r.2.2, g.m_blockCurrent * g.m_blockSamples ≤ p.1
              ∧ p.1 < (g.m_blockCurrent + 1) * g.m_blockSamples)
      ↔ g.m_channels ∣ g.m_blockSamples)
    ∧ (g.m_channels ∣ g.m_blockSamples →
        (∀ fuel, g.m_blockSamples / g.m_channels ≤ fuel →
          ∃ r, NoiseGenerator.MainThread.fillBlock fuel g (Dbl.ofInt M) user = .ok r
            ∧ r.2.2.map Prod.fst
              = List.range' (g.m_blockCurrent * g.m_blockSamples) g.m_blockSamples
            ∧ r.1.m_blockCurrent = (g.m_blockCurrent + 1) % g.m_blockCount)
        ∧ (∀ fuel, fuel < g.m_blockSamples / g.m_channels →
            NoiseGenerator.MainThread.fillBlock fuel g (Dbl.ofInt M) user
              = .error .outOfFuel)) := by
  have hcount : g.m_blockCount ≠ 0 := by omega
  have hM' := NoiseGenerator.MainThread.fillBlock_eq g (Dbl.ofInt M) hcount
  have hU : UINT_SIZE = 4294967296 := by norm_num [UINT_SIZE]
  have hbsU : g.m_blockSamples < UINT_SIZE := by
    have : 1 * g.m_blockSamples ≤ g.m_blockCount * g.m_blockSamples :=
      Nat.mul_le_mul_right _ (by omega)
    omega
  have hcountU : g.m_blockCount < UINT_SIZE := by
    have : g.m_blockCount * 1 ≤ g.m_blockCount * g.m_blockSamples :=
      Nat.mul_le_mul_left _ hbs
    omega
  have hwrap : (g.m_blockCurrent + 1) * g.m_blockSamples ≤ UINT_SIZE := by
    have : (g.m_blockCurrent + 1) * g.m_blockSamples ≤ g.m_blockCount * g.m_blockSamples :=
      Nat.mul_le_mul_right _ (by omega)
    omega
  have hexp : (g.m_blockCurrent + 1) * g.m_blockSamples
      = g.m_blockCurrent * g.m_blockSamples + g.m_blockSamples := by ring
  rw [hexp] at hwrap ⊢
  have hcb : (g.m_blockCurrent * g.m_blockSamples) % UINT_SIZE
      = g.m_blockCurrent * g.m_blockSamples := Nat.mod_eq_of_lt (by omega)
  have hdvd : g.m_channels ∣ g.m_blockSamples →
      (∀ fuel, g.m_blockSamples / g.m_channels ≤ fuel →
        ∃ r, NoiseGenerator.MainThread.fillBlock fuel g (Dbl.ofInt M) user = .ok r
          ∧ r.2.2.map Prod.fst
            = List.range' (g.m_blockCurrent * g.m_blockSamples) g.m_blockSamples
          ∧ r.1.m_blockCurrent = (g.m_blockCurrent + 1) % g.m_blockCount)
      ∧ (∀ fuel, fuel < g.m_blockSamples / g.m_channels →
          NoiseGenerator.MainThread.fillBlock fuel g (Dbl.ofInt M) user
            = .error .outOfFuel) := by
    rintro ⟨q, hq⟩
    rw [Nat.mul_comm] at hq
    have hdiv : g.m_blockSamples / g.m_channels = q := by
      rw [hq]
      exact Nat.mul_div_cancel _ (by omega)
    rw [hdiv]
    constructor
    · intro fuel hfuel
      obtain ⟨st', h1, _, hs, _⟩ := NoiseGenerator.MainThread.fillLoop_exact g M hM hM53
        ((g.m_blockCurrent * g.m_blockSamples) % UINT_SIZE) hbsU q hq (by omega) q 0 fuel
        ⟨user, g.m_globalTime, []⟩ (by omega) hfuel
      rw [Nat.zero_mul] at h1 hs
      refine ⟨_, by rw [hM', h1]; rfl, ?_, ?_⟩
      · show st'.stores.map Prod.fst = _
        rw [hs, ← hq, hcb]
        simp only [List.map_nil, List.nil_append]
        have hr : List.range' (g.m_blockCurrent * g.m_blockSamples) g.m_blockSamples
            = (List.range' 0 g.m_blockSamples).map
                (fun x => g.m_blockCurrent * g.m_blockSamples + x) := by
          rw [List.map_add_range', Nat.add_zero]
        rw [hr]
        apply List.map_congr_left
        intro i hi
        have hlt := (List.mem_range'_1.mp hi).2
        exact Nat.mod_eq_of_lt (by omega)
      · show (g.m_blockCurrent + 1) % UINT_SIZE % g.m_blockCount = _
        rw [Nat.mod_eq_of_lt (lt_of_le_of_lt (Nat.succ_le_of_lt hb) hcountU)]
    · intro fuel hfuel
      have h1 := NoiseGenerator.MainThread.fillLoop_short g M hM hM53
        ((g.m_blockCurrent * g.m_blockSamples) % UINT_SIZE) hbsU q hq (by omega) fuel 0
        ⟨user, g.m_globalTime, []⟩ (by omega)
      rw [Nat.zero_mul] at h1
      rw [hM', h1]
      rfl
  refine ⟨⟨?_, ?_⟩, hdvd⟩
  · rintro ⟨fuel, r, hr, hall⟩
    by_contra hnd
    have hmod : 0 < g.m_blockSamples % g.m_channels :=
      Nat.pos_of_ne_zero (fun h => hnd (Nat.dvd_of_mod_eq_zero h))
    have hlt : g.m_blockSamples % g.m_channels < g.m_channels := Nat.mod_lt _ (by omega)
    have hsum := Nat.div_add_mod g.m_blockSamples g.m_channels
    rw [Nat.mul_comm] at hsum
    rw [hM'] at hr
    cases hl : NoiseGenerator.MainThread.fillLoop g (Dbl.ofInt M)
        ((g.m_blockCurrent * g.m_blockSamples) % UINT_SIZE) fuel 0
        ⟨user, g.m_globalTime, []⟩ with
    | error e =>
      rw [hl] at hr
      cases hr
    | ok st =>
      rw [hl] at hr
      simp only [Except.bind, Except.ok.injEq] at hr
      have h0 : NoiseGenerator.MainThread.fillLoop g (Dbl.ofInt M)
          ((g.m_blockCurrent * g.m_blockSamples) % UINT_SIZE) fuel (0 * g.m_channels)
          ⟨user, g.m_globalTime, []⟩ = .ok st := by
        rw [Nat.zero_mul]
        exact hl
      have hmem := NoiseGenerator.MainThread.fillLoop_reaches g M hM hM53
        ((g.m_blockCurrent * g.m_blockSamples) % UINT_SIZE) hbsU
        (g.m_blockSamples / g.m_channels) (by omega) (g.m_blockSamples % g.m_channels) hlt
        (g.m_blockSamples / g.m_channels) 0 fuel _ st (by omega) h0
      rw [hcb, Nat.add_assoc, hsum] at hmem
      obtain ⟨p, hp, hpe⟩ := List.mem_map.mp hmem
      have hin : p ∈ r.2.2 := by
        rw [← hr]
        exact hp
      obtain ⟨hp0, hp1⟩ := hall p hin
      rw [hpe, hU] at hp0 hp1
      rw [hU] at hwrap hbsU
      omega
  · intro hd
    obtain ⟨r, hr, hidx, _⟩ := (hdvd hd).1 (g.m_blockSamples / g.m_channels) (le_refl _)
    refine ⟨_, r, hr, ?_⟩
    intro p hp
    have hmem : p.1 ∈ r.2.2.map Prod.fst := List.mem_map.mpr ⟨p, hp, rfl⟩
    rw [hidx] at hmem
    exact List.mem_range'_1.mp hmem

/-- Witness of C23: the engine of `main` (one channel, 8 blocks of 512 samples,
`maxSample = 32767`) at block 3; the pass stores at the indices 1536 to 2047
and moves to block 4. -/
theorem NoiseGenerator.MainThread.fill_in_block_witness :
    ∃ r, NoiseGenerator.MainThread.fillBlock 512
        (⟨16, none, 44100, 1, 8, 512, 3, none, none, none, true, true, 7, .fin 0⟩ :
          NoiseGenerator Unit) (Dbl.ofInt 32767) () = .ok r
      ∧ r.2.2.map Prod.fst = List.range' (3 * 512) 512
      ∧ r.1.m_blockCurrent = (3 + 1) % 8 :=
  ((NoiseGenerator.MainThread.fill_in_block
    (⟨16, none, 44100, 1, 8, 512, 3, none, none, none, true, true, 7, .fin 0⟩ :
      NoiseGenerator Unit) 32767 () (by norm_num) (by norm_num) (by norm_num) (by norm_num)
    (by norm_num) (by norm_num [UINT_SIZE])).2 (one_dvd _)).1 512 (by norm_num)

namespace synthesizer

namespace binary64

/-! ## Attack ramp in `double` arithmetic -/

/-- Quotient of two finite `double` values, the divisor not zero. -/
theorem div_fin (a b : ℚ) (hb : b ≠ 0) : div (.fin a) (.fin b) = round (a / b) := by
  simp only [div, Dbl.fin_div_fin _ _ hb, rnd]

/-- Zero is a `double`. -/
theorem round_zero : round 0 = .fin 0 := by
  have h := round_dyadic 0 0 (by norm_num) (by norm_num) (by norm_num)
  simpa using h

/-- One is a `double`. -/
theorem round_one : round 1 = .fin 1 := by
  have h := round_dyadic 1 0 (by norm_num) (by norm_num) (by norm_num)
  simpa using h

/-- The literal `0.0`. -/
theorem lit_zero : lit 0.0 = .fin 0 := by
  unfold lit
  norm_num
  exact round_zero

/-- The literal `1.0`. -/
theorem lit_one : lit 1.0 = .fin 1 := by
  unfold lit
  norm_num
  exact round_one

end binary64

end synthesizer

namespace synthesizer

namespace binary64

/-! ## Pitch in `double` arithmetic -/

/-- The literal of `Scale` is the `double` `4771397596969315 · 2^-52`, printed
`1.0594630943592953`. -/
theorem lit_semitone :
    lit 1.0594630943592952645618252949463 = .fin (4771397596969315 * 2 ^ (-52 : ℤ)) := by
  unfold lit
  have h := round_eq (1.0594630943592952645618252949463 : ℚ) 0 4771397596969315 (by norm_num)
    (by rw [abs_of_pos (by norm_num)]; norm_num) (by rw [abs_of_pos (by norm_num)]; norm_num)
    (Or.inl (by rw [abs_lt]; norm_num)) (by rw [abs_of_pos (by norm_num)]; norm_num)
  rw [h]
  norm_num

/-- The twelfth power of that `double` lies above `2`, by between two and four
units in the last place of `2`. -/
theorem semitone_pow_twelve :
    (2 : ℚ) + 2 ^ (-50 : ℤ) < (4771397596969315 * 2 ^ (-52 : ℤ)) ^ (12 : ℤ)
    ∧ ((4771397596969315 * 2 ^ (-52 : ℤ)) ^ (12 : ℤ) : ℚ) < 2 + 2 ^ (-49 : ℤ) := by
  constructor <;> norm_num

/-- Eight times a `double` of `[2, 4)` is a `double`. -/
theorem round_eight_mul (v : ℚ) (hv : round v = .fin v) (h2 : 2 ≤ v) (h4 : v < 4) :
    round (8 * v) = .fin (8 * v) := by
  have he : exponent v = 1 := exponent_eq v 1 (by norm_num)
    (by rw [abs_of_pos (by linarith)]; norm_num; exact h2)
    (by rw [abs_of_pos (by linarith)]; norm_num; exact h4)
  obtain ⟨k, hk, _, _⟩ := nearest_form v
  rw [(round_idem v v hv).2, he] at hk
  have hu : (0 : ℚ) < 2 ^ ((1 : ℤ) - 52) := by positivity
  have hk0 : 0 < k := by
    by_contra hc
    have hc1 : (k : ℚ) ≤ 0 := by exact_mod_cast (by omega : k ≤ 0)
    have : v ≤ 0 := by
      rw [hk]
      exact mul_nonpos_of_nonpos_of_nonneg hc1 (le_of_lt hu)
    linarith
  have hk53 : k < 2 ^ 53 := by
    have h : (k : ℚ) * 2 ^ ((1 : ℤ) - 52) < 4 := by
      rw [← hk]
      exact h4
    have e : (4 : ℚ) = (((2 : ℤ) ^ 53 : ℤ) : ℚ) * 2 ^ ((1 : ℤ) - 52) := by norm_num
    rw [e] at h
    have := lt_of_mul_lt_mul_right h (le_of_lt hu)
    exact_mod_cast this
  have e8 : 8 * v = (k : ℚ) * 2 ^ (-48 : ℤ) := by
    rw [hk]
    norm_num
    ring
  rw [e8]
  exact round_dyadic k (-48) (by rw [abs_of_pos hk0]; exact hk53) (by norm_num) (by norm_num)

/-- What `Scale` returns for a `pow` with `pow(x, 0) = 1` at the literal and a
value `v` at the exponent `12` that is within two units in the last place of
the twelfth power: `8` at the note `0`, and `8 · v`, above `16`, at the note
`12`. -/
theorem Scale_values (pow : Dbl → Dbl → Dbl) (v : ℚ)
    (h0 : pow (.fin (4771397596969315 * 2 ^ (-52 : ℤ))) (Dbl.ofInt 0) = .fin 1)
    (h12 : pow (.fin (4771397596969315 * 2 ^ (-52 : ℤ))) (Dbl.ofInt 12) = .fin v)
    (hv : round v = .fin v)
    (hacc : |v - (4771397596969315 * 2 ^ (-52 : ℤ)) ^ (12 : ℤ)| < 2 ^ (-50 : ℤ)) :
    Scale pow 0 = .fin 8
    ∧ Scale pow (0 + 12) = .fin (8 * v) ∧ 16 < 8 * v
    ∧ mul (.fin 2) (Scale pow 0) = .fin 16 := by
  obtain ⟨hlo, hhi⟩ := semitone_pow_twelve
  have hb := abs_lt.mp hacc
  have hv2 : 2 < v := by linarith [hb.1]
  have hv4 : v < 4 := by
    have : (2 : ℚ) + 2 ^ (-49 : ℤ) + 2 ^ (-50 : ℤ) < 4 := by norm_num
    linarith [hb.2]
  have h8 : round (8 : ℚ) = .fin 8 := by
    have h := round_dyadic 1 3 (by norm_num) (by norm_num) (by norm_num)
    norm_num at h
    exact h
  have h16 : round (16 : ℚ) = .fin 16 := by
    have h := round_dyadic 1 4 (by norm_num) (by norm_num) (by norm_num)
    norm_num at h
    exact h
  have hs0 : Scale pow 0 = .fin 8 := by
    unfold Scale
    rw [lit_semitone, h0]
    show mul (Dbl.fin ((8 : ℤ) : ℚ)) (.fin 1) = _
    rw [mul_fin]
    norm_num
    exact h8
  refine ⟨hs0, ?_, by linarith, ?_⟩
  · unfold Scale
    rw [lit_semitone, zero_add, h12]
    show mul (Dbl.fin ((8 : ℤ) : ℚ)) (.fin v) = _
    rw [mul_fin]
    have e : (((8 : ℤ) : ℚ)) * v = 8 * v := by norm_num
    rw [e]
    exact round_eight_mul v hv (le_of_lt hv2) hv4
  · rw [hs0, mul_fin]
    norm_num
    exact h16

/-- C20, amended to the arithmetic of `double`. For every integer `noteId`,
`Scale(noteId)` is the `double` product of `8` and `pow(c, noteId)`, where `c`,
the `double` nearest to the literal, is `4771397596969315 · 2^-52`
(`1.0594630943592953`), whose twelfth power lies between `2 + 2^-50` and
`2 + 2^-49`.  For a `pow` with `pow(c, 0) = 1` and a value at the exponent `12`
within two units in the last place of that power: `Scale(0) = 8`, and
`Scale(12)` is above `16 = 2 * Scale(0)`. -/
theorem Scale_semitones (pow : Dbl → Dbl → Dbl) (v : ℚ)
    (h0 : pow (.fin (4771397596969315 * 2 ^ (-52 : ℤ))) (Dbl.ofInt 0) = .fin 1)
    (h12 : pow (.fin (4771397596969315 * 2 ^ (-52 : ℤ))) (Dbl.ofInt 12) = .fin v)
    (hv : round v = .fin v)
    (hacc : |v - (4771397596969315 * 2 ^ (-52 : ℤ)) ^ (12 : ℤ)| < 2 ^ (-50 : ℤ)) :
    (∀ noteId : Int,
      Scale pow noteId
        = mul (.fin 8) (pow (.fin (4771397596969315 * 2 ^ (-52 : ℤ))) (Dbl.ofInt noteId)))
    ∧ ((2 : ℚ) + 2 ^ (-50 : ℤ) < (4771397596969315 * 2 ^ (-52 : ℤ)) ^ (12 : ℤ)
      ∧ ((4771397596969315 * 2 ^ (-52 : ℤ)) ^ (12 : ℤ) : ℚ) < 2 + 2 ^ (-49 : ℤ))
    ∧ Scale pow 0 = .fin 8
    ∧ Scale pow (0 + 12) = .fin (8 * v) ∧ 16 < 8 * v
    ∧ mul (.fin 2) (Scale pow 0) = .fin 16 := by
  refine ⟨?_, semitone_pow_twelve, Scale_values pow v h0 h12 hv hacc⟩
  intro noteId
  unfold Scale
  rw [lit_semitone]
  show mul (Dbl.fin ((8 : ℤ) : ℚ)) _ = _
  norm_num

/-- The correctly rounded `pow` at the literal of `Scale`: `1` at the exponent
`0` and `4503599627370498 · 2^-51` at the exponent `12`. -/
theorem powRounded_semitone :
    powRounded (.fin (4771397596969315 * 2 ^ (-52 : ℤ))) (Dbl.ofInt 0) = .fin 1
    ∧ powRounded (.fin (4771397596969315 * 2 ^ (-52 : ℤ))) (Dbl.ofInt 12)
      = .fin (4503599627370498 * 2 ^ (-51 : ℤ)) := by
  constructor
  · show powRounded _ (Dbl.fin ((0 : ℤ) : ℚ)) = _
    unfold powRounded
    norm_num
    exact round_one
  · show powRounded _ (Dbl.fin ((12 : ℤ) : ℚ)) = _
    unfold powRounded
    have hf : ⌊(12 : ℚ)⌋ = 12 := by norm_num
    simp only [Int.cast_ofNat, hf, eq_self_iff_true, if_true]
    have h := round_eq ((4771397596969315 * 2 ^ (-52 : ℤ) : ℚ) ^ (12 : ℤ)) 1 4503599627370498
      (by norm_num)
      (by rw [abs_of_pos (by norm_num)]; norm_num) (by rw [abs_of_pos (by norm_num)]; norm_num)
      (Or.inl (by rw [abs_lt]; norm_num)) (by rw [abs_of_pos (by norm_num)]; norm_num)
    rw [h]
    norm_num

/-- Witness of C20: the correctly rounded `pow`; `Scale(0) = 8` and
`Scale(12) = 8 · (4503599627370498 · 2^-51)`, printed `16.000000000000007`. -/
theorem Scale_semitones_witness :
    Scale powRounded 0 = .fin 8
    ∧ Scale powRounded (0 + 12) = .fin (8 * (4503599627370498 * 2 ^ (-51 : ℤ))) := by
  have h := Scale_semitones powRounded (4503599627370498 * 2 ^ (-51 : ℤ))
    powRounded_semitone.1 powRounded_semitone.2
    (round_of_dyadic _ 4503599627370498 (-51) (by norm_num) (by norm_num) (by norm_num)
      (by norm_num))
    (by rw [abs_lt]; norm_num)
  exact ⟨h.2.2.1, h.2.2.2.1⟩

/-- C20 as stated fails in `double` arithmetic: with the correctly rounded
`pow`, `Scale(0 + 12)` is `16 + 2^-47`, printed `16.000000000000007`, and
`2 * Scale(0)` is `16`. -/
theorem Scale_octave_counterexample :
    Scale powRounded (0 + 12) = .fin (16 + 2 ^ (-47 : ℤ))
    ∧ mul (.fin 2) (Scale powRounded 0) = .fin 16
    ∧ Scale powRounded (0 + 12) ≠ mul (.fin 2) (Scale powRounded 0) := by
  obtain ⟨h0, h12, _, h2⟩ := Scale_values powRounded
    (4503599627370498 * 2 ^ (-51 : ℤ)) powRounded_semitone.1 powRounded_semitone.2
    (round_of_dyadic _ 4503599627370498 (-51) (by norm_num) (by norm_num) (by norm_num)
      (by norm_num))
    (by rw [abs_lt]; norm_num)
  have e : (8 * (4503599627370498 * 2 ^ (-51 : ℤ)) : ℚ) = 16 + 2 ^ (-47 : ℤ) := by norm_num
  rw [e] at h12
  refine ⟨h12, h2, ?_⟩
  rw [h12, h2]
  intro h
  have := Dbl.fin.inj h
  norm_num at this

end binary64

end synthesizer

namespace synthesizer

namespace binary64

/-! ## Oscillator in `double` arithmetic -/

/-- The literal `2.0`. -/
theorem lit_two : lit 2.0 = .fin 2 := by
  unfold lit
  have h := round_dyadic 1 1 (by norm_num) (by norm_num) (by norm_num)
  norm_num at h ⊢
  exact h

/-- Adding `0.0` to a result of `double` arithmetic returns it. -/
theorem add_zero_rnd (x : Dbl) : add (rnd x) (.fin 0) = rnd x := by
  cases x with
  | fin q =>
    show add (round q) (.fin 0) = round q
    cases hr : round q with
    | fin v =>
      rw [add_fin, add_zero]
      exact (round_idem q v hr).1
    | pinf => rfl
    | ninf => rfl
    | nan => rfl
  | pinf => rfl
  | ninf => rfl
  | nan => rfl

/-- A sum with NaN is NaN. -/
theorem add_nan (x : Dbl) : add x .nan = .nan := by
  cases x <;> rfl

/-- For a C library whose `acos(0.0)` is the `double` nearest to `π/2`, the
constant `PI` is `884279719003555 · 2^-48`. -/
theorem PI_eq (m : LibM) (hacos : m.acos (.fin 0) = .fin (884279719003555 * 2 ^ (-49 : ℤ))) :
    PI m = .fin (884279719003555 * 2 ^ (-48 : ℤ)) := by
  unfold PI
  rw [lit_two, lit_zero, hacos, mul_fin]
  have e : (2 : ℚ) * (884279719003555 * 2 ^ (-49 : ℤ)) = 884279719003555 * 2 ^ (-48 : ℤ) := by
    norm_num
  rw [e]
  exact round_of_dyadic _ 884279719003555 (-48) (by norm_num) (by norm_num) (by norm_num)
    (by norm_num)

/-- That `double` is within `2^-52` of `π`. -/
theorem PI_near_pi :
    |(((884279719003555 * 2 ^ (-48 : ℤ) : ℚ)) : ℝ) - Real.pi| < 2 ^ (-52 : ℤ) := by
  have h1 := Real.pi_gt_d20
  have h2 := Real.pi_lt_d20
  rw [abs_lt]
  push_cast
  constructor
  · norm_num at h1 h2 ⊢
    linarith
  · norm_num at h1 h2 ⊢
    linarith

/-- The local `frequency` of `Oscillate` for a vibrato depth of `0.0`, when
`sin` of the vibrato argument is finite: the vibrato term vanishes. -/
theorem Oscillate.frequency_plain (m : LibM) (t f lfoHertz r : ℚ)
    (hsin : m.sin (mul (ConvertToHz m (.fin lfoHertz)) (.fin t)) = .fin r) :
    Oscillate.frequency m (.fin t) (.fin f) (.fin lfoHertz) (.fin 0)
      = mul (ConvertToHz m (.fin f)) (.fin t) := by
  unfold Oscillate.frequency
  rw [hsin, mul_fin, zero_mul, round_zero, mul_fin, zero_mul, round_zero]
  exact add_zero_rnd _

/-- C12, amended to the arithmetic of `double`. For a vibrato depth of `0.0`,
every finite time `t`, frequency `f` and vibrato frequency for which `sin` of
the vibrato argument `ConvertToHz(lfoHertz) * t` is finite,
`Oscillate(t, f, SINE_WAVE, lfoHertz, 0)` returns `sin(ConvertToHz(f) * t)`,
the argument being the `double` product `((f * 2.0) * PI) * t`; for a C library
whose `acos(0.0)` is the `double` nearest to `π/2`, `PI` is a `double` within
`2^-52` of `π`. -/
theorem Oscillate_sine (m : LibM) (fuel rng : Nat) (t f lfoHertz r : ℚ) (custom : Dbl)
    (hsin : m.sin (mul (ConvertToHz m (.fin lfoHertz)) (.fin t)) = .fin r) :
    Oscillate m fuel rng (.fin t) (.fin f) SINE_WAVE (.fin lfoHertz) (.fin 0) custom
      = .ok (m.sin (mul (mul (mul (.fin f) (.fin 2)) (PI m)) (.fin t)), rng)
    ∧ (m.acos (.fin 0) = .fin (884279719003555 * 2 ^ (-49 : ℤ)) →
        ∃ p : ℚ, PI m = .fin p ∧ |(p : ℝ) - Real.pi| < 2 ^ (-52 : ℤ)) := by
  constructor
  · unfold Oscillate
    simp only [if_true]
    rw [Oscillate.frequency_plain m t f lfoHertz r hsin]
    unfold ConvertToHz
    rw [lit_two]
  · intro hacos
    exact ⟨_, PI_eq m hacos, PI_near_pi⟩

/-- The constant `PI` of the library `coarse`. -/
theorem PI_coarse : PI LibM.coarse = .fin (884279719003555 * 2 ^ (-48 : ℤ)) := by
  apply PI_eq
  show (if |(0 : ℚ)| ≤ 1 then round ((1 - 0) * (884279719003555 * 2 ^ (-49 : ℤ))) else Dbl.nan)
    = _
  rw [if_pos (by norm_num)]
  have e : ((1 : ℚ) - 0) * (884279719003555 * 2 ^ (-49 : ℤ))
      = 884279719003555 * 2 ^ (-49 : ℤ) := by norm_num
  rw [e]
  exact round_of_dyadic _ 884279719003555 (-49) (by norm_num) (by norm_num) (by norm_num)
    (by norm_num)

/-- Bhaskara's approximation stays in `[-1, 1]`. -/
theorem bhaskara_range (p x : ℚ) (hp : 0 < p) : -1 ≤ bhaskara p x ∧ bhaskara p x ≤ 1 := by
  have key : ∀ y : ℚ, 0 ≤ y → y ≤ p →
      0 ≤ 16 * y * (p - y) / (5 * p ^ 2 - 4 * y * (p - y))
      ∧ 16 * y * (p - y) / (5 * p ^ 2 - 4 * y * (p - y)) ≤ 1 := by
    intro y h0 h1
    have hu : 0 ≤ y * (p - y) := mul_nonneg h0 (by linarith)
    have hq : 4 * (y * (p - y)) ≤ p ^ 2 := by nlinarith [sq_nonneg (p - 2 * y)]
    have hden : 0 < 5 * p ^ 2 - 4 * y * (p - y) := by nlinarith [sq_pos_of_pos hp]
    constructor
    · apply div_nonneg _ (le_of_lt hden)
      nlinarith
    · rw [div_le_one hden]
      nlinarith
  have h2p : 0 < 2 * p := by linarith
  have hfl := Int.floor_le (x / (2 * p))
  have hlt := Int.lt_floor_add_one (x / (2 * p))
  have hy0 : 0 ≤ x - 2 * p * ⌊x / (2 * p)⌋ := by
    have := (le_div_iff₀ h2p).mp hfl
    linarith
  have hy1 : x - 2 * p * ⌊x / (2 * p)⌋ < 2 * p := by
    have := (div_lt_iff₀ h2p).mp hlt
    linarith
  unfold bhaskara
  simp only
  split_ifs with h
  · obtain ⟨a, b⟩ := key _ hy0 h
    exact ⟨by linarith, b⟩
  · have h' : p < x - 2 * p * ⌊x / (2 * p)⌋ := not_le.mp h
    obtain ⟨a, b⟩ := key (x - 2 * p * ⌊x / (2 * p)⌋ - p) (by linarith) (by linarith)
    have e : p - (x - 2 * p * ⌊x / (2 * p)⌋ - p) = 2 * p - (x - 2 * p * ⌊x / (2 * p)⌋) := by
      ring
    rw [e] at a b
    exact ⟨by linarith, by linarith⟩

/-- The `sin` of the library `coarse` is finite, in `[-1, 1]`, at every finite
argument. -/
theorem sin_coarse_fin (q : ℚ) :
    ∃ r : ℚ, LibM.coarse.sin (.fin q) = .fin r ∧ -1 ≤ r ∧ r ≤ 1 := by
  obtain ⟨h0, h1⟩ := bhaskara_range (884279719003555 * 2 ^ (-48 : ℤ)) q (by positivity)
  obtain ⟨v, hv, hv0, hv1⟩ := round_clip_mul _ 1 h0 h1 (by norm_num)
  refine ⟨v, ?_, by simpa using hv0, by simpa using hv1⟩
  show round (bhaskara (884279719003555 * 2 ^ (-48 : ℤ)) q) = _
  rw [← hv]
  norm_num

/-- Witness of C12: the library `coarse`, `t = 1/2`, `f = 440` and the vibrato
frequency `5`; the result is `sin` of the `double` product
`((440 * 2) * PI) * 0.5`. -/
theorem Oscillate_sine_witness :
    Oscillate LibM.coarse 0 0 (.fin (1 / 2)) (.fin 440) SINE_WAVE (.fin 5) (.fin 0)
        (.fin 50)
      = .ok (LibM.coarse.sin
          (mul (mul (mul (.fin 440) (.fin 2)) (PI LibM.coarse)) (.fin (1 / 2))), 0) := by
  have h10 : round ((5 : ℚ) * 2) = .fin 10 := by
    have h := round_dyadic 5 1 (by norm_num) (by norm_num) (by norm_num)
    norm_num at h ⊢
    exact h
  have hpi : round ((10 : ℚ) * (884279719003555 * 2 ^ (-48 : ℤ)))
      = .fin (8842797190035550 * 2 ^ (-48 : ℤ)) := by
    have h := round_dyadic 8842797190035550 (-48) (by norm_num) (by norm_num) (by norm_num)
    have e : (10 : ℚ) * (884279719003555 * 2 ^ (-48 : ℤ))
        = ((8842797190035550 : ℤ) : ℚ) * 2 ^ (-48 : ℤ) := by norm_num
    rw [e, h]
    norm_num
  have hhalf : round ((8842797190035550 * 2 ^ (-48 : ℤ) : ℚ) * (1 / 2))
      = .fin (8842797190035550 * 2 ^ (-49 : ℤ)) := by
    have h := round_dyadic 8842797190035550 (-49) (by norm_num) (by norm_num) (by norm_num)
    have e : (8842797190035550 * 2 ^ (-48 : ℤ) : ℚ) * (1 / 2)
        = ((8842797190035550 : ℤ) : ℚ) * 2 ^ (-49 : ℤ) := by norm_num
    rw [e, h]
    norm_num
  have harg : mul (ConvertToHz LibM.coarse (.fin 5)) (.fin (1 / 2))
      = .fin (8842797190035550 * 2 ^ (-49 : ℤ)) := by
    unfold ConvertToHz
    rw [lit_two, PI_coarse, mul_fin, h10, mul_fin, hpi, mul_fin, hhalf]
  obtain ⟨r, hr, _⟩ := sin_coarse_fin (8842797190035550 * 2 ^ (-49 : ℤ))
  exact (Oscillate_sine LibM.coarse 0 0 (1 / 2) 440 5 r (.fin 50) (by
    rw [harg]
    exact hr)).1

/-- The product `2^1023 * 2.0` overflows. -/
theorem round_overflow : round ((2 : ℚ) ^ (1023 : ℤ) * 2) = .pinf := by
  have h := nearest_dyadic 1 1024 (by norm_num) (by norm_num)
  have e : (2 : ℚ) ^ (1023 : ℤ) * 2 = ((1 : ℤ) : ℚ) * 2 ^ (1024 : ℤ) := by norm_num
  unfold round
  rw [e, h, if_pos (by norm_num)]

/-- The product of `+inf` and a positive finite value is `+inf`. -/
theorem mul_pinf_pos (b : ℚ) (hb : 0 < b) : mul .pinf (.fin b) = .pinf := by
  have h : Dbl.pinf * Dbl.fin b = Dbl.pinf := by
    show Dbl.infTimes true b = Dbl.pinf
    unfold Dbl.infTimes
    rw [if_neg (ne_of_gt hb)]
    simp [hb]
  unfold mul
  rw [h]
  rfl

/-- C12 as stated fails in `double` arithmetic.  With the library `coarse`,
whose `sin` is NaN at the infinities as that of C, a vibrato depth of `0.0` and
the vibrato frequency `2^1023`, `ConvertToHz(lfoHertz)` overflows to `+inf`,
`sin` of the vibrato argument is NaN, the vibrato term `0.0 * NaN` is NaN, and
`Oscillate(1, 440, SINE_WAVE, lfoHertz, 0)` returns NaN, which is not
`sin(2 * pi * 440 * 1)`. -/
theorem Oscillate_sine_counterexample :
    Oscillate LibM.coarse 0 0 (.fin 1) (.fin 440) SINE_WAVE (.fin (2 ^ (1023 : ℤ)))
        (.fin 0) (.fin 50)
      = .ok (.nan, 0) := by
  have hc : ConvertToHz LibM.coarse (.fin (2 ^ (1023 : ℤ))) = .pinf := by
    unfold ConvertToHz
    rw [lit_two, PI_coarse, mul_fin, round_overflow]
    exact mul_pinf_pos _ (by positivity)
  have hlfo : mul (ConvertToHz LibM.coarse (.fin (2 ^ (1023 : ℤ)))) (.fin 1) = .pinf := by
    rw [hc]
    exact mul_pinf_pos 1 (by norm_num)
  have hs : LibM.coarse.sin .pinf = .nan := rfl
  have hn : LibM.coarse.sin .nan = .nan := rfl
  have hm : mul (.fin 0) .nan = .nan := rfl
  have hz : mul (.fin 0) (.fin 440) = .fin 0 := by
    rw [mul_fin, zero_mul, round_zero]
  have hf : Oscillate.frequency LibM.coarse (.fin 1) (.fin 440) (.fin (2 ^ (1023 : ℤ)))
      (.fin 0) = .nan := by
    unfold Oscillate.frequency
    rw [hlfo, hs, hz, hm, add_nan]
  unfold Oscillate
  rw [hf]
  simp only [if_true, hn]

end binary64

end synthesizer

namespace synthesizer

namespace binary64

/-! ## Sawtooth in `double` arithmetic -/

/-- The counter `n++` of the sawtooth loop below `2^53`: the next integer. -/
theorem counter_succ (k : Nat) (hk : k + 1 ≤ 2 ^ 53) :
    add (.fin (k : ℚ)) (lit 1.0) = .fin ((k + 1 : Nat) : ℚ) := by
  rw [lit_one, add_fin]
  rcases Nat.lt_or_ge (k + 1) (2 ^ 53) with h | h
  · have hr := round_dyadic ((k + 1 : ℕ) : ℤ) 0
      (by
        rw [abs_of_nonneg (by positivity)]
        exact_mod_cast h) (by norm_num) (by norm_num)
    rw [zpow_zero, mul_one] at hr
    push_cast at hr ⊢
    exact hr
  · have hk1 : k + 1 = 2 ^ 53 := by omega
    have e : ((k : ℚ) + 1) = (((2 : ℤ) ^ 52 : ℤ) : ℚ) * 2 ^ (1 : ℤ) := by
      have : ((k + 1 : ℕ) : ℚ) = ((2 ^ 53 : ℕ) : ℚ) := by rw [hk1]
      push_cast at this
      rw [this]
      norm_num
    have hr := round_dyadic ((2 : ℤ) ^ 52) 1 (by norm_num) (by norm_num) (by norm_num)
    rw [← e] at hr
    push_cast
    exact hr

/-- The counter `n++` at `2^53`: the sum `2^53 + 1` rounds back to `2^53`. -/
theorem counter_stuck : add (.fin ((2 ^ 53 : Nat) : ℚ)) (lit 1.0) = .fin ((2 ^ 53 : Nat) : ℚ) := by
  rw [lit_one, add_fin]
  have h := round_eq ((((2 ^ 53 : ℕ) : ℚ)) + 1) 53 (2 ^ 52) (by norm_num)
    (by rw [abs_of_pos (by norm_num)]; norm_num) (by rw [abs_of_pos (by norm_num)]; norm_num)
    (Or.inr ⟨by rw [abs_of_pos (by norm_num)]; norm_num, by norm_num⟩)
    (by rw [abs_of_pos (by norm_num)]; norm_num)
  rw [h]
  norm_num

/-- The sawtooth loop for an integer `custom = h` of at most `2^53`, from the
counter `j + 1` with the sum of the first `j` terms: with fuel for the
`h - (j + 1)` iterations left it returns the sum of the first `h - 1` terms. -/
theorem Oscillate.sawLoop_sum (m : LibM) (frequency : Dbl) (h : Nat) (h53 : h ≤ 2 ^ 53) :
    ∀ (fuel j : Nat), j + 1 ≤ h → h - (j + 1) ≤ fuel →
      Oscillate.sawLoop m frequency (.fin (h : ℚ)) fuel (.fin ((j + 1 : Nat) : ℚ))
          (Reference.sawSum m frequency j)
        = .ok (Reference.sawSum m frequency (h - 1)) := by
  intro fuel
  induction fuel with
  | zero =>
    intro j hj hf
    have hjh : h = j + 1 := by omega
    have hk : ¬ (((j + 1 : Nat) : ℚ) < h) := by
      rw [hjh]
      exact lt_irrefl _
    rw [Oscillate.sawLoop]
    simp only [Dbl.lt_fin_fin, hk, decide_False, Bool.false_eq_true, if_false]
    rw [hjh]
    rfl
  | succ fuel ih =>
    intro j hj hf
    rw [Oscillate.sawLoop]
    by_cases hk : j + 1 < h
    · have hkq : (((j + 1 : Nat) : ℚ) < h) := by exact_mod_cast hk
      have hstep := ih (j + 1) (by omega) (by omega)
      simp only [Dbl.lt_fin_fin, hkq, decide_True, if_true]
      rw [counter_succ (j + 1) (by omega)]
      exact hstep
    · have hjh : h = j + 1 := by omega
      have hkq : ¬ (((j + 1 : Nat) : ℚ) < h) := by
        rw [hjh]
        exact lt_irrefl _
      simp only [Dbl.lt_fin_fin, hkq, decide_False, Bool.false_eq_true, if_false]
      rw [hjh]
      rfl

/-- The sawtooth loop needs its `h - (j + 1)` iterations: with less fuel it
does not return. -/
theorem Oscillate.sawLoop_short (m : LibM) (frequency : Dbl) (h : Nat) (h53 : h ≤ 2 ^ 53) :
    ∀ (fuel j : Nat) (output : Dbl), j + 1 + fuel < h →
      Oscillate.sawLoop m frequency (.fin (h : ℚ)) fuel (.fin ((j + 1 : Nat) : ℚ)) output
        = .error .outOfFuel := by
  intro fuel
  induction fuel with
  | zero =>
    intro j output hf
    have hkq : (((j + 1 : Nat) : ℚ) < h) := by
      have : j + 1 < h := by omega
      exact_mod_cast this
    rw [Oscillate.sawLoop]
    simp only [Dbl.lt_fin_fin, hkq, decide_True, if_true]
  | succ fuel ih =>
    intro j output hf
    have hkq : (((j + 1 : Nat) : ℚ) < h) := by
      have : j + 1 < h := by omega
      exact_mod_cast this
    rw [Oscillate.sawLoop]
    simp only [Dbl.lt_fin_fin, hkq, decide_True, if_true]
    rw [counter_succ (j + 1) (by omega)]
    exact ih (j + 1) _ (by omega)

/-- The sawtooth loop for `custom = 2^53 + 2` does not return, whatever the
fuel: the counter stops at `2^53`. -/
theorem Oscillate.sawLoop_stuck (m : LibM) (frequency : Dbl) :
    ∀ (fuel j : Nat) (output : Dbl), j + 1 ≤ 2 ^ 53 →
      Oscillate.sawLoop m frequency (.fin (2 ^ 53 + 2)) fuel (.fin ((j + 1 : Nat) : ℚ)) output
        = .error .outOfFuel := by
  intro fuel
  induction fuel with
  | zero =>
    intro j output hj
    have hkq : (((j + 1 : Nat) : ℚ) < 2 ^ 53 + 2) := by
      have : ((j + 1 : Nat) : ℚ) ≤ ((2 ^ 53 : Nat) : ℚ) := by exact_mod_cast hj
      push_cast at this ⊢
      linarith
    rw [Oscillate.sawLoop]
    simp only [Dbl.lt_fin_fin, hkq, decide_True, if_true]
  | succ fuel ih =>
    intro j output hj
    have hkq : (((j + 1 : Nat) : ℚ) < 2 ^ 53 + 2) := by
      have : ((j + 1 : Nat) : ℚ) ≤ ((2 ^ 53 : Nat) : ℚ) := by exact_mod_cast hj
      push_cast at this ⊢
      linarith
    rw [Oscillate.sawLoop]
    simp only [Dbl.lt_fin_fin, hkq, decide_True, if_true]
    rcases Nat.lt_or_ge (j + 1) (2 ^ 53) with h | h
    · rw [counter_succ (j + 1) (by omega)]
      exact ih (j + 1) _ (by omega)
    · have hj1 : j + 1 = 2 ^ 53 := by omega
      rw [hj1, counter_stuck, ← hj1]
      exact ih j _ hj

/-- The sawtooth is not the sine wave. -/
theorem saw_ne_sine : (SAW_WAVE = SINE_WAVE) = False := by
  simp [SAW_WAVE, SINE_WAVE]

/-- The sawtooth is not the square wave. -/
theorem saw_ne_square : (SAW_WAVE = SQUARE_WAVE) = False := by
  simp [SAW_WAVE, SQUARE_WAVE]

/-- The sawtooth is not the triangle wave. -/
theorem saw_ne_triangle : (SAW_WAVE = TRIANGLE_WAVE) = False := by
  simp [SAW_WAVE, TRIANGLE_WAVE]

/-- The quotient `2.0 / PI` for a C library whose `acos(0.0)` is the `double`
nearest to `π/2`. -/
theorem two_div_PI (m : LibM)
    (hacos : m.acos (.fin 0) = .fin (884279719003555 * 2 ^ (-49 : ℤ))) :
    div (lit 2.0) (PI m) = .fin (5734161139222659 * 2 ^ (-53 : ℤ)) := by
  rw [lit_two, PI_eq m hacos, div_fin _ _ (by norm_num)]
  have h := round_eq ((2 : ℚ) / (884279719003555 * 2 ^ (-48 : ℤ))) (-1) 5734161139222659
    (by norm_num)
    (by rw [abs_of_pos (by norm_num)]; norm_num) (by rw [abs_of_pos (by norm_num)]; norm_num)
    (Or.inl (by rw [abs_lt]; norm_num)) (by rw [abs_of_pos (by norm_num)]; norm_num)
  rw [h]
  norm_num

/-- C13, amended to the arithmetic of `double`. For every integer harmonics
value `1 <= h <= 2^53` passed as `custom` and every time, frequency and
vibrato, `Oscillate(..., SAW_WAVE, ..., h)` returns `S * (2.0 / PI)`, where `S`
is the sum of the terms `sin(n * frequency) / n` for `n = 1, ..., h - 1`, added
in that order in `double` arithmetic, and `frequency` is the local of that name.
The loop runs exactly `h - 1` iterations: `h - 1` units of fuel suffice and
fewer do not; so 49 terms for `h = 50`.  For `h = 1` and a C library whose
`acos(0.0)` is the `double` nearest to `π/2` the result is `0`, and for such a
library `PI` is a `double` within `2^-52` of `π`. -/
theorem Oscillate_saw (m : LibM) (rng : Nat) (h : Nat) (hh : 1 ≤ h) (h53 : h ≤ 2 ^ 53)
    (time hertz lfoHertz lfoAmplitude : Dbl) :
    (∀ fuel : Nat, h - 1 ≤ fuel →
      Oscillate m fuel rng time hertz SAW_WAVE lfoHertz lfoAmplitude (.fin (h : ℚ))
        = .ok (mul
            (Reference.sawSum m (Oscillate.frequency m time hertz lfoHertz lfoAmplitude)
              (h - 1))
            (div (lit 2.0) (PI m)), rng))
    ∧ (∀ fuel : Nat, fuel < h - 1 →
      Oscillate m fuel rng time hertz SAW_WAVE lfoHertz lfoAmplitude (.fin (h : ℚ))
        = .error .outOfFuel)
    ∧ (m.acos (.fin 0) = .fin (884279719003555 * 2 ^ (-49 : ℤ)) →
        (h = 1 → ∀ fuel : Nat,
          Oscillate m fuel rng time hertz SAW_WAVE lfoHertz lfoAmplitude (.fin (h : ℚ))
            = .ok (.fin 0, rng))
        ∧ ∃ p : ℚ, PI m = .fin p ∧ |(p : ℝ) - Real.pi| < 2 ^ (-52 : ℤ)) := by
  have hone : lit 1.0 = .fin ((0 + 1 : Nat) : ℚ) := by
    rw [lit_one]
    norm_num
  have hok : ∀ fuel : Nat, h - 1 ≤ fuel →
      Oscillate m fuel rng time hertz SAW_WAVE lfoHertz lfoAmplitude (.fin (h : ℚ))
        = .ok (mul
            (Reference.sawSum m (Oscillate.frequency m time hertz lfoHertz lfoAmplitude)
              (h - 1))
            (div (lit 2.0) (PI m)), rng) := by
    intro fuel hfuel
    have hl := Oscillate.sawLoop_sum m
      (Oscillate.frequency m time hertz lfoHertz lfoAmplitude) h h53 fuel 0 (by omega)
      (by omega)
    unfold Oscillate
    simp only [saw_ne_sine, saw_ne_square, saw_ne_triangle, if_false, if_true]
    rw [hone]
    have hs : lit 0.0
        = Reference.sawSum m (Oscillate.frequency m time hertz lfoHertz lfoAmplitude) 0 := rfl
    rw [hs, hl]
  refine ⟨hok, ?_, ?_⟩
  · intro fuel hfuel
    have hl := Oscillate.sawLoop_short m
      (Oscillate.frequency m time hertz lfoHertz lfoAmplitude) h h53 fuel 0 (lit 0.0) (by omega)
    unfold Oscillate
    simp only [saw_ne_sine, saw_ne_square, saw_ne_triangle, if_false, if_true]
    rw [hone, hl]
  · intro hacos
    refine ⟨?_, _, PI_eq m hacos, PI_near_pi⟩
    intro h1 fuel
    rw [hok fuel (by omega)]
    subst h1
    show Except.ok (mul (lit 0.0) (div (lit 2.0) (PI m)), rng) = _
    rw [two_div_PI m hacos, lit_zero, mul_fin, zero_mul, round_zero]

/-- Witness of C13: the library `coarse` and the default harmonics value `50`
with 49 units of fuel; the result is the sum of 49 terms times `2.0 / PI`. -/
theorem Oscillate_saw_witness :
    Oscillate LibM.coarse 49 0 (.fin (1 / 2)) (.fin 440) SAW_WAVE (.fin 5) (.fin 0)
        (.fin ((50 : Nat) : ℚ))
      = .ok (mul
          (Reference.sawSum LibM.coarse
            (Oscillate.frequency LibM.coarse (.fin (1 / 2)) (.fin 440) (.fin 5) (.fin 0))
            (50 - 1))
          (div (lit 2.0) (PI LibM.coarse)), 0) :=
  (Oscillate_saw LibM.coarse 0 50 (by norm_num) (by norm_num) (.fin (1 / 2)) (.fin 440)
    (.fin 5) (.fin 0)).1 49 (by norm_num)

/-- C13 as stated fails in `double` arithmetic.  For the integer harmonics
value `h = 2^53 + 2`, which is a `double`, the loop does not terminate: the
counter reaches `2^53`, where `n++` leaves it unchanged, and stays below
`custom`; `Oscillate` returns for no amount of fuel. -/
theorem Oscillate_saw_counterexample :
    ¬ ∃ (fuel : Nat) (r : Dbl × Nat),
      Oscillate LibM.coarse fuel 0 (.fin (1 / 2)) (.fin 440) SAW_WAVE (.fin 5) (.fin 0)
        (.fin (2 ^ 53 + 2)) = .ok r := by
  rintro ⟨fuel, r, hr⟩
  have hone : lit 1.0 = .fin ((0 + 1 : Nat) : ℚ) := by
    rw [lit_one]
    norm_num
  have hl := Oscillate.sawLoop_stuck LibM.coarse
    (Oscillate.frequency LibM.coarse (.fin (1 / 2)) (.fin 440) (.fin 5) (.fin 0)) fuel 0
    (lit 0.0) (by norm_num)
  unfold Oscillate at hr
  simp only [saw_ne_sine, saw_ne_square, saw_ne_triangle, if_false, if_true] at hr
  rw [hone, hl] at hr
  cases hr

end binary64

end synthesizer
